import Mathlib

/-!
Package-manager identification: a shallow embedding.

Lean model of the decision code of the Go package `packagemanager`
(`packagemanager.go`, `berry.go`, `pnpm.go`, `pnpm6.go`) together with the
library routines it calls (`regexp`, `strings.Split`, `strconv`,
`Masterminds/semver`), and theorems about that model.

Conventions.
* A Go `string` is a `List Char` (the text is assumed to be valid UTF-8, so
  that the runes seen by `regexp` are exactly its code points).
* A Go `error` is `Option GoError`: `none` is `nil`, `some msg` carries the
  text of the error.
* A run-time panic (index out of range) is the outer `Option` of a result:
  `none` means the call panicked.
-/

namespace Packagemanager

/-- Go strings, as sequences of code points. -/
abbrev GoString := List Char

/-- The text of a non-nil Go `error`. -/
abbrev GoError := String

/-! ## `regexp`: the fragment used by `packageManagerPattern` -/

/-- Regular expressions, restricted to the constructs that occur in
`packageManagerPattern`: literals, character classes, `c+` on a class,
concatenation, alternation and the greedy `r?`. -/
inductive Re where
  | eps : Re
  | lit : Char → Re
  | plus : (Char → Bool) → Re
  | seq : Re → Re → Re
  | alt : Re → Re → Re
  | opt : Re → Re

/-- Greedy `c*` of a backtracking matcher: consume one more rune of the class
first, and fall back to the continuation at the current position. -/
def Re.starClass (p : Char → Bool) : GoString → (GoString → Option GoString) → Option GoString
  | [], k => k []
  | c :: t, k => if p c then (Re.starClass p t k).orElse (fun _ => k (c :: t)) else k (c :: t)

/-- Backtracking matcher with leftmost-first (Perl/Go) priorities: `Re.run r s k`
matches `r` at the head of `s` and hands the remaining input to `k`; the first
alternative is preferred, and `+`, `?` are greedy. -/
def Re.run : Re → GoString → (GoString → Option GoString) → Option GoString
  | Re.eps, s, k => k s
  | Re.lit c, s, k =>
    match s with
    | [] => none
    | x :: t => if x = c then k t else none
  | Re.plus p, s, k =>
    match s with
    | [] => none
    | x :: t => if p x then Re.starClass p t k else none
  | Re.seq a b, s, k => Re.run a s (fun s1 => Re.run b s1 k)
  | Re.alt a b, s, k => (Re.run a s k).orElse (fun _ => Re.run b s k)
  | Re.opt a, s, k => (Re.run a s k).orElse (fun _ => k s)

/-- The literal word `w` as a regular expression. -/
def Re.word : GoString → Re
  | [] => Re.eps
  | c :: t => Re.seq (Re.lit c) (Re.word t)

/-- Text matched at the head of `s`, if `r` matches there. -/
def Re.matchAt (r : Re) (s : GoString) : Option GoString :=
  (Re.run r s some).map (fun rest => s.take (s.length - rest.length))

/-- `(*Regexp).FindString`: the text of the leftmost match, the empty string when
there is none. Start positions are tried from left to right. -/
def Re.FindString (r : Re) : GoString → GoString
  | [] => (Re.matchAt r []).getD []
  | c :: t =>
    match Re.matchAt r (c :: t) with
    | some w => w
    | none => Re.FindString r t

/-- `\d` in Go syntax: the ASCII digits. -/
def isDigit (c : Char) : Bool := c.isDigit

/-- `.` in Go syntax without the `s` flag: any rune but the line feed. -/
def isNotNewline (c : Char) : Bool := c != '\n'

/-- The source text of `packageManagerPattern`. -/
def packageManagerPattern : GoString := "(npm|pnpm|yarn)@(\\d+)\\.\\d+\\.\\d+(-.+)?".toList

/-- `packageManagerRegex`: the compiled form of
`(npm|pnpm|yarn)@(\d+)\.\d+\.\d+(-.+)?`. -/
def packageManagerRegex : Re :=
  Re.seq (Re.alt (Re.word "npm".toList) (Re.alt (Re.word "pnpm".toList) (Re.word "yarn".toList)))
   (Re.seq (Re.lit '@')
    (Re.seq (Re.plus isDigit)
     (Re.seq (Re.lit '.')
      (Re.seq (Re.plus isDigit)
       (Re.seq (Re.lit '.')
        (Re.seq (Re.plus isDigit)
         (Re.opt (Re.seq (Re.lit '-') (Re.plus isNotNewline)))))))))

/-! ## `strings.Split` -/

/-- `strings.Split(s, sep)` for a one-rune separator: the pieces of `s` between
the occurrences of `sep`; always at least one piece. -/
def stringsSplit (sep : Char) : GoString → List GoString
  | [] => [[]]
  | c :: t =>
    if c = sep then [] :: stringsSplit sep t
    else
      match stringsSplit sep t with
      | [] => [[c]]
      | h :: r => (c :: h) :: r

/-! ## `ParsePackageManagerString` -/

/-- The error of `ParsePackageManagerString`: the text built by `fmt.Errorf`. -/
def parseError (packageManager : GoString) : GoError :=
  "we could not parse packageManager field in package.json, expected: "
    ++ String.mk packageManagerPattern ++ ", received: " ++ String.mk packageManager

/-- `ParsePackageManagerString`: the triple `(manager, version, err)`; the outer
`Option` is `none` when an index expression panics. -/
def ParsePackageManagerString (packageManager : GoString) :
    Option (GoString × GoString × Option GoError) :=
  let matched := Re.FindString packageManagerRegex packageManager
  if matched.length = 0 then some ([], [], some (parseError packageManager))
  else
    match (stringsSplit '@' matched)[0]?, (stringsSplit '@' matched)[1]? with
    | some manager, some version => some (manager, version, none)
    | _, _ => none


/-! ## `strconv` -/

/-- A decimal numeral: a non-empty string of ASCII digits. -/
def isNumeral (ds : GoString) : Bool := !ds.isEmpty && ds.all isDigit

/-- Value of a decimal digit rune. -/
def digitValue (c : Char) : Nat := c.toNat - '0'.toNat

/-- Value of a string of decimal digits, most significant first. -/
def decimalValue (ds : GoString) : Nat := ds.foldl (fun n c => 10 * n + digitValue c) 0

/-- `strconv.ParseInt(s, 10, 64)`: an optional sign and decimal digits. The
result is a syntax error when there is no digit or a rune that is not one, and
a range error when the value does not fit in an `int64`. -/
def strconvParseInt (s : GoString) : Except GoError Int :=
  let digits : GoString := match s with
    | [] => []
    | c :: t => if c = '+' ∨ c = '-' then t else c :: t
  let negative : Bool := match s with
    | [] => false
    | c :: _ => decide (c = '-')
  if isNumeral digits = false then
    Except.error ("strconv.ParseInt: parsing \"" ++ String.mk s ++ "\": invalid syntax")
  else if negative then
    if decimalValue digits ≤ 2 ^ 63 then Except.ok (-(decimalValue digits : Int))
    else Except.error ("strconv.ParseInt: parsing \"" ++ String.mk s ++ "\": value out of range")
  else if decimalValue digits < 2 ^ 63 then Except.ok (decimalValue digits : Int)
  else Except.error ("strconv.ParseInt: parsing \"" ++ String.mk s ++ "\": value out of range")

/-- `strconv.ParseUint(s, 10, 64)`: decimal digits without a sign. The result is
a syntax error when there is no digit or a rune that is not one (a sign
included), and a range error when the value does not fit in a `uint64`. -/
def strconvParseUint (s : GoString) : Except GoError Nat :=
  if isNumeral s = false then
    Except.error ("strconv.ParseUint: parsing \"" ++ String.mk s ++ "\": invalid syntax")
  else if decimalValue s < 2 ^ 64 then Except.ok (decimalValue s)
  else Except.error ("strconv.ParseUint: parsing \"" ++ String.mk s ++ "\": value out of range")

/-! ## `github.com/Masterminds/semver` (v1.5.0): versions -/

/-- `semver.Version`. The numeric fields are `int64` values; `NewVersion` only
ever stores values in `[0, 2^63)`. -/
structure Version where
  major : Int
  minor : Int
  patch : Int
  pre : GoString
  metadata : GoString
  original : GoString

/-- The class `[0-9A-Za-z\-]` of the version pattern. -/
def isIdentChar (c : Char) : Bool := c.isAlphanum || c == '-'

/-- Whether `s` matches `[0-9A-Za-z\-]+(\.[0-9A-Za-z\-]+)*` entirely: dot-separated,
non-empty identifiers. -/
def isIdentList (s : GoString) : Bool :=
  (stringsSplit '.' s).all (fun part => !part.isEmpty && part.all isIdentChar)

/-- The submatches of `versionRegex` that `NewVersion` reads: `m[1]`, `m[2]`
and `m[3]` without their leading dot (`none` when the group is unmatched),
`m[5]` and `m[8]`. -/
structure VersionGroups where
  major : GoString
  minor : Option GoString
  patch : Option GoString
  pre : GoString
  metadata : GoString

/-- The group `(\.[0-9]+)?` at the head of `s`: its digits and the remaining
input, or `none` and `s` itself when it does not match. -/
def dotNumber (s : GoString) : Option GoString × GoString :=
  match s with
  | [] => (none, s)
  | c :: t =>
    if c = '.' ∧ isNumeral (t.takeWhile isDigit) = true then
      (some (t.takeWhile isDigit), t.dropWhile isDigit)
    else (none, s)

/-- The group `(-(ident(\.ident)*))?` at the head of `s`, which the rest of the
pattern (a `+`, or the end of the text) delimits: the pre-release text `m[5]`
and the remaining input; `none` when a hyphen is there and what follows it up
to the next `+` is not a list of identifiers. -/
def preReleaseGroup (s : GoString) : Option (GoString × GoString) :=
  match s with
  | [] => some ([], s)
  | c :: t =>
    if c = '-' then
      if isIdentList (t.takeWhile (fun x => x != '+')) = true then
        some (t.takeWhile (fun x => x != '+'), t.dropWhile (fun x => x != '+'))
      else none
    else some ([], s)

/-- The group `(\+(ident(\.ident)*))?` followed by the end of the text: the
metadata `m[8]`, or `none` when the remaining input is not of that form. -/
def metadataGroup (s : GoString) : Option GoString :=
  match s with
  | [] => some []
  | c :: t => if c = '+' ∧ isIdentList t = true then some t else none

/-- The optional `v` at the head of a version text. -/
def dropLeadingV (v : GoString) : GoString :=
  match v with
  | [] => []
  | c :: t => if c = 'v' then t else c :: t

/-- `versionRegex.FindStringSubmatch(v)` for the anchored pattern
`^v?([0-9]+)(\.[0-9]+)?(\.[0-9]+)?(-(ident(\.ident)*))?(\+(ident(\.ident)*))?$`
where `ident` is `[0-9A-Za-z\-]+`. Every position of the pattern is forced by
the next rune, so the match is read off from left to right. -/
def versionSubmatch (v : GoString) : Option VersionGroups :=
  if isNumeral ((dropLeadingV v).takeWhile isDigit) = true then
    match preReleaseGroup (dotNumber (dotNumber ((dropLeadingV v).dropWhile isDigit)).2).2 with
    | none => none
    | some (pre, rest) =>
      match metadataGroup rest with
      | none => none
      | some metadata =>
        some ⟨(dropLeadingV v).takeWhile isDigit,
          (dotNumber ((dropLeadingV v).dropWhile isDigit)).1,
          (dotNumber (dotNumber ((dropLeadingV v).dropWhile isDigit)).2).1, pre, metadata⟩
  else none

/-- The value `NewVersion` gives to the minor or patch number: that of the
digits of its group (`strconv.ParseInt` on `m[i]` without the leading dot), and
`0` when the group is empty. -/
def segmentValue (group : Option GoString) : Except GoError Int :=
  match group with
  | some ds => strconvParseInt ds
  | none => Except.ok 0

/-- `semver.NewVersion`. -/
def NewVersion (v : GoString) : Except GoError Version :=
  match versionSubmatch v with
  | none => Except.error "Invalid Semantic Version"
  | some m =>
    match strconvParseInt m.major with
    | Except.error err => Except.error ("Error parsing version segment: " ++ err)
    | Except.ok major =>
      match segmentValue m.minor with
      | Except.error err => Except.error ("Error parsing version segment: " ++ err)
      | Except.ok minor =>
        match segmentValue m.patch with
        | Except.error err => Except.error ("Error parsing version segment: " ++ err)
        | Except.ok patch => Except.ok ⟨major, minor, patch, m.pre, m.metadata, v⟩

/-- `compareSegment`. -/
def compareSegment (v o : Int) : Int :=
  if v < o then -1 else if v > o then 1 else 0

/-- Go's `s > o` on strings: lexicographic order (byte order and code-point
order agree on UTF-8 text). -/
def stringGt : GoString → GoString → Bool
  | [], _ => false
  | _ :: _, [] => true
  | a :: s, b :: o => if a = b then stringGt s o else decide (b < a)

/-- `comparePrePart`. The two parts are read with `strconv.ParseUint`, so that a
part with a sign, such as `-5`, is not a number. -/
def comparePrePart (s o : GoString) : Int :=
  if s = o then 0
  else if s = [] then (if o ≠ [] then -1 else 1)
  else if o = [] then (if s ≠ [] then 1 else -1)
  else
    match strconvParseUint o, strconvParseUint s with
    | Except.error _, Except.error _ => if stringGt s o then 1 else -1
    | Except.error _, Except.ok _ => -1
    | Except.ok _, Except.error _ => 1
    | Except.ok oi, Except.ok si => if si > oi then 1 else -1

/-- The loop of `comparePrerelease` once the parts of `o` are exhausted: each
remaining part of `v` is compared with the placeholder `""`. -/
def comparePrePartsLeft : List GoString → Int
  | [] => 0
  | s :: ss => if comparePrePart s [] ≠ 0 then comparePrePart s [] else comparePrePartsLeft ss

/-- The loop of `comparePrerelease` once the parts of `v` are exhausted: the
placeholder `""` is compared with each remaining part of `o`. -/
def comparePrePartsRight : List GoString → Int
  | [] => 0
  | o :: os => if comparePrePart [] o ≠ 0 then comparePrePart [] o else comparePrePartsRight os

/-- The loop of `comparePrerelease` over the two lists of parts: the first
difference decides. -/
def comparePreParts : List GoString → List GoString → Int
  | [], os => comparePrePartsRight os
  | s :: ss, [] => comparePrePartsLeft (s :: ss)
  | s :: ss, o :: os =>
    if comparePrePart s o ≠ 0 then comparePrePart s o else comparePreParts ss os

/-- `comparePrerelease`. -/
def comparePrerelease (v o : GoString) : Int :=
  comparePreParts (stringsSplit '.' v) (stringsSplit '.' o)

/-- `(*Version).Compare`. -/
def Version.Compare (v o : Version) : Int :=
  if compareSegment v.major o.major ≠ 0 then compareSegment v.major o.major
  else if compareSegment v.minor o.minor ≠ 0 then compareSegment v.minor o.minor
  else if compareSegment v.patch o.patch ≠ 0 then compareSegment v.patch o.patch
  else if v.pre = [] ∧ o.pre = [] then 0
  else if v.pre = [] then 1
  else if o.pre = [] then -1
  else comparePrerelease v.pre o.pre

/-! ## `github.com/Masterminds/semver` (v1.5.0): constraints -/

/-- The comparison functions of `constraintOps` that the descriptors use. -/
inductive ConstraintFunc where
  | constraintGreaterThanEqual : ConstraintFunc
  | constraintLessThan : ConstraintFunc

/-- The struct `constraint`: the comparison, the version it compares with, and
the wildcard flags. -/
structure Constraint where
  function : ConstraintFunc
  con : Version
  minorDirty : Bool
  dirty : Bool

/-- The struct `Constraints`: a disjunction of conjunctions. -/
structure Constraints where
  constraints : List (List Constraint)

/-- `constraintGreaterThanEqual`. -/
def constraintGreaterThanEqual (v : Version) (c : Constraint) : Bool :=
  if v.pre ≠ [] ∧ c.con.pre = [] then false
  else decide (v.Compare c.con ≥ 0)

/-- `constraintLessThan`. -/
def constraintLessThan (v : Version) (c : Constraint) : Bool :=
  if v.pre ≠ [] ∧ c.con.pre = [] then false
  else if !c.dirty then decide (v.Compare c.con < 0)
  else if v.major > c.con.major then false
  else if v.minor > c.con.minor ∧ !c.minorDirty then false
  else true

/-- `(*constraint).check`. -/
def Constraint.check (c : Constraint) (v : Version) : Bool :=
  match c.function with
  | ConstraintFunc.constraintGreaterThanEqual => constraintGreaterThanEqual v c
  | ConstraintFunc.constraintLessThan => constraintLessThan v c

/-- `Constraints.Check`: some conjunction has all its constraints satisfied. -/
def Constraints.Check (cs : Constraints) (v : Version) : Bool :=
  cs.constraints.any (fun o => o.all (fun c => c.check v))

/-- `parseConstraint` on a comparison with a full version: the operand must
have its three numeric components written out (no wildcard, so that no flag
is dirty and the version text is used as it stands). -/
def parseConstraint (function : ConstraintFunc) (ver : GoString) : Except GoError Constraint :=
  match versionSubmatch ver with
  | some ⟨_, some _, some _, _, _⟩ =>
    match NewVersion ver with
    | Except.ok con => Except.ok ⟨function, con, false, false⟩
    | Except.error _ => Except.error "constraint Parser Error"
  | _ => Except.error ("improper constraint: " ++ String.mk ver)

/-- `semver.NewConstraint`, on the constraint texts this package passes to it:
one comparison `>=X.Y.Z[-pre]` or `<X.Y.Z[-pre]` without spaces, commas, `||`
or wildcards. Other texts are outside this model and are reported as improper. -/
def NewConstraint (c : GoString) : Except GoError Constraints :=
  match c with
  | '>' :: '=' :: ver =>
    match parseConstraint ConstraintFunc.constraintGreaterThanEqual ver with
    | Except.ok pc => Except.ok ⟨[[pc]]⟩
    | Except.error err => Except.error err
  | '<' :: ver =>
    match parseConstraint ConstraintFunc.constraintLessThan ver with
    | Except.ok pc => Except.ok ⟨[[pc]]⟩
    | Except.error err => Except.error err
  | _ => Except.error ("improper constraint: " ++ String.mk c)

/-! ## The environment -/

/-- The contents of `.yarnrc.yml` that the package reads. -/
structure YarnRC where
  NodeLinker : GoString

/-- A decoded JSON value held in an `interface{}`: `nil`, a string, a
`map[string]interface{}` (its entries, with distinct keys, in some order), a
`[]interface{}`, or any other value, which is kept as the text that `%v` prints
for it. -/
inductive GoValue where
  | null : GoValue
  | str : GoString → GoValue
  | other : String → GoValue
  | array : List GoValue → GoValue
  | object : List (GoString × GoValue) → GoValue

/-- One step of the sort of the entries of a map by key: `e` is put before the
first entry whose key is not below its own. -/
def insertByKey (e : GoString × String) : List (GoString × String) → List (GoString × String)
  | [] => [e]
  | x :: xs => if stringGt e.1 x.1 then x :: insertByKey e xs else e :: x :: xs

/-- The entries of a map in the order of their keys, the order in which `fmt`
prints a map with string keys. -/
def sortByKey : List (GoString × String) → List (GoString × String)
  | [] => []
  | e :: es => insertByKey e (sortByKey es)

/-- The printed entries of a map, separated by spaces. -/
def joinEntries : List (GoString × String) → String
  | [] => ""
  | [e] => e.2
  | e :: es => e.2 ++ " " ++ joinEntries es

mutual
/-- The text that `fmt` prints for a value under `%v`; the entries of a map are
printed as `key:value`, sorted by key. -/
def GoValue.format : GoValue → String
  | GoValue.null => "<nil>"
  | GoValue.str s => String.mk s
  | GoValue.other rendered => rendered
  | GoValue.array vs => "[" ++ GoValue.formatList vs ++ "]"
  | GoValue.object es => "map[" ++ joinEntries (sortByKey (GoValue.formatEntries es)) ++ "]"
/-- The elements of a slice under `%v`, separated by spaces. -/
def GoValue.formatList : List GoValue → String
  | [] => ""
  | [v] => v.format
  | v :: vs => v.format ++ " " ++ GoValue.formatList vs
/-- Each entry of a map with the text `key:value` that `%v` prints for it. -/
def GoValue.formatEntries : List (GoString × GoValue) → List (GoString × String)
  | [] => []
  | (k, v) :: es => (k, String.mk k ++ ":" ++ v.format) :: GoValue.formatEntries es
end

/-- The manifest fields that the package reads from `packageJson.PackageJSON`.
The mutex `Mu` is left out. `Packages` is the field `packages` of the manifest,
which only the inference of the root looks at; an absent sequence is empty. -/
structure PackageJSON where
  PackageManager : GoString
  Workspaces : List GoString
  Packages : List GoString
  Resolutions : GoValue
  Pnpm : GoValue

/-- Fields of a descriptor that a `detect` function can read through its
`*PackageManager` argument. -/
structure PackageManagerData where
  Name : GoString
  Slug : GoString
  Command : GoString
  Specfile : GoString
  Lockfile : GoString
  PackageDir : GoString
  WorkspaceConfigurationPath : GoString
  ArgSeparator : List GoString
  Matches : GoString → GoString → Bool × Option GoError

/-- What the package observes of the machine it runs on and of the libraries
it calls:
* `filepathJoin` is `filepath.Join` of the platform, on two elements;
* `lstat path` is `os.Lstat(path)`: `none` on error, otherwise whether the entry
  is a directory;
* `readFile path` is `os.ReadFile(path)`;
* `unmarshalYarnRC bytes` is `yaml.Unmarshal(bytes, yarnRC)` into a fresh `YarnRC`;
* `yarnVersion dir` is the captured output (`cmd.Output()`) of `yarn --version`
  run in `dir`;
* `readPackageJSON path` is `packageJson.Read(path)`;
* `unmarshalPnpmWorkspaces bytes` is `yaml.Unmarshal(bytes, &pnpmWorkspaces)` into
  a fresh `PnpmWorkspaces`: its field `Packages`;
* `doublestarGlob root pattern` is `doublestar.Glob(os.DirFS(root), pattern)`;
* `doublestarMatch pattern name` is `doublestar.Match(pattern, name)`;
* `readDir dir` is `os.ReadDir(dir)`: the names of the entries of the directory;
* `filepathDir path` is `filepath.Dir(path)` of the platform;
* `filepathRel base target` is the path of `filepath.Rel(base, target)`. -/
structure World where
  filepathJoin : GoString → GoString → GoString
  lstat : GoString → Option Bool
  readFile : GoString → Except GoError GoString
  unmarshalYarnRC : GoString → Except GoError YarnRC
  yarnVersion : GoString → Except GoError GoString
  readPackageJSON : GoString → Except GoError PackageJSON
  unmarshalPnpmWorkspaces : GoString → Except GoError (List GoString)
  doublestarGlob : GoString → GoString → Except GoError (List GoString)
  doublestarMatch : GoString → GoString → Except GoError Bool
  readDir : GoString → Except GoError (List GoString)
  filepathDir : GoString → GoString
  filepathRel : GoString → GoString → GoString

/-- The type of the field `detect`. -/
abbrev DetectFunc := World → GoString → PackageManagerData → Bool × Option GoError

/-- `PackageManager`: the descriptor of one package-manager variant. A result
`([]string, error)` is a pair of a list and an optional error; the capabilities
`canPrune` and `prunePatches` may be nil (`none`); `prunePatches` returns the
manifest as it leaves it together with its error. -/
structure PackageManager extends PackageManagerData where
  getWorkspaceGlobs : World → GoString → List GoString × Option GoError
  getWorkspaceIgnores : World → PackageManagerData → GoString → List GoString × Option GoError
  canPrune : Option (World → GoString → Bool × Option GoError)
  detect : DetectFunc
  prunePatches : Option (PackageJSON → List GoString → PackageJSON × Option GoError)

/-- `FileExists`. -/
def FileExists (w : World) (path : GoString) : Bool :=
  match w.lstat path with
  | some isDir => !isDir
  | none => false

/-- `PathExists`. -/
def PathExists (w : World) (path : GoString) : Bool :=
  match w.lstat path with
  | some _ => true
  | none => false

/-- `hasFile`. -/
def hasFile (w : World) (name dir : GoString) : Bool × Option GoError :=
  match w.readDir dir with
  | Except.error err => (false, some err)
  | Except.ok files => (files.any (fun f => decide (name = f)), none)

/-- `FindupFrom`: the pair `(path, err)` that the loop returns within `fuel`
iterations, and `none` when it has not returned by then. -/
def FindupFrom (w : World) : Nat → GoString → GoString → Option (GoString × Option GoError)
  | 0, _, _ => none
  | fuel + 1, name, dir =>
    match hasFile w name dir with
    | (_, some err) => some ([], some err)
    | (found, none) =>
      if found then some (w.filepathJoin dir name, none)
      else
        if w.filepathDir dir = dir then some ([], none)
        else FindupFrom w fuel name (w.filepathDir dir)

/-- `isNMLinker`. When `yaml.Unmarshal` fails the wrapped `err` is the nil error
of the successful read. -/
def isNMLinker (w : World) (cwd : GoString) : Bool × Option GoError :=
  match w.readFile (w.filepathJoin cwd ".yarnrc.yml".toList) with
  | Except.error err => (false, some (".yarnrc.yml: " ++ err))
  | Except.ok bytes =>
    match w.unmarshalYarnRC bytes with
    | Except.error _ => (false, some ".yarnrc.yml: %!w(<nil>)")
    | Except.ok yarnRC => (decide (yarnRC.NodeLinker = "node-modules".toList), none)

/-! ## The descriptors -/

/-- `nodejsBerry.Matches`. -/
def nodejsBerryMatches (manager version : GoString) : Bool × Option GoError :=
  if manager ≠ "yarn".toList then (false, none)
  else
    match NewVersion version with
    | Except.error err => (false, some ("could not parse yarn version: " ++ err))
    | Except.ok v =>
      match NewConstraint ">=2.0.0-0".toList with
      | Except.error err => (false, some ("could not create constraint: " ++ err))
      | Except.ok c => (c.Check v, none)

/-- `nodejsBerry.detect`. -/
def nodejsBerryDetect : DetectFunc := fun w projectDirectory packageManager =>
  let specfileExists := FileExists w (w.filepathJoin projectDirectory packageManager.Specfile)
  let lockfileExists := FileExists w (w.filepathJoin projectDirectory packageManager.Lockfile)
  if !specfileExists || !lockfileExists then (false, none)
  else
    match w.yarnVersion projectDirectory with
    | Except.error err => (false, some ("could not detect yarn version: " ++ err))
    | Except.ok out =>
      let isMatch := (packageManager.Matches packageManager.Slug out).1
      if !isMatch then (false, none)
      else
        match isNMLinker w projectDirectory with
        | (_, some err) => (false, some ("could not check if yarn is using nm-linker: " ++ err))
        | (linker, none) =>
          if !linker then (false, some "only yarn nm-linker is supported")
          else (true, none)

/-- `strings.HasPrefix`. -/
def stringsHasPrefix (s pre : GoString) : Bool := pre.isPrefixOf s

/-- `strings.HasSuffix`. -/
def stringsHasSuffix (s suffix : GoString) : Bool := suffix.isSuffixOf s

/-- `nodejsBerry.getWorkspaceGlobs`. -/
def nodejsBerryGetWorkspaceGlobs (w : World) (rootpath : GoString) :
    List GoString × Option GoError :=
  match w.readPackageJSON (w.filepathJoin rootpath "package.json".toList) with
  | Except.error err => ([], some ("package.json: " ++ err))
  | Except.ok pkg =>
    if pkg.Workspaces.length = 0 then
      ([], some ("package.json: no workspaces found. packagemanager requires Yarn "
        ++ "workspaces to be defined in the root package.json"))
    else (pkg.Workspaces, none)

/-- `nodejsBerry.getWorkspaceIgnores`. -/
def nodejsBerryGetWorkspaceIgnores (_w : World) (_pm : PackageManagerData)
    (_rootpath : GoString) : List GoString × Option GoError :=
  (["**/node_modules".toList, "**/.git".toList, "**/.yarn".toList], none)

/-- `nodejsBerry.canPrune`. -/
def nodejsBerryCanPrune (w : World) (cwd : GoString) : Bool × Option GoError :=
  match isNMLinker w cwd with
  | (_, some err) =>
    (false, some ("could not determine if yarn is using `nodeLinker: node-modules`: " ++ err))
  | (linker, none) =>
    if !linker then
      (false, some "only yarn v2/v3 with `nodeLinker: node-modules` is supported at this time")
    else (true, none)

/-- The statement `delete(m, key)` on a map. -/
def mapDelete (m : List (GoString × GoValue)) (key : GoString) : List (GoString × GoValue) :=
  m.filter (fun entry => entry.1 != key)

/-- The first loop of `nodejsBerry.prunePatches`, over the entries of
`resolutions` in the order the map yields them: the keys to delete, or the error
of the first value that is not a string. -/
def berryKeysToDelete (patches : List GoString) :
    List (GoString × GoValue) → Except GoError (List GoString)
  | [] => Except.ok []
  | (dependency, untypedPatch) :: rest =>
    match untypedPatch with
    | GoValue.str patch =>
      match berryKeysToDelete patches rest with
      | Except.error err => Except.error err
      | Except.ok keys =>
        if !(patches.any (fun wantedPatch => stringsHasSuffix patch wantedPatch))
            && stringsHasSuffix patch ".patch".toList then
          Except.ok (dependency :: keys)
        else Except.ok keys
    | _ =>
      Except.error ("expected value of " ++ String.mk dependency
        ++ " in package.json to be a string, got " ++ untypedPatch.format)

/-- `nodejsBerry.prunePatches`: the manifest as the call leaves it, and the error.
The map `resolutions` is changed in place by the second loop. -/
def nodejsBerryPrunePatches (pkgJSON : PackageJSON) (patches : List GoString) :
    PackageJSON × Option GoError :=
  match pkgJSON.Resolutions with
  | GoValue.object resolutions =>
    match berryKeysToDelete patches resolutions with
    | Except.error err => (pkgJSON, some err)
    | Except.ok keysToDelete =>
      ({ pkgJSON with Resolutions := GoValue.object (keysToDelete.foldl mapDelete resolutions) },
        none)
  | _ => (pkgJSON, some "invalid structure for resolutions field in package.json")

/-- `nodejsBerry`. -/
def nodejsBerry : PackageManager :=
  { Name := "nodejs-berry".toList
    Slug := "yarn".toList
    Command := "yarn".toList
    Specfile := "package.json".toList
    Lockfile := "yarn.lock".toList
    PackageDir := "node_modules".toList
    WorkspaceConfigurationPath := []
    ArgSeparator := []
    getWorkspaceGlobs := nodejsBerryGetWorkspaceGlobs
    getWorkspaceIgnores := nodejsBerryGetWorkspaceIgnores
    canPrune := some nodejsBerryCanPrune
    Matches := nodejsBerryMatches
    detect := nodejsBerryDetect
    prunePatches := some nodejsBerryPrunePatches }

/-- `nodejsPnpm.Matches`. -/
def nodejsPnpmMatches (manager version : GoString) : Bool × Option GoError :=
  if manager ≠ "pnpm".toList then (false, none)
  else
    match NewVersion version with
    | Except.error err => (false, some ("could not parse pnpm version: " ++ err))
    | Except.ok v =>
      match NewConstraint ">=7.0.0".toList with
      | Except.error err => (false, some ("could not create constraint: " ++ err))
      | Except.ok c => (c.Check v, none)

/-- `nodejsPnpm.detect`, which is also `nodejsPnpm6.detect`. -/
def nodejsPnpmDetect : DetectFunc := fun w projectDirectory packageManager =>
  let specfileExists := FileExists w (w.filepathJoin projectDirectory packageManager.Specfile)
  let lockfileExists := FileExists w (w.filepathJoin projectDirectory packageManager.Lockfile)
  (specfileExists && lockfileExists, none)

/-- `readPnpmWorkspacePackages`. -/
def readPnpmWorkspacePackages (w : World) (workspaceFile : GoString) :
    List GoString × Option GoError :=
  match w.readFile workspaceFile with
  | Except.error err => ([], some (String.mk workspaceFile ++ ": " ++ err))
  | Except.ok bytes =>
    match w.unmarshalPnpmWorkspaces bytes with
    | Except.error err => ([], some (String.mk workspaceFile ++ ": " ++ err))
    | Except.ok packages => (packages, none)

/-- `getPnpmWorkspaceGlobs`. The loop appends to `filteredPkgGlobs` each glob
without the prefix `!`. -/
def getPnpmWorkspaceGlobs (w : World) (rootpath : GoString) : List GoString × Option GoError :=
  match readPnpmWorkspacePackages w (w.filepathJoin rootpath "pnpm-workspace.yaml".toList) with
  | (_, some err) => ([], some err)
  | (pkgGlobs, none) =>
    if pkgGlobs.length = 0 then
      ([], some ("pnpm-workspace.yaml: no packages found. packagemanager requires pnpm "
        ++ "workspaces and thus packages to be defined in the root pnpm-workspace.yaml"))
    else
      (pkgGlobs.foldl (fun filteredPkgGlobs pkgGlob =>
          if !stringsHasPrefix pkgGlob "!".toList then filteredPkgGlobs ++ [pkgGlob]
          else filteredPkgGlobs) [], none)

/-- `getPnpmWorkspaceIgnores`. The loop appends to `ignores` each glob with the
prefix `!`, without its first byte (`pkgGlob[1:]`). -/
def getPnpmWorkspaceIgnores (w : World) (_pm : PackageManagerData) (rootpath : GoString) :
    List GoString × Option GoError :=
  match readPnpmWorkspacePackages w (w.filepathJoin rootpath "pnpm-workspace.yaml".toList) with
  | (_, some err) => ([], some err)
  | (pkgGlobs, none) =>
    (pkgGlobs.foldl (fun ignores pkgGlob =>
        if stringsHasPrefix pkgGlob "!".toList then ignores ++ [pkgGlob.drop 1]
        else ignores) ["**/node_modules/**".toList, "**/bower_components/**".toList], none)

/-- The index expression `m[key]` on a map: the value of the key, or the nil
interface when the key is absent. -/
def mapLookup (m : List (GoString × GoValue)) (key : GoString) : GoValue :=
  match m.find? (fun entry => entry.1 == key) with
  | some entry => entry.2
  | none => GoValue.null

/-- The loop of `pnpmPrunePatches` over the entries of `patchedDependencies` in
the order the map yields them: the keys to delete, or the error of the first
value that is not a string. -/
def pnpmKeysToDelete (patches : List GoString) :
    List (GoString × GoValue) → Except GoError (List GoString)
  | [] => Except.ok []
  | (dependency, untypedPatch) :: rest =>
    match untypedPatch with
    | GoValue.str patch =>
      match pnpmKeysToDelete patches rest with
      | Except.error err => Except.error err
      | Except.ok keys =>
        if !(patches.any (fun wantedPatch => decide (wantedPatch = patch))) then
          Except.ok (dependency :: keys)
        else Except.ok keys
    | _ =>
      Except.error ("expected only strings in patchedDependencies. Got "
        ++ untypedPatch.format)

/-- `pnpmPrunePatches`: the manifest as the call leaves it, and the error. The
map `patchedDependencies`, held under that key of the map `pnpm`, is changed in
place by the second loop. -/
def pnpmPrunePatches (pkgJSON : PackageJSON) (patches : List GoString) :
    PackageJSON × Option GoError :=
  match pkgJSON.Pnpm with
  | GoValue.object pnpmConfig =>
    match mapLookup pnpmConfig "patchedDependencies".toList with
    | GoValue.object patchedDependencies =>
      match pnpmKeysToDelete patches patchedDependencies with
      | Except.error err => (pkgJSON, some err)
      | Except.ok keysToDelete =>
        ({ pkgJSON with
            Pnpm := GoValue.object (pnpmConfig.map (fun entry =>
              if entry.1 = "patchedDependencies".toList then
                (entry.1, GoValue.object (keysToDelete.foldl mapDelete patchedDependencies))
              else entry)) }, none)
    | _ => (pkgJSON, some "invalid structure for patchedDependencies field in package.json")
  | _ => (pkgJSON, some "invalid structure for pnpm field in package.json")

/-- `nodejsPnpm.canPrune`, which is also `nodejsPnpm6.canPrune`. -/
def nodejsPnpmCanPrune (_w : World) (_cwd : GoString) : Bool × Option GoError := (true, none)

/-- `nodejsPnpm`. -/
def nodejsPnpm : PackageManager :=
  { Name := "nodejs-pnpm".toList
    Slug := "pnpm".toList
    Command := "pnpm".toList
    Specfile := "package.json".toList
    Lockfile := "pnpm-lock.yaml".toList
    PackageDir := "node_modules".toList
    WorkspaceConfigurationPath := "pnpm-workspace.yaml".toList
    ArgSeparator := []
    getWorkspaceGlobs := getPnpmWorkspaceGlobs
    getWorkspaceIgnores := getPnpmWorkspaceIgnores
    Matches := nodejsPnpmMatches
    detect := nodejsPnpmDetect
    canPrune := some nodejsPnpmCanPrune
    prunePatches := some pnpmPrunePatches }

/-- `nodejsPnpm6.Matches`. -/
def nodejsPnpm6Matches (manager version : GoString) : Bool × Option GoError :=
  if manager ≠ "pnpm".toList then (false, none)
  else
    match NewVersion version with
    | Except.error err => (false, some ("could not parse pnpm version: " ++ err))
    | Except.ok v =>
      match NewConstraint "<7.0.0".toList with
      | Except.error err => (false, some ("could not create constraint: " ++ err))
      | Except.ok c => (c.Check v, none)

/-- `nodejsPnpm6`. -/
def nodejsPnpm6 : PackageManager :=
  { Name := "nodejs-pnpm6".toList
    Slug := "pnpm".toList
    Command := "pnpm".toList
    Specfile := "package.json".toList
    Lockfile := "pnpm-lock.yaml".toList
    PackageDir := "node_modules".toList
    WorkspaceConfigurationPath := "pnpm-workspace.yaml".toList
    ArgSeparator := ["--".toList]
    getWorkspaceGlobs := getPnpmWorkspaceGlobs
    getWorkspaceIgnores := getPnpmWorkspaceIgnores
    Matches := nodejsPnpm6Matches
    detect := nodejsPnpmDetect
    canPrune := some nodejsPnpmCanPrune
    prunePatches := none }

/-- What the sources at hand do not show of a descriptor that is defined in
another file of the package: its plain data other than name and slug, and its
capability functions other than `Matches`. -/
structure AbsentDescriptor where
  Command : GoString
  Specfile : GoString
  Lockfile : GoString
  PackageDir : GoString
  WorkspaceConfigurationPath : GoString
  ArgSeparator : List GoString
  getWorkspaceGlobs : World → GoString → List GoString × Option GoError
  getWorkspaceIgnores : World → PackageManagerData → GoString → List GoString × Option GoError
  canPrune : Option (World → GoString → Bool × Option GoError)
  detect : DetectFunc
  prunePatches : Option (PackageJSON → List GoString → PackageJSON × Option GoError)

/-- The two descriptors of the registry that are defined in other files. -/
structure Absent where
  yarn : AbsentDescriptor
  npm : AbsentDescriptor

/-- Modelled from the spec: the version-match predicate of `nodejsYarn`, whose
definition is not among the sources. Spec 4.2: "classic-yarn matches versions
`< 2.0.0`", by a semantic-version range constraint like its siblings. -/
def nodejsYarnMatches (manager version : GoString) : Bool × Option GoError :=
  if manager ≠ "yarn".toList then (false, none)
  else
    match NewVersion version with
    | Except.error err => (false, some ("could not parse yarn version: " ++ err))
    | Except.ok v =>
      match NewConstraint "<2.0.0".toList with
      | Except.error err => (false, some ("could not create constraint: " ++ err))
      | Except.ok c => (c.Check v, none)

/-- Modelled from the spec: the version-match predicate of `nodejsNpm`, whose
definition is not among the sources. Spec 4.2: "npm-family unconstrained by
this layer": the slug decides, every version is accepted. -/
def nodejsNpmMatches (manager _version : GoString) : Bool × Option GoError :=
  (decide (manager = "npm".toList), none)

/-- Modelled from the spec: the descriptor `nodejsYarn` (classic yarn), whose
definition is not among the sources. Name as in the package tests, slug and
version range as in spec 3 and 4.2, the rest as given by `a`. -/
def nodejsYarn (a : Absent) : PackageManager :=
  { Name := "nodejs-yarn".toList
    Slug := "yarn".toList
    Command := a.yarn.Command
    Specfile := a.yarn.Specfile
    Lockfile := a.yarn.Lockfile
    PackageDir := a.yarn.PackageDir
    WorkspaceConfigurationPath := a.yarn.WorkspaceConfigurationPath
    ArgSeparator := a.yarn.ArgSeparator
    getWorkspaceGlobs := a.yarn.getWorkspaceGlobs
    getWorkspaceIgnores := a.yarn.getWorkspaceIgnores
    canPrune := a.yarn.canPrune
    Matches := nodejsYarnMatches
    detect := a.yarn.detect
    prunePatches := a.yarn.prunePatches }

/-- Modelled from the spec: the descriptor `nodejsNpm`, whose definition is not
among the sources. Name as in the package tests, slug and version range as in
spec 3 and 4.2, the rest as given by `a`. -/
def nodejsNpm (a : Absent) : PackageManager :=
  { Name := "nodejs-npm".toList
    Slug := "npm".toList
    Command := a.npm.Command
    Specfile := a.npm.Specfile
    Lockfile := a.npm.Lockfile
    PackageDir := a.npm.PackageDir
    WorkspaceConfigurationPath := a.npm.WorkspaceConfigurationPath
    ArgSeparator := a.npm.ArgSeparator
    getWorkspaceGlobs := a.npm.getWorkspaceGlobs
    getWorkspaceIgnores := a.npm.getWorkspaceIgnores
    canPrune := a.npm.canPrune
    Matches := nodejsNpmMatches
    detect := a.npm.detect
    prunePatches := a.npm.prunePatches }

/-- `packageManagers`: the registry, in its order. -/
def packageManagers (a : Absent) : List PackageManager :=
  [nodejsYarn a, nodejsBerry, nodejsNpm a, nodejsPnpm, nodejsPnpm6]

/-! ## The detection chain -/

/-- The loop of `GetPackageManagerFromString` over the registry: the first
descriptor whose `Matches` answers `true` with a nil error. -/
def firstMatching (manager version : GoString) : List PackageManager → Option PackageManager
  | [] => none
  | packageManager :: rest =>
    match packageManager.Matches manager version with
    | (isResponsible, err) =>
      if isResponsible && err.isNone then some packageManager
      else firstMatching manager version rest

/-- `GetPackageManagerFromString`: the pair `(packageManager, err)`; a nil pointer
is `none`. The outer `Option` is `none` when the call panics. -/
def GetPackageManagerFromString (a : Absent) (packageManagerStr : GoString) :
    Option (Option PackageManager × Option GoError) :=
  if packageManagerStr = [] then some (none, some "no package manager specified")
  else
    match ParsePackageManagerString packageManagerStr with
    | none => none
    | some (_, _, some err) => some (none, some err)
    | some (manager, version, none) =>
      match firstMatching manager version (packageManagers a) with
      | some packageManager => some (some packageManager, none)
      | none => some (none, some ("we didn't find a matching package manager for '"
          ++ String.mk packageManagerStr ++ "'"))

/-- The error of `detectPackageManager` itself, returned after the loop. -/
def notDetectedError : GoError :=
  "we did not detect an in-use package manager for your project. "
    ++ "Please set the \"packageManager\" property in your root package.json "
    ++ "(https://nodejs.org/api/packages.html#packagemanager)"

/-- The loop of `detectPackageManager` over the registry. -/
def detectLoop (w : World) (projectDirectory : GoString) :
    List PackageManager → Option PackageManager × Option GoError
  | [] => (none, some notDetectedError)
  | packageManager :: rest =>
    match packageManager.detect w projectDirectory packageManager.toPackageManagerData with
    | (_, some err) => (none, some err)
    | (isResponsible, none) =>
      if isResponsible then (some packageManager, none)
      else detectLoop w projectDirectory rest

/-- `detectPackageManager`. -/
def detectPackageManager (a : Absent) (w : World) (projectDirectory : GoString) :
    Option PackageManager × Option GoError :=
  detectLoop w projectDirectory (packageManagers a)

/-- `GetPackageManager`. -/
def GetPackageManager (a : Absent) (w : World) (projectDirectory : GoString) (pkg : PackageJSON) :
    Option (Option PackageManager × Option GoError) :=
  match GetPackageManagerFromString a pkg.PackageManager with
  | none => none
  | some (some result, _) => some (some result, none)
  | some (none, _) => some (detectPackageManager a w projectDirectory)

/-- The three `return` statements of `detectPackageManager`: the error of a
`detect` predicate inside the loop, the descriptor whose predicate answered true,
and the function's own error after the loop. -/
inductive DetectReturn where
  | failed : GoError → DetectReturn
  | found : PackageManager → DetectReturn
  | notDetected : DetectReturn

/-- The `return` statement that ends `detectPackageManager`, by the same loop as
`detectLoop`. -/
def detectReturn (w : World) (projectDirectory : GoString) :
    List PackageManager → DetectReturn
  | [] => DetectReturn.notDetected
  | packageManager :: rest =>
    match packageManager.detect w projectDirectory packageManager.toPackageManagerData with
    | (_, some err) => DetectReturn.failed err
    | (isResponsible, none) =>
      if isResponsible then DetectReturn.found packageManager
      else detectReturn w projectDirectory rest

/-- The values that a `return` statement of `detectPackageManager` returns. -/
def DetectReturn.values : DetectReturn → Option PackageManager × Option GoError
  | DetectReturn.failed err => (none, some err)
  | DetectReturn.found packageManager => (some packageManager, none)
  | DetectReturn.notDetected => (none, some notDetectedError)

/-! ## Workspaces and pruning -/

/-- The loop of `GetWorkspaces` over `justJsons`: the matches of every pattern,
appended to `res` in turn; the first error of `doublestar.Glob` ends it. -/
def collectMatches (w : World) (rootpath : GoString) :
    List GoString → Except GoError (List GoString)
  | [] => Except.ok []
  | glob :: rest =>
    match w.doublestarGlob rootpath glob with
    | Except.error err => Except.error err
    | Except.ok founds =>
      match collectMatches w rootpath rest with
      | Except.error err => Except.error err
      | Except.ok more => Except.ok (founds ++ more)

/-- The statement `res = append(res[:i], res[i+1:]...)` on a slice of length `m`
whose backing array holds `arr`, for `i + 1 ≤ m`: the elements of the slice after
index `i` move one place down inside the array, and the places from `m - 1` on
keep their content. The slice then has length `m - 1`. -/
def sliceRemove (arr : List GoString) (m i : Nat) : List GoString :=
  arr.take i ++ ((arr.drop (i + 1)).take (m - (i + 1)) ++ arr.drop (m - 1))

/-- The inner loop `for i, path := range res` of `GetWorkspaces` for one ignore
pattern `glob`. The number of iterations is the length of `res` when the loop is
entered; `steps` of them remain, `i` is the index of the next one, `arr` the
content of the backing array and `m` the current length of `res`. Each iteration
reads `path` from the array at `i` and calls `doublestar.Match(path, glob)`.
The result `none` is the panic of `res[i+1:]` when `i + 1` is beyond the length. -/
def ignorePass (w : World) (glob : GoString) :
    Nat → Nat → List GoString → Nat → Option (Except GoError (List GoString × Nat))
  | 0, _, arr, m => some (Except.ok (arr, m))
  | steps + 1, i, arr, m =>
    match w.doublestarMatch (arr.getD i []) glob with
    | Except.error err => some (Except.error err)
    | Except.ok isMatch =>
      if isMatch then
        if i + 1 ≤ m then ignorePass w glob steps (i + 1) (sliceRemove arr m i) (m - 1)
        else none
      else ignorePass w glob steps (i + 1) arr m

/-- The loop of `GetWorkspaces` over `ignores`: one inner loop for each pattern,
on the slice `res` that the previous one left. -/
def ignoreLoop (w : World) : List GoString → List GoString → Option (Except GoError (List GoString))
  | [], res => some (Except.ok res)
  | glob :: rest, res =>
    match ignorePass w glob res.length 0 res res.length with
    | none => none
    | some (Except.error err) => some (Except.error err)
    | some (Except.ok (arr, m)) => ignoreLoop w rest (arr.take m)

/-- `PackageManager.GetWorkspaces`: the pair `(res, err)`, or `none` when the call
panics. -/
def GetWorkspaces (w : World) (pm : PackageManager) (rootpath : GoString)
    (relativePath : Bool) : Option (List GoString × Option GoError) :=
  match pm.getWorkspaceGlobs w rootpath with
  | (_, some err) => some ([], some err)
  | (globs, none) =>
    match pm.getWorkspaceIgnores w pm.toPackageManagerData rootpath with
    | (_, some err) => some ([], some err)
    | (ignores, none) =>
      match collectMatches w rootpath
          (globs.map (fun space => w.filepathJoin space "package.json".toList)) with
      | Except.error err => some ([], some err)
      | Except.ok collected =>
        match ignoreLoop w ignores collected with
        | none => none
        | some (Except.error err) => some ([], some err)
        | some (Except.ok res) =>
          if !relativePath then some (res.map (fun path => w.filepathJoin rootpath path), none)
          else some (res, none)

/-- `PackageManager.GetWorkspaceIgnores`. -/
def GetWorkspaceIgnores (w : World) (pm : PackageManager) (rootpath : GoString) :
    List GoString × Option GoError :=
  pm.getWorkspaceIgnores w pm.toPackageManagerData rootpath

/-- `PackageManager.CanPrune`. -/
def CanPrune (w : World) (pm : PackageManager) (projectDirectory : GoString) :
    Bool × Option GoError :=
  match pm.canPrune with
  | some canPrune => canPrune w projectDirectory
  | none => (false, none)

/-- `PackageManager.PrunePatchedPackages`: the manifest as the call leaves it, and
the error. -/
def PrunePatchedPackages (pm : PackageManager) (pkgJSON : PackageJSON)
    (patches : List GoString) : PackageJSON × Option GoError :=
  match pm.prunePatches with
  | some prunePatches => prunePatches pkgJSON patches
  | none => (pkgJSON, none)

/-! ## Worlds for the examples -/

/-- A machine without files and without `yarn`, on which `filepath.Join` puts a
slash between its two elements. -/
def emptyWorld : World :=
  { filepathJoin := fun dir name => dir ++ '/' :: name
    lstat := fun _ => none
    readFile := fun _ => Except.error "no such file or directory"
    unmarshalYarnRC := fun _ => Except.error "yaml: cannot unmarshal"
    yarnVersion := fun _ => Except.error "exec: yarn: executable file not found in $PATH"
    readPackageJSON := fun _ => Except.error "no such file or directory"
    unmarshalPnpmWorkspaces := fun _ => Except.error "yaml: cannot unmarshal"
    doublestarGlob := fun _ _ => Except.ok []
    doublestarMatch := fun _ _ => Except.ok false
    readDir := fun _ => Except.error "no such file or directory"
    filepathDir := fun path => path
    filepathRel := fun _ target => target }

/-- A completion of a descriptor defined in another file that declares nothing
and detects nothing. -/
def quietDescriptor : AbsentDescriptor :=
  { Command := []
    Specfile := []
    Lockfile := []
    PackageDir := []
    WorkspaceConfigurationPath := []
    ArgSeparator := []
    getWorkspaceGlobs := fun _ _ => ([], none)
    getWorkspaceIgnores := fun _ _ _ => ([], none)
    canPrune := none
    detect := fun _ _ _ => (false, none)
    prunePatches := none }

/-- The registry completed with two quiet descriptors. -/
def quietAbsent : Absent := { yarn := quietDescriptor, npm := quietDescriptor }

/-- A machine on which every path is a regular file and `yarn` cannot be run. -/
def yarnMissingWorld : World :=
  { emptyWorld with lstat := fun _ => some false }

/-- A machine on which every path is a regular file that cannot be read, and
`yarn --version` prints `3.2.1`. -/
def berryUnreadableWorld : World :=
  { emptyWorld with
    lstat := fun _ => some false
    yarnVersion := fun _ => Except.ok "3.2.1".toList }

/-- A machine on which every path is a regular file, `yarn --version` prints
`3.2.1` and `.yarnrc.yml` declares the linker `pnp`. -/
def berryPnpWorld : World :=
  { emptyWorld with
    lstat := fun _ => some false
    yarnVersion := fun _ => Except.ok "3.2.1".toList
    readFile := fun _ => Except.ok "nodeLinker: pnp".toList
    unmarshalYarnRC := fun _ => Except.ok { NodeLinker := "pnp".toList } }

/-- The machine `berryPnpWorld` with the output of `yarn --version` as the command
prints it: `3.2.1` followed by a line feed. -/
def berryLineFeedWorld : World :=
  { emptyWorld with
    lstat := fun _ => some false
    yarnVersion := fun _ => Except.ok "3.2.1\n".toList
    readFile := fun _ => Except.ok "nodeLinker: pnp".toList
    unmarshalYarnRC := fun _ => Except.ok { NodeLinker := "pnp".toList } }

/-- A machine on which every path is a regular file and `yarn --version` prints
`1.22.19`. -/
def classicYarnWorld : World :=
  { emptyWorld with
    lstat := fun _ => some false
    yarnVersion := fun _ => Except.ok "1.22.19".toList }

/-- The entry of a pnpm workspace declaration that starts with `!`, without
that one leading `!`. -/
def ignoreEntry (pkgGlob : GoString) : Option GoString :=
  match pkgGlob with
  | [] => none
  | c :: rest => if c = '!' then some rest else none

/-- A pnpm project whose `pnpm-workspace.yaml` declares the packages
`packages/**`, with a package `packages/a` that has a dependency installed under
`node_modules`. `doublestar.Match` is given by its value on the pairs that occur:
the pattern `**/node_modules/**` matches the dependency's manifest, and no path
of the project, taken as a pattern, matches the text of an ignore pattern. -/
def nodeModulesWorld : World :=
  { emptyWorld with
    readFile := fun path =>
      if path = "root/pnpm-workspace.yaml".toList then
        Except.ok "packages:\n  - packages/**\n".toList
      else Except.error "no such file or directory"
    unmarshalPnpmWorkspaces := fun _ => Except.ok ["packages/**".toList]
    doublestarGlob := fun _ pattern =>
      if pattern = "packages/**/package.json".toList then
        Except.ok ["packages/a/package.json".toList,
          "packages/a/node_modules/dep/package.json".toList]
      else Except.ok []
    doublestarMatch := fun pattern name =>
      Except.ok (decide (pattern = "**/node_modules/**".toList ∧
        name = "packages/a/node_modules/dep/package.json".toList)) }

/-- A pnpm project whose `pnpm-workspace.yaml` declares `packages/*` and the
ignore entry `!packages/a/package.json`, with one package in a directory named
`[a]`. `doublestar.Match` is given by its value on the pairs that occur: the
path `packages/[a]/package.json`, taken as a pattern, matches the name
`packages/a/package.json`, and no ignore pattern matches the path. -/
def bracketWorld : World :=
  { emptyWorld with
    readFile := fun path =>
      if path = "root/pnpm-workspace.yaml".toList then
        Except.ok "packages:\n  - packages/*\n  - \"!packages/a/package.json\"\n".toList
      else Except.error "no such file or directory"
    unmarshalPnpmWorkspaces := fun _ =>
      Except.ok ["packages/*".toList, "!packages/a/package.json".toList]
    doublestarGlob := fun _ pattern =>
      if pattern = "packages/*/package.json".toList then
        Except.ok ["packages/[a]/package.json".toList]
      else Except.ok []
    doublestarMatch := fun pattern name =>
      Except.ok (decide (pattern = "packages/[a]/package.json".toList ∧
        name = "packages/a/package.json".toList)) }

/-- A pnpm project whose `pnpm-workspace.yaml` declares the packages `packages/*`
and `!packages/skip`. -/
def skipWorld : World :=
  { emptyWorld with
    readFile := fun path =>
      if path = "root/pnpm-workspace.yaml".toList then
        Except.ok "packages:\n  - packages/*\n  - \"!packages/skip\"\n".toList
      else Except.error "no such file or directory"
    unmarshalPnpmWorkspaces := fun _ =>
      Except.ok ["packages/*".toList, "!packages/skip".toList] }

/-- A pnpm project whose `pnpm-workspace.yaml` declares only the ignore entry
`!packages/skip`. -/
def onlyIgnoredWorld : World :=
  { emptyWorld with
    readFile := fun path =>
      if path = "root/pnpm-workspace.yaml".toList then
        Except.ok "packages:\n  - \"!packages/skip\"\n".toList
      else Except.error "no such file or directory"
    unmarshalPnpmWorkspaces := fun _ => Except.ok ["!packages/skip".toList] }

/-- An entry of a map whose value is a string. -/
def stringEntry (entry : GoString × GoString) : GoString × GoValue :=
  (entry.1, GoValue.str entry.2)

/-- Whether the berry pruning keeps a patch reference: it ends with one of the
retained identifiers, or it does not end with `.patch`. -/
def berryRetains (patches : List GoString) (patch : GoString) : Bool :=
  patches.any (fun wantedPatch => stringsHasSuffix patch wantedPatch)
    || !stringsHasSuffix patch ".patch".toList

/-- A manifest with three resolutions: a patch that is retained below, a plain
version, and a patch that is not retained. -/
def patchedManifest : PackageJSON :=
  { PackageManager := "yarn@3.2.1".toList
    Workspaces := ["packages/*".toList]
    Packages := []
    Resolutions := GoValue.object
      [("lodash@4.17.21".toList, GoValue.str "patch:lodash#.yarn/patches/lodash.patch".toList),
       ("left-pad".toList, GoValue.str "1.3.0".toList),
       ("is-odd@3.0.1".toList, GoValue.str "patch:is-odd#.yarn/patches/is-odd.patch".toList)]
    Pnpm := GoValue.null }

/-! ## Vocabulary of the statements -/

/-- The manager names of the pattern. -/
def managerNames : List GoString := ["npm".toList, "pnpm".toList, "yarn".toList]

/-- The text `A.B.C`. -/
def versionText (A B C : GoString) : GoString := A ++ '.' :: (B ++ '.' :: C)

/-- The text `m@A.B.C`. -/
def declaration (m A B C : GoString) : GoString := m ++ '@' :: versionText A B C

/-- The pre-release part `-label` at the head of `t`, as the group `(-.+)?` takes
it: a hyphen, one rune other than a line feed, and the rest of the line. -/
def labelOf : GoString → GoString
  | c :: x :: r =>
    if c = '-' ∧ isNotNewline x = true then c :: x :: r.takeWhile isNotNewline else []
  | _ => []

/-- What the pattern takes of a text `t` that follows a declaration: the digits
that prolong the last numeral, then the pre-release part. -/
def trailingMatch (t : GoString) : GoString :=
  t.takeWhile isDigit ++ labelOf (t.dropWhile isDigit)



/-- The words a regular expression matches. -/
def Re.Lang : Re → GoString → Prop
  | Re.eps, w => w = []
  | Re.lit c, w => w = [c]
  | Re.plus p, w => w ≠ [] ∧ ∀ c ∈ w, p c = true
  | Re.seq a b, w => ∃ u v, w = u ++ v ∧ Re.Lang a u ∧ Re.Lang b v
  | Re.alt a b, w => Re.Lang a w ∨ Re.Lang b w
  | Re.opt a, w => Re.Lang a w ∨ w = []

/-- The text `s` contains a substring of the form
`(npm|pnpm|yarn)@digits.digits.digits`. -/
def hasDeclaration (s : GoString) : Prop :=
  ∃ (before m A B C after : GoString), m ∈ managerNames ∧ isNumeral A = true ∧
    isNumeral B = true ∧ isNumeral C = true ∧ s = before ++ declaration m A B C ++ after

/-- A pre-release label made of letters, digits and dots. -/
def isLabel (L : GoString) : Bool := !L.isEmpty && L.all (fun c => c.isAlphanum || c == '.')

/-- Whether the text `t`, put after a declaration, prolongs its version: it
starts with a digit, or with a hyphen followed by a rune other than a line feed. -/
def prolongsVersion : GoString → Bool
  | [] => false
  | [c] => isDigit c
  | c :: x :: _ => isDigit c || (c == '-' && isNotNewline x)

/-- The first identifier of a pre-release text: what precedes its first dot. -/
def firstIdentifier (pre : GoString) : GoString := pre.takeWhile (fun c => c != '.')

/-- An identifier that `strconv.ParseUint` reads as the number zero, other than
the text `0` itself: `00`, `000`. -/
def lowIdentifier (p : GoString) : Bool :=
  p != "0".toList &&
    (match strconvParseUint p with
     | Except.ok n => decide (n = 0)
     | Except.error _ => false)

/-- The explicit strategy has nothing to return for the text `s`: the text is
empty, or `ParsePackageManagerString` fails on it, or no descriptor of the
registry has a `Matches` predicate that returns true with a nil error on the
parsed pair. -/
def explicitFails (a : Absent) (s : GoString) : Prop :=
  s = [] ∨ (∃ manager version err,
      ParsePackageManagerString s = some (manager, version, some err)) ∨
    (∃ manager version, ParsePackageManagerString s = some (manager, version, none) ∧
      ∀ p ∈ packageManagers a, p.Matches manager version ≠ (true, none))

/-! ## Vocabulary of the statements on pruning -/

/-- Whether the pnpm pruning keeps a patch reference: it is equal to one of the
retained patches. -/
def pnpmRetains (patches : List GoString) (patch : GoString) : Bool :=
  patches.any (fun wantedPatch => decide (wantedPatch = patch))

/-- The map `pnpm` of a manifest once the map held under its key
`patchedDependencies` has the entries `patched`. -/
def withPatchedDependencies (pnpmConfig patched : List (GoString × GoValue)) :
    List (GoString × GoValue) :=
  pnpmConfig.map (fun entry =>
    if entry.1 = "patchedDependencies".toList then (entry.1, GoValue.object patched) else entry)

/-- The manifest `testdata/pnpm-patches.json` as `pnpm_test.go` asserts it: the map
`pnpm.patchedDependencies` holds the one patch of `is-odd@3.0.1`. -/
def pnpmPatchesManifest : PackageJSON :=
  { PackageManager := []
    Workspaces := []
    Packages := []
    Resolutions := GoValue.null
    Pnpm := GoValue.object
      [("patchedDependencies".toList, GoValue.object
        [("is-odd@3.0.1".toList, GoValue.str "patches/is-odd@3.0.1.patch".toList)])] }

/-- A manifest like `pnpmPatchesManifest` whose one patch file is named `*.diff`. -/
def pnpmDiffManifest : PackageJSON :=
  { PackageManager := []
    Workspaces := []
    Packages := []
    Resolutions := GoValue.null
    Pnpm := GoValue.object
      [("patchedDependencies".toList, GoValue.object
        [("is-odd@3.0.1".toList, GoValue.str "patches/is-odd@3.0.1.diff".toList)])] }

/-- The nil interface is a value. -/
instance : Inhabited GoValue := ⟨GoValue.null⟩

/-- Every value of the map is a string. -/
def stringValued (m : List (GoString × GoValue)) : Prop :=
  ∀ e ∈ m, ∃ s, e.2 = GoValue.str s

/-- Whether the first loop of `nodejsBerry.prunePatches` puts the key of an entry
among the keys to delete. -/
def berryDeletes (patches : List GoString) (entry : GoString × GoValue) : Bool :=
  match entry.2 with
  | GoValue.str patch =>
    !(patches.any (fun wantedPatch => stringsHasSuffix patch wantedPatch))
      && stringsHasSuffix patch ".patch".toList
  | _ => false

/-- Whether the first loop of `pnpmPrunePatches` puts the key of an entry among
the keys to delete. -/
def pnpmDeletes (patches : List GoString) (entry : GoString × GoValue) : Bool :=
  match entry.2 with
  | GoValue.str patch => !(patches.any (fun wantedPatch => decide (wantedPatch = patch)))
  | _ => false

/-- A manifest with two unexpected shapes: a value of `resolutions` that is a
number, and a `pnpm.patchedDependencies` that is an array. -/
def malformedManifest : PackageJSON :=
  { PackageManager := []
    Workspaces := []
    Packages := []
    Resolutions := GoValue.object
      [("lodash@4.17.21".toList, GoValue.str "patch:lodash#.yarn/patches/lodash.patch".toList),
       ("left-pad".toList, GoValue.other "1")]
    Pnpm := GoValue.object [("patchedDependencies".toList, GoValue.array [])] }

/-- The file `.yarnrc.yml` of the directory `cwd` can be read, decodes, and
declares the linker `node-modules`. -/
def declaresNMLinker (w : World) (cwd : GoString) : Prop :=
  ∃ bytes yarnRC, w.readFile (w.filepathJoin cwd ".yarnrc.yml".toList) = Except.ok bytes ∧
    w.unmarshalYarnRC bytes = Except.ok yarnRC ∧ yarnRC.NodeLinker = "node-modules".toList

/-- A machine on which `.yarnrc.yml` declares the linker `node-modules`. -/
def berryNMWorld : World :=
  { emptyWorld with
    readFile := fun _ => Except.ok "nodeLinker: node-modules".toList
    unmarshalYarnRC := fun _ => Except.ok { NodeLinker := "node-modules".toList } }

/-! ## Paths, and machines given by their files -/

/-- The directory reached from `dir` by `n` steps to the parent. -/
def ancestor (w : World) : Nat → GoString → GoString
  | 0, dir => dir
  | n + 1, dir => ancestor w n (w.filepathDir dir)

/-- The parent of a clean absolute path of a Unix machine, as `filepath.Dir`
returns it: the path without its last element, and `/` for `/`. -/
def parentDir (path : GoString) : GoString :=
  if ((path.reverse.dropWhile (fun c => c != '/')).drop 1).reverse = [] then ['/']
  else ((path.reverse.dropWhile (fun c => c != '/')).drop 1).reverse

/-- The last element of a clean absolute path. -/
def baseName (path : GoString) : GoString :=
  (path.reverse.takeWhile (fun c => c != '/')).reverse

/-- The path of the entry `name` of the directory `dir`, for a clean absolute
`dir` of a Unix machine and a plain name. -/
def joinPath (dir name : GoString) : GoString :=
  if dir = ['/'] then '/' :: name else dir ++ '/' :: name

/-- The path of `target` relative to its ancestor `base`, both clean and absolute. -/
def relPath (base target : GoString) : GoString :=
  if base = target then ['.']
  else if base = ['/'] then target.drop 1
  else target.drop (base.length + 1)

/-- A Unix machine whose file system holds the entries listed: a path with `none`
is a directory, a path with a text is a regular file of that content. The
decoders of manifests and of workspace files are given as arguments, and a
pattern matches the name that is its own text (it has no special character). -/
def treeWorld (entries : List (GoString × Option GoString))
    (decodeManifest : GoString → Except GoError PackageJSON)
    (decodeWorkspaces : GoString → Except GoError (List GoString)) : World :=
  { emptyWorld with
    filepathJoin := joinPath
    filepathDir := parentDir
    filepathRel := relPath
    lstat := fun path =>
      match entries.lookup path with
      | some none => some true
      | some (some _) => some false
      | none => none
    readFile := fun path =>
      match entries.lookup path with
      | some (some content) => Except.ok content
      | some none => Except.error "is a directory"
      | none => Except.error "no such file or directory"
    readDir := fun dir =>
      match entries.lookup dir with
      | some none =>
        Except.ok ((entries.filter (fun e => e.1 != dir && parentDir e.1 == dir)).map
          (fun e => baseName e.1))
      | some (some _) => Except.error "not a directory"
      | none => Except.error "no such file or directory"
    readPackageJSON := fun path =>
      match entries.lookup path with
      | some (some content) => decodeManifest content
      | some none => Except.error "is a directory"
      | none => Except.error "no such file or directory"
    unmarshalPnpmWorkspaces := decodeWorkspaces
    doublestarMatch := fun pattern name => Except.ok (decide (pattern = name)) }

/-- A machine with the file `/repo/turbo.json` and the directory `/repo/app/src`. -/
def markerWorld : World :=
  treeWorld
    [("/".toList, none), ("/repo".toList, none), ("/repo/turbo.json".toList, some []),
     ("/repo/app".toList, none), ("/repo/app/src".toList, none)]
    (fun _ => Except.error "unexpected end of JSON input") (fun _ => Except.ok [])

/-! ## The inference of the root, modelled from the specification -/

/-- `PackageType`, with its two values as `infer_root_test.go` names them. -/
inductive PackageType where
  | Single
  | Multi
deriving DecidableEq

/-- Modelled from the spec: whether a directory has a manifest, for `InferRoot`
(`infer_root.go` is not among the sources at hand): the directory can be read and
has an entry `package.json`. -/
def hasManifest (w : World) (dir : GoString) : Bool :=
  match hasFile w "package.json".toList dir with
  | (found, none) => found
  | (_, some _) => false

/-- Modelled from the spec: the upward walk of `InferRoot` (§4.4, step 1): the
first directory among `dir` and its ancestors that has an entry `name`, `some none`
when the walk ends without one, at the root or at a directory that cannot be
read, and `none` when `fuel` directories did not suffice. It follows the loop of
`FindupFrom` and returns the directory instead of the joined path. -/
def nearestDirWith (w : World) : Nat → GoString → GoString → Option (Option GoString)
  | 0, _, _ => none
  | fuel + 1, name, dir =>
    match hasFile w name dir with
    | (_, some _) => some none
    | (found, none) =>
      if found then some (some dir)
      else
        if w.filepathDir dir = dir then some none
        else nearestDirWith w fuel name (w.filepathDir dir)

/-- Modelled from the spec: the field `workspaces` of the manifest of a directory
as `InferRoot` sees it, empty when the manifest cannot be read. The field is
present when the sequence is not empty. -/
def manifestWorkspaces (w : World) (dir : GoString) : List GoString :=
  match w.readPackageJSON (w.filepathJoin dir "package.json".toList) with
  | Except.ok pkg => pkg.Workspaces
  | Except.error _ => []

/-- Modelled from the spec: the field `packages` of the manifest of a directory as
`InferRoot` sees it, empty when the manifest cannot be read. -/
def manifestPackages (w : World) (dir : GoString) : List GoString :=
  match w.readPackageJSON (w.filepathJoin dir "package.json".toList) with
  | Except.ok pkg => pkg.Packages
  | Except.error _ => []

/-- Modelled from the spec: the packages that the workspace-configuration file
`pnpm-workspace.yaml` of a directory declares, for `InferRoot`; none when the file
is absent or cannot be decoded. -/
def workspaceFilePackages (w : World) (dir : GoString) : List GoString :=
  match readPnpmWorkspacePackages w (w.filepathJoin dir "pnpm-workspace.yaml".toList) with
  | (packages, none) => packages
  | (_, some _) => []

/-- Modelled from the spec: the mode that `InferRoot` (not at hand) decides from
the manifest of the directory of the marker file (§4.4, step 2): `Multi` when the
field `workspaces` is present; otherwise `Single` when the field `packages` is
present; otherwise `Multi` when the workspace-configuration file declares
packages, and `Single` when it does not. The last test follows the table of
`TestInferRoot`, where an empty `pnpm-workspace.yaml` gives `Single`. -/
def modeAtMarker (w : World) (dir : GoString) : PackageType :=
  if !(manifestWorkspaces w dir).isEmpty then PackageType.Multi
  else if !(manifestPackages w dir).isEmpty then PackageType.Single
  else if !(workspaceFilePackages w dir).isEmpty then PackageType.Multi
  else PackageType.Single

/-- Modelled from the spec: the workspace glob patterns that a directory declares
for `InferRoot` (§4.4, step 3): those of the field `workspaces` of its manifest,
or, when there are none, those of its workspace-configuration file. -/
def declaredGlobs (w : World) (dir : GoString) : List GoString :=
  if !(manifestWorkspaces w dir).isEmpty then manifestWorkspaces w dir
  else workspaceFilePackages w dir

/-- Modelled from the spec: the membership test of `InferRoot` (§4.4, step 3):
whether one of the patterns matches the path of the starting directory relative
to the directory `base` that declares them. -/
def isMember (w : World) (globs : List GoString) (base start : GoString) : Bool :=
  globs.any (fun glob =>
    match w.doublestarMatch glob (w.filepathRel base start) with
    | Except.ok isMatch => isMatch
    | Except.error _ => false)

/-- Modelled from the spec: the walk of `InferRoot` (§4.4, step 3) from `dir`
upward through every directory that has a manifest, to the nearest one that
declares workspace glob patterns: `Multi` when one of its patterns matches the
starting directory, `Single` when none does, `Single` when the root is passed
without such a directory, and `none` when `fuel` directories did not suffice. -/
def modeFromAncestors (w : World) (start : GoString) : Nat → GoString → Option PackageType
  | 0, _ => none
  | fuel + 1, dir =>
    if hasManifest w dir && !(declaredGlobs w dir).isEmpty then
      some (if isMember w (declaredGlobs w dir) dir start then PackageType.Multi
        else PackageType.Single)
    else
      if w.filepathDir dir = dir then some PackageType.Single
      else modeFromAncestors w start fuel (w.filepathDir dir)

/-- Modelled from the spec: the mode of `InferRoot` when no marker file is found
(§4.4, step 3). Two cases come first, as the table of `TestInferRoot` has them:
without any manifest in the starting directory and its ancestors the mode is
`Multi`, and when the nearest manifest declares workspace glob patterns the mode
is `Multi`. Otherwise the walk goes on above the nearest manifest. -/
def modeWithoutMarker (w : World) (fuel : Nat) (start : GoString) : Option PackageType :=
  match nearestDirWith w fuel "package.json".toList start with
  | none => none
  | some none => some PackageType.Multi
  | some (some nearest) =>
    if !(declaredGlobs w nearest).isEmpty then some PackageType.Multi
    else
      if w.filepathDir nearest = nearest then some PackageType.Single
      else modeFromAncestors w start fuel (w.filepathDir nearest)

/-- Modelled from the spec: `InferRoot` (`infer_root.go` is not among the sources
at hand; `infer_root_test.go` is), after §4.4: the pair of the root and the mode,
and `none` when `fuel` directories did not suffice for a walk. With the marker
file `turbo.json` found at a directory that has a manifest, that directory is the
root and its manifest decides the mode; with the marker file found at a directory
without a manifest the result is the starting directory and `Multi`, as the table
of `TestInferRoot` has it; without a marker file the root is the starting
directory. -/
def InferRoot (w : World) (fuel : Nat) (directory : GoString) : Option (GoString × PackageType) :=
  match nearestDirWith w fuel "turbo.json".toList directory with
  | none => none
  | some (some markerDir) =>
    if hasManifest w markerDir then some (markerDir, modeAtMarker w markerDir)
    else some (directory, PackageType.Multi)
  | some none =>
    match modeWithoutMarker w fuel directory with
    | none => none
    | some mode => some (directory, mode)

/-- One row of the table of `TestInferRoot`: the files written under the
temporary directory, with their content, and the expected result. -/
structure InferRootTest where
  fs : List (GoString × GoString)
  executionDirectory : GoString
  rootPath : GoString
  packageMode : PackageType

/-- The temporary directory of a test. -/
def fsRoot : GoString := "/t".toList

/-- `filepath.Join(fsRoot, path)` for a relative path of the table. -/
def underRoot (path : GoString) : GoString :=
  if path = [] then fsRoot else fsRoot ++ '/' :: path

/-- A directory and the directories above it, to the root. -/
def directoriesTo : Nat → GoString → List GoString
  | 0, _ => []
  | n + 1, dir => if parentDir dir = dir then [dir] else dir :: directoriesTo n (parentDir dir)

/-- The entries that the loop of `TestInferRoot` leaves on the machine: the
temporary directory, and for each file of the row the directories of
`os.MkdirAll(filepath.Dir(path))` and the file of `os.WriteFile`. -/
def testEntries (fs : List (GoString × GoString)) : List (GoString × Option GoString) :=
  (directoriesTo fsRoot.length fsRoot).map (fun dir => (dir, none)) ++
    fs.flatMap (fun file =>
      (directoriesTo (underRoot file.1).length (parentDir (underRoot file.1))).map
          (fun dir => (dir, none))
        ++ [(underRoot file.1, some file.2)])

/-- The manifests of the table of `TestInferRoot`, decoded. -/
def decodeTestManifest (content : GoString) : Except GoError PackageJSON :=
  if content = "\x7b\x7d".toList then
    Except.ok { PackageManager := [], Workspaces := [], Packages := [],
                Resolutions := GoValue.null, Pnpm := GoValue.null }
  else if content = "\x7b \"workspaces\": [ \"exists\" ] \x7d".toList then
    Except.ok { PackageManager := [], Workspaces := ["exists".toList], Packages := [],
                Resolutions := GoValue.null, Pnpm := GoValue.null }
  else if content = "\x7b \"packages\": [ \"exists\" ] \x7d".toList then
    Except.ok { PackageManager := [], Workspaces := [], Packages := ["exists".toList],
                Resolutions := GoValue.null, Pnpm := GoValue.null }
  else if content
      = "\x7b \"workspaces\": [ \"clobbered\" ], \"packages\": [ \"exists\" ] \x7d".toList then
    Except.ok { PackageManager := [], Workspaces := ["clobbered".toList],
                Packages := ["exists".toList],
                Resolutions := GoValue.null, Pnpm := GoValue.null }
  else if content = "\x7b \"workspaces\": [ \"one/two/three\" ] \x7d".toList then
    Except.ok { PackageManager := [], Workspaces := ["one/two/three".toList], Packages := [],
                Resolutions := GoValue.null, Pnpm := GoValue.null }
  else if content = "\x7b \"workspaces\": [ \"does-not-exist\" ] \x7d".toList then
    Except.ok { PackageManager := [], Workspaces := ["does-not-exist".toList], Packages := [],
                Resolutions := GoValue.null, Pnpm := GoValue.null }
  else Except.error "unexpected end of JSON input"

/-- The workspace files of the table of `TestInferRoot`, decoded. -/
def decodeTestWorkspaces (content : GoString) : Except GoError (List GoString) :=
  if content = "packages:\n  - docs".toList then Except.ok ["docs".toList]
  else if content = [] then Except.ok []
  else Except.error "yaml: cannot unmarshal"

/-- The machine of one row of `TestInferRoot`. -/
def testWorld (fs : List (GoString × GoString)) : World :=
  treeWorld (testEntries fs) decodeTestManifest decodeTestWorkspaces

/-- The table of `TestInferRoot`, row by row. -/
def inferRootTests : List InferRootTest :=
  [ { fs := [("turbo.json".toList, [])]
      executionDirectory := []
      rootPath := []
      packageMode := PackageType.Multi },
    { fs := [("execution/path/subdir/.file".toList, []),
        ("turbo.json".toList, [])]
      executionDirectory := "execution/path/subdir".toList
      rootPath := "execution/path/subdir".toList
      packageMode := PackageType.Multi },
    { fs := [("turbo.json".toList, []),
        ("package.json".toList, "\x7b \"workspaces\": [ \"exists\" ] \x7d".toList)]
      executionDirectory := []
      rootPath := []
      packageMode := PackageType.Multi },
    { fs := [("execution/path/subdir/.file".toList, []),
        ("turbo.json".toList, []),
        ("package.json".toList, "\x7b \"workspaces\": [ \"exists\" ] \x7d".toList)]
      executionDirectory := "execution/path/subdir".toList
      rootPath := []
      packageMode := PackageType.Multi },
    { fs := [("execution/path/subdir/.file".toList, []),
        ("turbo.json".toList, []),
        ("package.json".toList, "\x7b\x7d".toList),
        ("pnpm-workspace.yaml".toList, "packages:\n  - docs".toList)]
      executionDirectory := "execution/path/subdir".toList
      rootPath := []
      packageMode := PackageType.Multi },
    { fs := [("turbo.json".toList, []),
        ("package.json".toList, "\x7b \"packages\": [ \"exists\" ] \x7d".toList)]
      executionDirectory := []
      rootPath := []
      packageMode := PackageType.Single },
    { fs := [("execution/path/subdir/.file".toList, []),
        ("turbo.json".toList, []),
        ("package.json".toList, "\x7b \"packages\": [ \"exists\" ] \x7d".toList)]
      executionDirectory := "execution/path/subdir".toList
      rootPath := []
      packageMode := PackageType.Single },
    { fs := [("turbo.json".toList, []),
        ("package.json".toList, "\x7b \"workspaces\": [ \"clobbered\" ], \"packages\": [ \"exists\" ] \x7d".toList)]
      executionDirectory := []
      rootPath := []
      packageMode := PackageType.Multi },
    { fs := [("execution/path/subdir/.file".toList, []),
        ("turbo.json".toList, []),
        ("package.json".toList, "\x7b \"workspaces\": [ \"clobbered\" ], \"packages\": [ \"exists\" ] \x7d".toList)]
      executionDirectory := "execution/path/subdir".toList
      rootPath := []
      packageMode := PackageType.Multi },
    { fs := [("turbo.json".toList, []),
        ("package.json".toList, "\x7b\x7d".toList)]
      executionDirectory := []
      rootPath := []
      packageMode := PackageType.Single },
    { fs := [("execution/path/subdir/.file".toList, []),
        ("turbo.json".toList, []),
        ("package.json".toList, "\x7b\x7d".toList)]
      executionDirectory := "execution/path/subdir".toList
      rootPath := []
      packageMode := PackageType.Single },
    { fs := [("execution/path/subdir/.file".toList, []),
        ("turbo.json".toList, []),
        ("package.json".toList, "\x7b\x7d".toList),
        ("pnpm-workspace.yaml".toList, [])]
      executionDirectory := "execution/path/subdir".toList
      rootPath := []
      packageMode := PackageType.Single },
    { fs := []
      executionDirectory := []
      rootPath := []
      packageMode := PackageType.Multi },
    { fs := [("execution/path/subdir/.file".toList, [])]
      executionDirectory := "execution/path/subdir".toList
      rootPath := "execution/path/subdir".toList
      packageMode := PackageType.Multi },
    { fs := [("package.json".toList, "\x7b \"workspaces\": [ \"exists\" ] \x7d".toList)]
      executionDirectory := []
      rootPath := []
      packageMode := PackageType.Multi },
    { fs := [("execution/path/subdir/.file".toList, []),
        ("package.json".toList, "\x7b \"workspaces\": [ \"exists\" ] \x7d".toList)]
      executionDirectory := "execution/path/subdir".toList
      rootPath := "execution/path/subdir".toList
      packageMode := PackageType.Multi },
    { fs := [("execution/path/subdir/.file".toList, []),
        ("package.json".toList, "\x7b \"workspaces\": [ \"exists\" ] \x7d".toList),
        ("pnpm-workspace.yaml".toList, "packages:\n  - docs".toList)]
      executionDirectory := "execution/path/subdir".toList
      rootPath := "execution/path/subdir".toList
      packageMode := PackageType.Multi },
    { fs := [("package.json".toList, "\x7b\x7d".toList),
        ("one/package.json".toList, "\x7b\x7d".toList),
        ("one/two/package.json".toList, "\x7b\x7d".toList),
        ("one/two/three/package.json".toList, "\x7b\x7d".toList)]
      executionDirectory := "one/two/three".toList
      rootPath := "one/two/three".toList
      packageMode := PackageType.Single },
    { fs := [("package.json".toList, "\x7b \"workspaces\": [ \"one/two/three\" ] \x7d".toList),
        ("one/package.json".toList, "\x7b\x7d".toList),
        ("one/two/package.json".toList, "\x7b\x7d".toList),
        ("one/two/three/package.json".toList, "\x7b\x7d".toList)]
      executionDirectory := "one/two/three".toList
      rootPath := "one/two/three".toList
      packageMode := PackageType.Multi },
    { fs := [("package.json".toList, "\x7b \"workspaces\": [ \"does-not-exist\" ] \x7d".toList),
        ("one/package.json".toList, "\x7b\x7d".toList),
        ("one/two/package.json".toList, "\x7b\x7d".toList),
        ("one/two/three/package.json".toList, "\x7b\x7d".toList)]
      executionDirectory := "one/two/three".toList
      rootPath := "one/two/three".toList
      packageMode := PackageType.Single }]

/-- A machine with the marker file and a manifest with the two fields `workspaces`
and `packages` in `/t`, and the directory `/t/app`. -/
def bothFieldsWorld : World :=
  testWorld
    [("app/.file".toList, []), ("turbo.json".toList, []),
     ("package.json".toList,
      "\x7b \"workspaces\": [ \"clobbered\" ], \"packages\": [ \"exists\" ] \x7d".toList)]

/-- A directory at which the walk of `InferRoot` above the nearest manifest does
not stop: it has no manifest, or it declares no workspace glob pattern. -/
def declaresNothing (w : World) (dir : GoString) : Prop :=
  (hasManifest w dir && !(declaredGlobs w dir).isEmpty) = false

/-- A machine without a marker file and with a manifest at every level: those of
`/` and `/repo` declare nothing, and the manifest of `/repo/app` declares the
workspace `exists`. -/
def nestedRootWorld : World :=
  treeWorld
    [("/".toList, none), ("/package.json".toList, some "\x7b\x7d".toList),
     ("/repo".toList, none), ("/repo/package.json".toList, some "\x7b\x7d".toList),
     ("/repo/app".toList, none),
     ("/repo/app/package.json".toList,
      some "\x7b \"workspaces\": [ \"exists\" ] \x7d".toList)]
    decodeTestManifest decodeTestWorkspaces

/-- The machine of the row of `TestInferRoot` in which the manifest of the
temporary directory declares the workspace `one/two/three`. -/
def memberWorld : World :=
  testWorld
    [("package.json".toList, "\x7b \"workspaces\": [ \"one/two/three\" ] \x7d".toList),
     ("one/package.json".toList, "\x7b\x7d".toList),
     ("one/two/package.json".toList, "\x7b\x7d".toList),
     ("one/two/three/package.json".toList, "\x7b\x7d".toList)]

/-- A pnpm project whose `pnpm-workspace.yaml` declares the packages `packages/*`
and `packages/a` and the ignore entry `!packages/a/package.json`, with the one
package `packages/a`: both patterns find its manifest. `doublestar.Match` is given
by its value on the pairs that occur: the text `packages/a/package.json` has no
special character and, as a pattern, matches the name equal to it. -/
def duplicatesWorld : World :=
  { emptyWorld with
    readFile := fun path =>
      if path = "root/pnpm-workspace.yaml".toList then
        Except.ok
          "packages:\n  - packages/*\n  - packages/a\n  - \"!packages/a/package.json\"\n".toList
      else Except.error "no such file or directory"
    unmarshalPnpmWorkspaces := fun _ =>
      Except.ok ["packages/*".toList, "packages/a".toList, "!packages/a/package.json".toList]
    doublestarGlob := fun _ pattern =>
      if pattern = "packages/*/package.json".toList
          ∨ pattern = "packages/a/package.json".toList then
        Except.ok ["packages/a/package.json".toList]
      else Except.ok []
    doublestarMatch := fun pattern name =>
      Except.ok (decide (pattern = "packages/a/package.json".toList ∧
        name = "packages/a/package.json".toList)) }

/-! # Theorems -/

/-! ## Lemmas on the matcher -/

theorem starClass_of_dropWhile (p : Char → Bool) (k : GoString → Option GoString) (v : GoString) :
    ∀ s : GoString, k (s.dropWhile p) = some v → Re.starClass p s k = some v := by
  intro s
  induction s with
  | nil => intro h; simpa [Re.starClass] using h
  | cons c t ih =>
    intro h
    by_cases hc : p c = true
    · have h2 : k (t.dropWhile p) = some v := by simpa [List.dropWhile, hc] using h
      simp [Re.starClass, hc, ih h2, Option.orElse]
    · have h2 : k (c :: t) = some v := by simpa [List.dropWhile, hc] using h
      simp [Re.starClass, hc, h2]

theorem run_plus_of_dropWhile (p : Char → Bool) (k : GoString → Option GoString) (v : GoString)
    (x : Char) (t : GoString) (hx : p x = true) (h : k (t.dropWhile p) = some v) :
    Re.run (Re.plus p) (x :: t) k = some v := by
  simp [Re.run, hx, starClass_of_dropWhile p k v t h]

theorem dropWhile_append_of_all (p : Char → Bool) :
    ∀ (u t : GoString), (∀ c ∈ u, p c = true) → (u ++ t).dropWhile p = t.dropWhile p := by
  intro u
  induction u with
  | nil => intro t _; rfl
  | cons c u ih =>
    intro t h
    have hc : p c = true := h c (List.mem_cons_self _ _)
    simp [List.dropWhile, hc]
    exact ih t (fun d hd => h d (List.mem_cons_of_mem _ hd))

theorem takeWhile_append_of_all (p : Char → Bool) :
    ∀ (u t : GoString), (∀ c ∈ u, p c = true) → (u ++ t).takeWhile p = u ++ t.takeWhile p := by
  intro u
  induction u with
  | nil => intro t _; rfl
  | cons c u ih =>
    intro t h
    have hc : p c = true := h c (List.mem_cons_self _ _)
    simp [List.takeWhile, hc]
    exact ih t (fun d hd => h d (List.mem_cons_of_mem _ hd))

theorem drop_length_takeWhile (p : Char → Bool) :
    ∀ l : GoString, l.drop (l.takeWhile p).length = l.dropWhile p := by
  intro l
  induction l with
  | nil => rfl
  | cons c t ih =>
    by_cases hc : p c = true
    · simp [List.takeWhile, List.dropWhile, hc, ih]
    · simp [List.takeWhile, List.dropWhile, hc]

theorem run_label (t : GoString) :
    Re.run (Re.opt (Re.seq (Re.lit '-') (Re.plus isNotNewline))) t some
      = some (t.drop (labelOf t).length) := by
  match t with
  | [] => simp [Re.run, labelOf, Option.orElse]
  | [c] =>
    by_cases hc : c = '-'
    · simp [Re.run, labelOf, Option.orElse, hc]
    · simp [Re.run, labelOf, Option.orElse, hc]
  | c :: x :: r =>
    by_cases hc : c = '-'
    · by_cases hx : isNotNewline x = true
      · have h := starClass_of_dropWhile isNotNewline some (r.dropWhile isNotNewline) r rfl
        simp [Re.run, labelOf, Option.orElse, hc, hx, h, drop_length_takeWhile]
      · simp [Re.run, labelOf, Option.orElse, hc, hx]
    · simp [Re.run, labelOf, Option.orElse, hc]

theorem isNumeral_iff (ds : GoString) :
    isNumeral ds = true ↔ ds ≠ [] ∧ ∀ c ∈ ds, isDigit c = true := by
  cases ds <;> simp [isNumeral]

theorem dot_not_digit : isDigit '.' = false := by decide

/-- The matcher on a numeral followed by a non-digit: the numeral is taken whole. -/
theorem run_numeral (A rest : GoString) (k : GoString → Option GoString) (v : GoString)
    (hA : isNumeral A = true) (h : k (rest.dropWhile isDigit) = some v) :
    Re.run (Re.plus isDigit) (A ++ rest) k = some v := by
  obtain ⟨hne, hall⟩ := (isNumeral_iff A).1 hA
  match A, hne, hall with
  | a :: A1, _, hall =>
    have ha : isDigit a = true := hall a (List.mem_cons_self _ _)
    have hA1 : ∀ c ∈ A1, isDigit c = true := fun c hc => hall c (List.mem_cons_of_mem _ hc)
    apply run_plus_of_dropWhile isDigit k v a (A1 ++ rest) ha
    rw [dropWhile_append_of_all isDigit A1 rest hA1]
    exact h

theorem run_version (A B C t : GoString) (hA : isNumeral A = true) (hB : isNumeral B = true)
    (hC : isNumeral C = true) :
    Re.run (Re.seq (Re.plus isDigit) (Re.seq (Re.lit '.') (Re.seq (Re.plus isDigit)
      (Re.seq (Re.lit '.') (Re.seq (Re.plus isDigit)
        (Re.opt (Re.seq (Re.lit '-') (Re.plus isNotNewline))))))))
      (versionText A B C ++ t) some
      = some ((t.dropWhile isDigit).drop (labelOf (t.dropWhile isDigit)).length) := by
  have e : versionText A B C ++ t = A ++ ('.' :: (B ++ ('.' :: (C ++ t)))) := by
    simp [versionText]
  rw [e]
  simp only [Re.run]
  apply run_numeral A _ _ _ hA
  simp only [List.dropWhile, dot_not_digit]
  simp only [↓reduceIte]
  apply run_numeral B _ _ _ hB
  simp only [List.dropWhile, dot_not_digit]
  simp only [↓reduceIte]
  apply run_numeral C _ _ _ hC
  exact run_label _

theorem run_seq (a b : Re) (s : GoString) (k : GoString → Option GoString) :
    Re.run (Re.seq a b) s k = Re.run a s (fun s1 => Re.run b s1 k) := rfl

theorem run_lit_cons (c : Char) (s : GoString) (k : GoString → Option GoString) :
    Re.run (Re.lit c) (c :: s) k = k s := by
  simp [Re.run]

theorem run_managers (m rest : GoString) (k : GoString → Option GoString) (v : GoString)
    (hm : m ∈ managerNames) (h : k rest = some v) :
    Re.run (Re.alt (Re.word "npm".toList) (Re.alt (Re.word "pnpm".toList) (Re.word "yarn".toList)))
      (m ++ rest) k = some v := by
  have e1 : "npm".toList = ['n', 'p', 'm'] := rfl
  have e2 : "pnpm".toList = ['p', 'n', 'p', 'm'] := rfl
  have e3 : "yarn".toList = ['y', 'a', 'r', 'n'] := rfl
  simp only [managerNames, e1, e2, e3, List.mem_cons, List.mem_singleton, List.not_mem_nil,
    or_false] at hm
  rcases hm with rfl | rfl | rfl <;> simp [e1, e2, e3, Re.word, Re.run, h, Option.orElse]

theorem run_declaration (m A B C t : GoString) (hm : m ∈ managerNames)
    (hA : isNumeral A = true) (hB : isNumeral B = true) (hC : isNumeral C = true) :
    Re.run packageManagerRegex (declaration m A B C ++ t) some
      = some ((t.dropWhile isDigit).drop (labelOf (t.dropWhile isDigit)).length) := by
  have e : declaration m A B C ++ t = m ++ ('@' :: (versionText A B C ++ t)) := by
    simp [declaration]
  rw [e, packageManagerRegex, run_seq]
  apply run_managers m _ _ _ hm
  show Re.run (Re.seq (Re.lit '@') _) _ some = _
  rw [run_seq, run_lit_cons]
  exact run_version A B C t hA hB hC

theorem labelOf_append_drop (t : GoString) : labelOf t ++ t.drop (labelOf t).length = t := by
  match t with
  | [] => simp [labelOf]
  | [c] => simp [labelOf]
  | c :: x :: r =>
    by_cases h : c = '-' ∧ isNotNewline x = true
    · simp [labelOf, h, drop_length_takeWhile, List.takeWhile_append_dropWhile]
    · simp [labelOf, h]

theorem trailingMatch_append (t : GoString) :
    trailingMatch t ++ (t.dropWhile isDigit).drop (labelOf (t.dropWhile isDigit)).length = t := by
  rw [trailingMatch, List.append_assoc, labelOf_append_drop, List.takeWhile_append_dropWhile]

theorem matchAt_declaration (m A B C t : GoString) (hm : m ∈ managerNames)
    (hA : isNumeral A = true) (hB : isNumeral B = true) (hC : isNumeral C = true) :
    Re.matchAt packageManagerRegex (declaration m A B C ++ t)
      = some (declaration m A B C ++ trailingMatch t) := by
  rw [Re.matchAt, run_declaration m A B C t hm hA hB hC]
  simp only [Option.map_some']
  congr 1
  have e : declaration m A B C ++ t = (declaration m A B C ++ trailingMatch t)
      ++ (t.dropWhile isDigit).drop (labelOf (t.dropWhile isDigit)).length := by
    rw [List.append_assoc, trailingMatch_append]
  generalize (t.dropWhile isDigit).drop (labelOf (t.dropWhile isDigit)).length = rest at e
  rw [e, List.length_append, Nat.add_sub_cancel, List.take_left]

theorem FindString_of_matchAt (r : Re) (s w : GoString) (h : Re.matchAt r s = some w) :
    Re.FindString r s = w := by
  cases s with
  | nil => simp [Re.FindString, h]
  | cons c t => simp [Re.FindString, h]

theorem stringsSplit_eq_cons (sep : Char) :
    ∀ v : GoString, ∃ r, stringsSplit sep v = v.takeWhile (fun c => c != sep) :: r := by
  intro v
  induction v with
  | nil => exact ⟨[], rfl⟩
  | cons c t ih =>
    obtain ⟨r, hr⟩ := ih
    by_cases hc : c = sep
    · exact ⟨stringsSplit sep t, by simp [stringsSplit, hc, List.takeWhile]⟩
    · have hb : (c != sep) = true := by simpa using hc
      exact ⟨r, by simp [stringsSplit, hc, hr, List.takeWhile, hb]⟩

theorem stringsSplit_append_sep (sep : Char) :
    ∀ (u v : GoString), sep ∉ u → stringsSplit sep (u ++ sep :: v) = u :: stringsSplit sep v := by
  intro u
  induction u with
  | nil => intro v _; simp [stringsSplit]
  | cons c u ih =>
    intro v h
    have hc : c ≠ sep := fun e => h (by simp [e])
    have hu : sep ∉ u := fun e => h (List.mem_cons_of_mem _ e)
    simp [stringsSplit, hc, ih v hu]

theorem at_not_mem_of_numeral (A : GoString) (hA : isNumeral A = true) :
    ∀ c ∈ A, (c != '@') = true := by
  intro c hc
  have hd := ((isNumeral_iff A).1 hA).2 c hc
  by_cases e : c = '@'
  · subst e; exact absurd hd (by decide)
  · simpa using e

theorem takeWhile_versionText (A B C t : GoString)
    (hA : isNumeral A = true) (hB : isNumeral B = true) (hC : isNumeral C = true) :
    (versionText A B C ++ t).takeWhile (fun c => c != '@')
      = versionText A B C ++ t.takeWhile (fun c => c != '@') := by
  apply takeWhile_append_of_all
  intro c hc
  simp only [versionText, List.mem_append, List.mem_cons] at hc
  rcases hc with h | h | h | h | h
  · exact at_not_mem_of_numeral A hA c h
  · subst h; decide
  · exact at_not_mem_of_numeral B hB c h
  · subst h; decide
  · exact at_not_mem_of_numeral C hC c h

theorem at_not_mem_manager (m : GoString) (hm : m ∈ managerNames) : '@' ∉ m := by
  have e1 : "npm".toList = ['n', 'p', 'm'] := rfl
  have e2 : "pnpm".toList = ['p', 'n', 'p', 'm'] := rfl
  have e3 : "yarn".toList = ['y', 'a', 'r', 'n'] := rfl
  simp only [managerNames, e1, e2, e3, List.mem_cons, List.mem_singleton, List.not_mem_nil,
    or_false] at hm
  rcases hm with rfl | rfl | rfl <;> decide

/-- The parse of a text that starts with a declaration. -/
theorem parse_declaration (m A B C t : GoString) (hm : m ∈ managerNames)
    (hA : isNumeral A = true) (hB : isNumeral B = true) (hC : isNumeral C = true) :
    ParsePackageManagerString (declaration m A B C ++ t)
      = some (m, versionText A B C ++ (trailingMatch t).takeWhile (fun c => c != '@'), none) := by
  have hF := FindString_of_matchAt _ _ _ (matchAt_declaration m A B C t hm hA hB hC)
  have hsplit : stringsSplit '@' (declaration m A B C ++ trailingMatch t)
      = m :: stringsSplit '@' (versionText A B C ++ trailingMatch t) := by
    have e : declaration m A B C ++ trailingMatch t
        = m ++ '@' :: (versionText A B C ++ trailingMatch t) := by simp [declaration]
    rw [e]
    exact stringsSplit_append_sep '@' m _ (at_not_mem_manager m hm)
  obtain ⟨r, hr⟩ := stringsSplit_eq_cons '@' (versionText A B C ++ trailingMatch t)
  rw [takeWhile_versionText A B C _ hA hB hC] at hr
  have hlen : (declaration m A B C ++ trailingMatch t).length ≠ 0 := by
    simp [declaration]
  simp only [ParsePackageManagerString, hF, hsplit, hr]
  rw [if_neg hlen]
  simp

theorem starClass_sound (p : Char → Bool) (k : GoString → Option GoString) (v : GoString) :
    ∀ s : GoString, Re.starClass p s k = some v →
      ∃ w rest, s = w ++ rest ∧ (∀ c ∈ w, p c = true) ∧ k rest = some v := by
  intro s
  induction s with
  | nil =>
    intro h
    exact ⟨[], [], rfl, by simp, by simpa [Re.starClass] using h⟩
  | cons c t ih =>
    intro h
    by_cases hc : p c = true
    · simp only [Re.starClass, hc, if_true] at h
      cases hs : Re.starClass p t k with
      | some v1 =>
        rw [hs] at h
        simp only [Option.orElse] at h
        rw [h] at hs
        obtain ⟨w, rest, e, hw, hk⟩ := ih hs
        refine ⟨c :: w, rest, by simp [e], ?_, hk⟩
        intro d hd
        rcases List.mem_cons.1 hd with rfl | hd
        · exact hc
        · exact hw d hd
      | none =>
        rw [hs] at h
        simp only [Option.orElse] at h
        exact ⟨[], c :: t, rfl, by simp, h⟩
    · simp only [Re.starClass, hc] at h
      exact ⟨[], c :: t, rfl, by simp, by simpa using h⟩

theorem run_sound : ∀ (r : Re) (s : GoString) (k : GoString → Option GoString) (v : GoString),
    Re.run r s k = some v → ∃ w rest, s = w ++ rest ∧ Re.Lang r w ∧ k rest = some v := by
  intro r
  induction r with
  | eps =>
    intro s k v h
    exact ⟨[], s, rfl, rfl, by simpa [Re.run] using h⟩
  | lit c =>
    intro s k v h
    cases s with
    | nil => simp [Re.run] at h
    | cons x t =>
      by_cases hx : x = c
      · subst hx
        exact ⟨[x], t, rfl, rfl, by simpa [Re.run] using h⟩
      · simp [Re.run, hx] at h
  | plus p =>
    intro s k v h
    cases s with
    | nil => simp [Re.run] at h
    | cons x t =>
      by_cases hx : p x = true
      · simp only [Re.run, hx, if_true] at h
        obtain ⟨w, rest, e, hw, hk⟩ := starClass_sound p k v t h
        refine ⟨x :: w, rest, by simp [e], ⟨by simp, ?_⟩, hk⟩
        intro d hd
        rcases List.mem_cons.1 hd with rfl | hd
        · exact hx
        · exact hw d hd
      · simp [Re.run, hx] at h
  | seq a b iha ihb =>
    intro s k v h
    rw [Re.run] at h
    obtain ⟨u, r1, e1, hu, h1⟩ := iha s _ v h
    obtain ⟨u2, rest, e2, hu2, h2⟩ := ihb r1 k v h1
    exact ⟨u ++ u2, rest, by simp [e1, e2], ⟨u, u2, rfl, hu, hu2⟩, h2⟩
  | alt a b iha ihb =>
    intro s k v h
    rw [Re.run] at h
    cases ha : Re.run a s k with
    | some v1 =>
      rw [ha] at h
      simp only [Option.orElse] at h
      rw [h] at ha
      obtain ⟨w, rest, e, hw, hk⟩ := iha s k v ha
      exact ⟨w, rest, e, Or.inl hw, hk⟩
    | none =>
      rw [ha] at h
      simp only [Option.orElse] at h
      obtain ⟨w, rest, e, hw, hk⟩ := ihb s k v h
      exact ⟨w, rest, e, Or.inr hw, hk⟩
  | opt a iha =>
    intro s k v h
    rw [Re.run] at h
    cases ha : Re.run a s k with
    | some v1 =>
      rw [ha] at h
      simp only [Option.orElse] at h
      rw [h] at ha
      obtain ⟨w, rest, e, hw, hk⟩ := iha s k v ha
      exact ⟨w, rest, e, Or.inl hw, hk⟩
    | none =>
      rw [ha] at h
      simp only [Option.orElse] at h
      exact ⟨[], s, rfl, Or.inr rfl, h⟩

/-- A match at the head of `s` is a prefix of `s` in the language. -/
theorem matchAt_sound (r : Re) (s w : GoString) (h : Re.matchAt r s = some w) :
    Re.Lang r w ∧ ∃ rest, s = w ++ rest := by
  unfold Re.matchAt at h
  cases hr : Re.run r s some with
  | none => simp [hr] at h
  | some v =>
    obtain ⟨w1, rest, e, hw, hk⟩ := run_sound r s some v hr
    have hv : rest = v := by simpa using hk
    subst hv
    rw [hr] at h
    simp only [Option.map_some', Option.some.injEq] at h
    rw [e, List.length_append, Nat.add_sub_cancel, List.take_left] at h
    subst h
    exact ⟨hw, rest, e⟩

theorem FindString_nil_of_no_match (r : Re) :
    ∀ s : GoString, (∀ before suffix, s = before ++ suffix → Re.matchAt r suffix = none) →
      Re.FindString r s = [] := by
  intro s
  induction s with
  | nil =>
    intro h
    simp [Re.FindString, h [] [] rfl]
  | cons c t ih =>
    intro h
    have h0 := h [] (c :: t) rfl
    simp only [Re.FindString, h0]
    exact ih (fun before suffix e => h (c :: before) suffix (by simp [e]))

theorem FindString_leftmost (r : Re) :
    ∀ s : GoString, (∃ before suffix, s = before ++ suffix ∧ (Re.matchAt r suffix).isSome = true) →
      ∃ before suffix w, s = before ++ suffix ∧ Re.matchAt r suffix = some w ∧
        Re.FindString r s = w := by
  intro s
  induction s with
  | nil =>
    rintro ⟨before, suffix, e, h⟩
    have hs : suffix = [] := by
      have := congrArg List.length e
      simp at this
      exact List.length_eq_zero.1 (by omega)
    subst hs
    obtain ⟨w, hw⟩ := Option.isSome_iff_exists.1 h
    exact ⟨[], [], w, rfl, hw, by simp [Re.FindString, hw]⟩
  | cons c t ih =>
    rintro ⟨before, suffix, e, h⟩
    cases h0 : Re.matchAt r (c :: t) with
    | some w => exact ⟨[], c :: t, w, rfl, h0, by simp [Re.FindString, h0]⟩
    | none =>
      cases before with
      | nil =>
        simp only [List.nil_append] at e
        subst e
        rw [h0] at h
        simp at h
      | cons b before =>
        simp only [List.cons_append, List.cons.injEq] at e
        obtain ⟨b1, s1, w, e1, hw, hF⟩ := ih ⟨before, suffix, e.2, h⟩
        exact ⟨c :: b1, s1, w, by simp [e1], hw, by simp [Re.FindString, h0, hF]⟩

theorem lang_word : ∀ (w u : GoString), Re.Lang (Re.word w) u → u = w := by
  intro w
  induction w with
  | nil => intro u h; simpa [Re.word, Re.Lang] using h
  | cons c t ih =>
    intro u h
    simp only [Re.word, Re.Lang] at h
    obtain ⟨u1, v1, e, h1, h2⟩ := h
    rw [e, h1, ih v1 h2]
    rfl

/-- Every word of the pattern starts with a declaration. -/
theorem lang_packageManagerRegex (w : GoString) (h : Re.Lang packageManagerRegex w) :
    ∃ m A B C X, m ∈ managerNames ∧ isNumeral A = true ∧ isNumeral B = true ∧
      isNumeral C = true ∧ w = declaration m A B C ++ X := by
  simp only [packageManagerRegex, Re.Lang] at h
  obtain ⟨m, v0, e0, hm, u1, v1, e1, hat, A, v2, e2, hA, u3, v3, e3, hd1, B, v4, e4, hB,
    u5, v5, e5, hd2, C, X, e6, hC, _⟩ := h
  have hm2 : m ∈ managerNames := by
    rcases hm with h | h | h <;>
    · simp at h
      subst h
      decide
  refine ⟨m, A, B, C, X, hm2, (isNumeral_iff A).2 hA, (isNumeral_iff B).2 hB,
    (isNumeral_iff C).2 hC, ?_⟩
  subst e0 e1 e2 e3 e4 e5 e6 hat hd1 hd2
  simp [declaration, versionText]

theorem hasDeclaration_of_match (s before suffix w : GoString) (e : s = before ++ suffix)
    (h : Re.matchAt packageManagerRegex suffix = some w) : hasDeclaration s := by
  obtain ⟨hL, rest, er⟩ := matchAt_sound _ _ _ h
  obtain ⟨m, A, B, C, X, hm, hA, hB, hC, ew⟩ := lang_packageManagerRegex w hL
  refine ⟨before, m, A, B, C, X ++ rest, hm, hA, hB, hC, ?_⟩
  rw [e, er, ew]
  simp

/-- Without a declaration in the text, `FindString` finds nothing. -/
theorem FindString_of_not_hasDeclaration (s : GoString) (h : ¬ hasDeclaration s) :
    Re.FindString packageManagerRegex s = [] := by
  apply FindString_nil_of_no_match
  intro before suffix e
  cases hm : Re.matchAt packageManagerRegex suffix with
  | none => rfl
  | some w => exact absurd (hasDeclaration_of_match s before suffix w e hm) h

/-- With a declaration in the text, `FindString` returns a text `m@...` that
starts with a declaration. -/
theorem FindString_of_hasDeclaration (s : GoString) (h : hasDeclaration s) :
    ∃ m A B C X, m ∈ managerNames ∧ isNumeral A = true ∧ isNumeral B = true ∧
      isNumeral C = true ∧ Re.FindString packageManagerRegex s = declaration m A B C ++ X := by
  obtain ⟨before, m, A, B, C, after, hm, hA, hB, hC, e⟩ := h
  have hex : ∃ b suffix, s = b ++ suffix ∧
      (Re.matchAt packageManagerRegex suffix).isSome = true :=
    ⟨before, declaration m A B C ++ after, by rw [e, List.append_assoc],
      by rw [matchAt_declaration m A B C after hm hA hB hC]; rfl⟩
  obtain ⟨b1, s1, w, _, hw, hF⟩ := FindString_leftmost packageManagerRegex s hex
  obtain ⟨hL, _⟩ := matchAt_sound _ _ _ hw
  obtain ⟨m1, A1, B1, C1, X, hm1, hA1, hB1, hC1, ew⟩ := lang_packageManagerRegex w hL
  exact ⟨m1, A1, B1, C1, X, hm1, hA1, hB1, hC1, by rw [hF, ew]⟩

theorem parse_of_not_hasDeclaration (s : GoString) (h : ¬ hasDeclaration s) :
    ParsePackageManagerString s = some ([], [], some (parseError s)) := by
  simp [ParsePackageManagerString, FindString_of_not_hasDeclaration s h]

theorem parse_of_hasDeclaration (s : GoString) (h : hasDeclaration s) :
    ∃ m v, m ∈ managerNames ∧ ParsePackageManagerString s = some (m, v, none) := by
  obtain ⟨m, A, B, C, X, hm, hA, hB, hC, hF⟩ := FindString_of_hasDeclaration s h
  have hsplit : stringsSplit '@' (declaration m A B C ++ X)
      = m :: stringsSplit '@' (versionText A B C ++ X) := by
    have e : declaration m A B C ++ X = m ++ '@' :: (versionText A B C ++ X) := by
      simp [declaration]
    rw [e]
    exact stringsSplit_append_sep '@' m _ (at_not_mem_manager m hm)
  obtain ⟨r, hr⟩ := stringsSplit_eq_cons '@' (versionText A B C ++ X)
  have hlen : (declaration m A B C ++ X).length ≠ 0 := by simp [declaration]
  refine ⟨m, (versionText A B C ++ X).takeWhile (fun c => c != '@'), hm, ?_⟩
  simp only [ParsePackageManagerString, hF, hsplit, hr]
  rw [if_neg hlen]
  simp

/-! ## Parsing the declaration (C1, C2, C3) -/

theorem labelChar_facts (c : Char) (h : (c.isAlphanum || c == '.') = true) :
    isNotNewline c = true ∧ (c != '@') = true := by
  constructor
  · by_cases e : c = '\n'
    · subst e; exact absurd h (by decide)
    · simpa [isNotNewline] using e
  · by_cases e : c = '@'
    · subst e; exact absurd h (by decide)
    · simpa using e

theorem trailingMatch_label (L : GoString) (hL : isLabel L = true) :
    (trailingMatch ('-' :: L)).takeWhile (fun c => c != '@') = '-' :: L := by
  have hall : ∀ c ∈ L, (c.isAlphanum || c == '.') = true := by
    intro c hc
    have := hL
    simp only [isLabel, Bool.and_eq_true, List.all_eq_true] at this
    exact this.2 c hc
  have hd : isDigit '-' = false := by decide
  match L, hL, hall with
  | x :: r, _, hall =>
    have hx := (labelChar_facts x (hall x (List.mem_cons_self _ _))).1
    have hr : r.takeWhile isNotNewline = r :=
      List.takeWhile_eq_self_iff.2
        (fun c hc => (labelChar_facts c (hall c (List.mem_cons_of_mem _ hc))).1)
    have e : trailingMatch ('-' :: x :: r) = '-' :: x :: r := by
      simp [trailingMatch, List.takeWhile, List.dropWhile, hd, labelOf, hx, hr]
    rw [e]
    apply List.takeWhile_eq_self_iff.2
    intro c hc
    rcases List.mem_cons.1 hc with rfl | hc
    · decide
    · exact (labelChar_facts c (hall c hc)).2

/-- C1: for every manager name `m` of the pattern (npm, pnpm, yarn) and all decimal
numerals `A`, `B`, `C`, `ParsePackageManagerString` on the text `m@A.B.C` returns
the manager `m`, the version `A.B.C` and a nil error; and with a pre-release label
`L` made of letters, digits and dots, on `m@A.B.C-L` it returns `m` and `A.B.C-L`
(so `npm@1.2.3-alpha.1` gives `npm` and `1.2.3-alpha.1`). -/
theorem parse_manager_version (m A B C L : GoString) (hm : m ∈ managerNames)
    (hA : isNumeral A = true) (hB : isNumeral B = true) (hC : isNumeral C = true)
    (hL : isLabel L = true) :
    ParsePackageManagerString (declaration m A B C) = some (m, versionText A B C, none) ∧
    ParsePackageManagerString (declaration m A B C ++ '-' :: L)
      = some (m, versionText A B C ++ '-' :: L, none) := by
  constructor
  · have h := parse_declaration m A B C [] hm hA hB hC
    simpa [trailingMatch, labelOf] using h
  · have h := parse_declaration m A B C ('-' :: L) hm hA hB hC
    rw [trailingMatch_label L hL] at h
    exact h

/-- Witness of C1 at `npm@1.2.3` and `npm@1.2.3-alpha.1`. -/
theorem parse_manager_version_witness :
    ("npm".toList ∈ managerNames ∧ isNumeral "1".toList = true ∧ isNumeral "2".toList = true ∧
      isNumeral "3".toList = true ∧ isLabel "alpha.1".toList = true) ∧
    ParsePackageManagerString "npm@1.2.3".toList = some ("npm".toList, "1.2.3".toList, none) ∧
    ParsePackageManagerString "npm@1.2.3-alpha.1".toList
      = some ("npm".toList, "1.2.3-alpha.1".toList, none) :=
  ⟨by decide, parse_manager_version "npm".toList "1".toList "2".toList "3".toList
    "alpha.1".toList (by decide) (by decide) (by decide) (by decide) (by decide)⟩

/-- C2: `ParsePackageManagerString` returns its error, with an empty manager and an
empty version, exactly for the inputs that contain no substring of the form
`(npm|pnpm|yarn)@digits.digits.digits`, and returns a nil error (without
panicking) exactly for the inputs that contain one; in particular it fails on
`npm@latest`, `npm`, `npm@1`, `npm@1.2` and `pip@1.2.3`. -/
theorem parse_error_iff (s : GoString) :
    (¬ hasDeclaration s ↔ ParsePackageManagerString s = some ([], [], some (parseError s))) ∧
    (hasDeclaration s ↔ ∃ m v, ParsePackageManagerString s = some (m, v, none)) ∧
    ParsePackageManagerString "npm@latest".toList
      = some ([], [], some (parseError "npm@latest".toList)) ∧
    ParsePackageManagerString "npm".toList = some ([], [], some (parseError "npm".toList)) ∧
    ParsePackageManagerString "npm@1".toList = some ([], [], some (parseError "npm@1".toList)) ∧
    ParsePackageManagerString "npm@1.2".toList
      = some ([], [], some (parseError "npm@1.2".toList)) ∧
    ParsePackageManagerString "pip@1.2.3".toList
      = some ([], [], some (parseError "pip@1.2.3".toList)) := by
  refine ⟨⟨parse_of_not_hasDeclaration s, ?_⟩, ⟨?_, ?_⟩, rfl, rfl, rfl, rfl, rfl⟩
  · intro h hd
    obtain ⟨m, v, _, hp⟩ := parse_of_hasDeclaration s hd
    rw [hp] at h
    simp at h
  · intro hd
    obtain ⟨m, v, _, hp⟩ := parse_of_hasDeclaration s hd
    exact ⟨m, v, hp⟩
  · rintro ⟨m, v, hp⟩
    by_contra hd
    rw [parse_of_not_hasDeclaration s hd] at hp
    simp at hp

theorem takeWhile_trailingMatch_eq_nil (t : GoString) :
    (trailingMatch t).takeWhile (fun c => c != '@') = [] ↔ prolongsVersion t = false := by
  have hat : isDigit '@' = false := by decide
  match t with
  | [] => simp [trailingMatch, labelOf, prolongsVersion]
  | [c] =>
    by_cases hc : isDigit c = true
    · have hne : c ≠ '@' := fun e => by rw [e, hat] at hc; exact absurd hc (by decide)
      simp [trailingMatch, labelOf, prolongsVersion, hc, List.takeWhile, hne]
    · simp [trailingMatch, labelOf, prolongsVersion, hc, List.takeWhile, List.dropWhile]
  | c :: x :: r =>
    by_cases hc : isDigit c = true
    · have hne : c ≠ '@' := fun e => by rw [e, hat] at hc; exact absurd hc (by decide)
      simp [trailingMatch, prolongsVersion, hc, List.takeWhile, hne]
    · by_cases hl : c = '-' ∧ isNotNewline x = true
      · obtain ⟨rfl, hx⟩ := hl
        simp [trailingMatch, labelOf, prolongsVersion, hc, List.takeWhile, List.dropWhile, hx]
      · have hl2 : (c == '-' && isNotNewline x) = false := by
          by_cases e : c = '-'
          · have : isNotNewline x = false := by simpa [e] using hl
            simp [this]
          · simp [e]
        simp [trailingMatch, labelOf, prolongsVersion, hc, List.takeWhile, List.dropWhile, hl, hl2]

/-- Counterexample to C3 as stated: after the declaration `npm@1.2.3`, the
trailing texts `4` and `-rc` change the version that is returned. -/
theorem parse_trailing_counterexample :
    ParsePackageManagerString "npm@1.2.3".toList = some ("npm".toList, "1.2.3".toList, none) ∧
    ParsePackageManagerString ("npm@1.2.3".toList ++ "4".toList)
      = some ("npm".toList, "1.2.34".toList, none) ∧
    ParsePackageManagerString ("npm@1.2.3".toList ++ "-rc".toList)
      = some ("npm".toList, "1.2.3-rc".toList, none) ∧
    ParsePackageManagerString ("npm@1.2.3".toList ++ "4".toList)
      ≠ ParsePackageManagerString "npm@1.2.3".toList := by
  decide

/-- C3, amended: for every declaration `m@A.B.C` and every trailing text `t`,
`ParsePackageManagerString` on the declaration followed by `t` succeeds and
returns the manager `m` and a version that starts with `A.B.C`; the result is the
same as for the declaration alone exactly when `t` does not prolong the version,
that is, when `t` starts neither with a digit nor with a hyphen followed by a
rune other than a line feed. -/
theorem parse_trailing (m A B C t : GoString) (hm : m ∈ managerNames)
    (hA : isNumeral A = true) (hB : isNumeral B = true) (hC : isNumeral C = true) :
    (∃ more, ParsePackageManagerString (declaration m A B C ++ t)
      = some (m, versionText A B C ++ more, none)) ∧
    (ParsePackageManagerString (declaration m A B C ++ t)
      = ParsePackageManagerString (declaration m A B C) ↔ prolongsVersion t = false) := by
  have h := parse_declaration m A B C t hm hA hB hC
  have h0 : ParsePackageManagerString (declaration m A B C)
      = some (m, versionText A B C, none) := by
    have := parse_declaration m A B C [] hm hA hB hC
    simpa [trailingMatch, labelOf] using this
  refine ⟨⟨_, h⟩, ?_⟩
  rw [h, h0, ← takeWhile_trailingMatch_eq_nil]
  simp

/-- Witness of the amended C3 at `npm@1.2.3` followed by ` (stable)`. -/
theorem parse_trailing_witness :
    ("npm".toList ∈ managerNames ∧ isNumeral "1".toList = true ∧ isNumeral "2".toList = true ∧
      isNumeral "3".toList = true) ∧
    ParsePackageManagerString ("npm@1.2.3".toList ++ " (stable)".toList)
      = ParsePackageManagerString "npm@1.2.3".toList :=
  ⟨by decide, (parse_trailing "npm".toList "1".toList "2".toList "3".toList " (stable)".toList
    (by decide) (by decide) (by decide) (by decide)).2.2 (by decide)⟩

/-! ## Lemmas on versions and constraints -/

theorem digit_ne_of_not_digit (c x : Char) (hc : isDigit c = true) (hx : isDigit x = false) :
    c ≠ x := by
  intro e
  rw [e, hx] at hc
  exact absurd hc (by decide)

theorem parseInt_numeral (ds : GoString) (h : isNumeral ds = true) :
    strconvParseInt ds =
      if decimalValue ds < 2 ^ 63 then Except.ok (decimalValue ds : Int)
      else Except.error
        ("strconv.ParseInt: parsing \"" ++ String.mk ds ++ "\": value out of range") := by
  obtain ⟨hne, hall⟩ := (isNumeral_iff ds).1 h
  match ds, hne, hall, h with
  | c :: t, _, hall, h =>
    have hc : isDigit c = true := hall c (List.mem_cons_self _ _)
    have h1 : c ≠ '+' := digit_ne_of_not_digit c '+' hc (by decide)
    have h2 : c ≠ '-' := digit_ne_of_not_digit c '-' hc (by decide)
    simp [strconvParseInt, h1, h2, h]

theorem takeWhile_numeral_dot (A rest : GoString) (hA : isNumeral A = true) :
    (A ++ '.' :: rest).takeWhile isDigit = A ∧ (A ++ '.' :: rest).dropWhile isDigit = '.' :: rest := by
  obtain ⟨_, hall⟩ := (isNumeral_iff A).1 hA
  constructor
  · rw [takeWhile_append_of_all isDigit A _ hall]
    simp [List.takeWhile, dot_not_digit]
  · rw [dropWhile_append_of_all isDigit A _ hall]
    simp [List.dropWhile, dot_not_digit]

theorem takeWhile_numeral (A : GoString) (hA : isNumeral A = true) :
    A.takeWhile isDigit = A ∧ A.dropWhile isDigit = [] := by
  obtain ⟨_, hall⟩ := (isNumeral_iff A).1 hA
  constructor
  · exact List.takeWhile_eq_self_iff.2 hall
  · exact List.dropWhile_eq_nil_iff.2 hall

theorem dropLeadingV_numeral (A rest : GoString) (hA : isNumeral A = true) :
    dropLeadingV (A ++ rest) = A ++ rest := by
  obtain ⟨hne, hall⟩ := (isNumeral_iff A).1 hA
  match A, hne, hall with
  | c :: t, _, hall =>
    have hc : isDigit c = true := hall c (List.mem_cons_self _ _)
    have h1 : c ≠ 'v' := digit_ne_of_not_digit c 'v' hc (by decide)
    simp [dropLeadingV, h1]

theorem versionSubmatch_versionText (A B C : GoString) (hA : isNumeral A = true)
    (hB : isNumeral B = true) (hC : isNumeral C = true) :
    versionSubmatch (versionText A B C) = some ⟨A, some B, some C, [], []⟩ := by
  have h1 := takeWhile_numeral_dot A (B ++ '.' :: C) hA
  have h2 := takeWhile_numeral_dot B C hB
  have h3 := takeWhile_numeral C hC
  have hv : dropLeadingV (versionText A B C) = A ++ '.' :: (B ++ '.' :: C) :=
    dropLeadingV_numeral A _ hA
  have d1 : dotNumber ('.' :: (B ++ '.' :: C)) = (some B, '.' :: C) := by
    simp [dotNumber, h2.1, h2.2, hB]
  have d2 : dotNumber ('.' :: C) = (some C, []) := by
    simp [dotNumber, h3.1, h3.2, hC]
  simp [versionSubmatch, hv, h1.1, h1.2, hA, d1, d2, preReleaseGroup, metadataGroup]

/-- `NewVersion` on `A.B.C` with components that fit in an `int64`. -/
theorem NewVersion_versionText (A B C : GoString) (hA : isNumeral A = true)
    (hB : isNumeral B = true) (hC : isNumeral C = true) (rA : decimalValue A < 2 ^ 63)
    (rB : decimalValue B < 2 ^ 63) (rC : decimalValue C < 2 ^ 63) :
    NewVersion (versionText A B C)
      = Except.ok ⟨decimalValue A, decimalValue B, decimalValue C, [], [], versionText A B C⟩ := by
  have rA1 : decimalValue A < 9223372036854775808 := rA
  have rB1 : decimalValue B < 9223372036854775808 := rB
  have rC1 : decimalValue C < 9223372036854775808 := rC
  simp [NewVersion, segmentValue, versionSubmatch_versionText A B C hA hB hC, parseInt_numeral,
    hA, hB, hC,
    rA1, rB1, rC1]

theorem newConstraint_berry : NewConstraint ">=2.0.0-0".toList
    = Except.ok ⟨[[⟨ConstraintFunc.constraintGreaterThanEqual,
        ⟨2, 0, 0, "0".toList, [], "2.0.0-0".toList⟩, false, false⟩]]⟩ := by rfl

theorem newConstraint_pnpm : NewConstraint ">=7.0.0".toList
    = Except.ok ⟨[[⟨ConstraintFunc.constraintGreaterThanEqual,
        ⟨7, 0, 0, [], [], "7.0.0".toList⟩, false, false⟩]]⟩ := by rfl

theorem newConstraint_pnpm6 : NewConstraint "<7.0.0".toList
    = Except.ok ⟨[[⟨ConstraintFunc.constraintLessThan,
        ⟨7, 0, 0, [], [], "7.0.0".toList⟩, false, false⟩]]⟩ := by rfl

theorem newConstraint_yarn : NewConstraint "<2.0.0".toList
    = Except.ok ⟨[[⟨ConstraintFunc.constraintLessThan,
        ⟨2, 0, 0, [], [], "2.0.0".toList⟩, false, false⟩]]⟩ := by rfl

theorem check_single (c : Constraint) (v : Version) :
    (⟨[[c]]⟩ : Constraints).Check v = c.check v := by
  simp [Constraints.Check]

/-- The comparison of the numeric parts decides `Compare` when they differ. -/
theorem compare_major_lt (v o : Version) (h : v.major < o.major) : v.Compare o = -1 := by
  simp [Version.Compare, compareSegment, h]

theorem compare_major_gt (v o : Version) (h : o.major < v.major) : v.Compare o = 1 := by
  have h1 : ¬ v.major < o.major := by omega
  simp [Version.Compare, compareSegment, h, h1]

/-- With the numeric parts of `o` being `M.0.0` and those of `v` non-negative,
`v` compares below `o` only through its major number or its pre-release. -/
theorem compare_nonneg_of_major_eq (v o : Version) (hM : v.major = o.major)
    (hm : o.minor = 0) (hp : o.patch = 0) (vm : 0 ≤ v.minor) (vp : 0 ≤ v.patch)
    (hpre : v.minor = 0 → v.patch = 0 →
      0 ≤ (if v.pre = [] ∧ o.pre = [] then (0 : Int) else if v.pre = [] then 1
        else if o.pre = [] then -1 else comparePrerelease v.pre o.pre)) :
    0 ≤ v.Compare o := by
  unfold Version.Compare compareSegment
  rw [hM, hm, hp]
  simp only [lt_self_iff_false, if_false, gt_iff_lt, ne_eq, not_true_eq_false]
  by_cases h1 : v.minor = 0
  · by_cases h2 : v.patch = 0
    · have := hpre h1 h2
      simp only [h1, h2, lt_self_iff_false, if_false, ne_eq, not_true_eq_false]
      exact this
    · have h3 : ¬ v.patch < 0 := by omega
      have h4 : 0 < v.patch := by omega
      simp [h1, h3, h4]
  · have h3 : ¬ v.minor < 0 := by omega
    have h4 : 0 < v.minor := by omega
    simp [h3, h4]

theorem compare_release_lt_iff (v o : Version) (hv : v.pre = []) (ho : o.pre = [])
    (hm : o.minor = 0) (hp : o.patch = 0) (vm : 0 ≤ v.minor) (vp : 0 ≤ v.patch) :
    v.Compare o < 0 ↔ v.major < o.major := by
  constructor
  · intro h
    by_contra hge
    rcases lt_or_eq_of_le (not_lt.1 hge) with hgt | heq
    · rw [compare_major_gt v o hgt] at h
      exact absurd h (by decide)
    · have := compare_nonneg_of_major_eq v o heq.symm hm hp vm vp (by simp [hv, ho])
      omega
  · intro h
    rw [compare_major_lt v o h]
    decide

theorem parseInt_numeral_nonneg (ds : GoString) (n : Int) (h : isNumeral ds = true)
    (hp : strconvParseInt ds = Except.ok n) : 0 ≤ n := by
  rw [parseInt_numeral ds h] at hp
  split at hp
  · simp only [Except.ok.injEq] at hp
    rw [← hp]
    exact Int.ofNat_nonneg _
  · simp at hp

theorem dotNumber_numeral (s ds : GoString) (h : (dotNumber s).1 = some ds) :
    isNumeral ds = true := by
  cases s with
  | nil => simp [dotNumber] at h
  | cons c t =>
    by_cases hc : c = '.' ∧ isNumeral (t.takeWhile isDigit) = true
    · simp only [dotNumber, hc, and_self, if_true, Option.some.injEq] at h
      rw [← h]
      exact hc.2
    · simp [dotNumber, hc] at h

theorem preReleaseGroup_identList (s pre rest : GoString)
    (h : preReleaseGroup s = some (pre, rest)) : pre = [] ∨ isIdentList pre = true := by
  cases s with
  | nil =>
    simp [preReleaseGroup] at h
    exact Or.inl h.1
  | cons c t =>
    by_cases hc : c = '-'
    · by_cases hi : isIdentList (t.takeWhile (fun x => x != '+')) = true
      · simp [preReleaseGroup, hc, hi] at h
        rw [← h.1]
        exact Or.inr hi
      · simp [preReleaseGroup, hc, hi] at h
    · simp [preReleaseGroup, hc] at h
      exact Or.inl h.1

theorem versionSubmatch_inv (v : GoString) (m : VersionGroups) (h : versionSubmatch v = some m) :
    isNumeral m.major = true ∧ (∀ ds, m.minor = some ds → isNumeral ds = true) ∧
      (∀ ds, m.patch = some ds → isNumeral ds = true) ∧
      (m.pre = [] ∨ isIdentList m.pre = true) := by
  unfold versionSubmatch at h
  split at h
  · rename_i hmaj
    split at h
    · simp at h
    · rename_i pre rest hpre
      split at h
      · simp at h
      · rename_i metadata hmeta
        simp only [Option.some.injEq] at h
        subst h
        exact ⟨hmaj, fun ds hd => dotNumber_numeral _ ds hd,
          fun ds hd => dotNumber_numeral _ ds hd, preReleaseGroup_identList _ _ _ hpre⟩
  · simp at h

/-- What `NewVersion` accepts: non-negative numeric parts, and a pre-release
that is empty or a list of identifiers. -/
theorem NewVersion_inv (v : GoString) (ver : Version) (h : NewVersion v = Except.ok ver) :
    0 ≤ ver.major ∧ 0 ≤ ver.minor ∧ 0 ≤ ver.patch ∧
      (ver.pre = [] ∨ isIdentList ver.pre = true) := by
  unfold NewVersion at h
  cases hs : versionSubmatch v with
  | none => simp [hs] at h
  | some m =>
    obtain ⟨hmaj, hmin, hpat, hpre⟩ := versionSubmatch_inv v m hs
    simp only [hs] at h
    cases h1 : strconvParseInt m.major with
    | error e => simp [h1] at h
    | ok major =>
      have n1 := parseInt_numeral_nonneg _ _ hmaj h1
      simp only [h1] at h
      have key : ∀ (g : Option GoString), (∀ ds, g = some ds → isNumeral ds = true) →
          ∀ n, segmentValue g = Except.ok n → 0 ≤ n := by
        intro g hg n hn
        cases g with
        | none =>
          simp only [segmentValue, Except.ok.injEq] at hn
          omega
        | some ds => exact parseInt_numeral_nonneg ds n (hg ds rfl) hn
      cases h2 : segmentValue m.minor with
      | error e => simp [h2] at h
      | ok minor =>
        have n2 := key m.minor hmin minor h2
        simp only [h2] at h
        cases h3 : segmentValue m.patch with
        | error e => simp [h3] at h
        | ok patch =>
          have n3 := key m.patch hpat patch h3
          simp only [h3, Except.ok.injEq] at h
          subst h
          exact ⟨n1, n2, n3, hpre⟩

theorem nodejsPnpmMatches_true (manager version : GoString)
    (h : (nodejsPnpmMatches manager version).1 = true) :
    manager = "pnpm".toList ∧ ∃ ver, NewVersion version = Except.ok ver ∧ ver.pre = [] ∧
      0 ≤ ver.Compare ⟨7, 0, 0, [], [], "7.0.0".toList⟩ := by
  by_cases hm : manager = "pnpm".toList
  · refine ⟨hm, ?_⟩
    rw [nodejsPnpmMatches, if_neg (not_not.2 hm)] at h
    cases hv : NewVersion version with
    | error e => rw [hv] at h; exact absurd h (by simp)
    | ok ver =>
      rw [hv, newConstraint_pnpm] at h
      simp only [check_single, Constraint.check, constraintGreaterThanEqual] at h
      refine ⟨ver, rfl, ?_⟩
      by_cases hp : ver.pre = []
      · simpa [hp] using h
      · simp [hp] at h
  · rw [nodejsPnpmMatches, if_pos hm] at h
    exact absurd h (by simp)

theorem nodejsPnpm6Matches_true (manager version : GoString)
    (h : (nodejsPnpm6Matches manager version).1 = true) :
    manager = "pnpm".toList ∧ ∃ ver, NewVersion version = Except.ok ver ∧ ver.pre = [] ∧
      ver.Compare ⟨7, 0, 0, [], [], "7.0.0".toList⟩ < 0 := by
  by_cases hm : manager = "pnpm".toList
  · refine ⟨hm, ?_⟩
    rw [nodejsPnpm6Matches, if_neg (not_not.2 hm)] at h
    cases hv : NewVersion version with
    | error e => rw [hv] at h; exact absurd h (by simp)
    | ok ver =>
      rw [hv, newConstraint_pnpm6] at h
      simp only [check_single, Constraint.check, constraintLessThan] at h
      refine ⟨ver, rfl, ?_⟩
      by_cases hp : ver.pre = []
      · simpa [hp] using h
      · simp [hp] at h
  · rw [nodejsPnpm6Matches, if_pos hm] at h
    exact absurd h (by simp)

theorem nodejsYarnMatches_true (manager version : GoString)
    (h : (nodejsYarnMatches manager version).1 = true) :
    manager = "yarn".toList ∧ ∃ ver, NewVersion version = Except.ok ver ∧ ver.pre = [] ∧
      ver.Compare ⟨2, 0, 0, [], [], "2.0.0".toList⟩ < 0 := by
  by_cases hm : manager = "yarn".toList
  · refine ⟨hm, ?_⟩
    rw [nodejsYarnMatches, if_neg (not_not.2 hm)] at h
    cases hv : NewVersion version with
    | error e => rw [hv] at h; exact absurd h (by simp)
    | ok ver =>
      rw [hv, newConstraint_yarn] at h
      simp only [check_single, Constraint.check, constraintLessThan] at h
      refine ⟨ver, rfl, ?_⟩
      by_cases hp : ver.pre = []
      · simpa [hp] using h
      · simp [hp] at h
  · rw [nodejsYarnMatches, if_pos hm] at h
    exact absurd h (by simp)

/-- `nodejsBerry.Matches` on the slug `yarn` and a version that parses. -/
theorem nodejsBerryMatches_yarn (version : GoString) (ver : Version)
    (hv : NewVersion version = Except.ok ver) :
    nodejsBerryMatches "yarn".toList version
      = (decide (0 ≤ ver.Compare ⟨2, 0, 0, "0".toList, [], "2.0.0-0".toList⟩), none) := by
  have h0 : ¬ ("0".toList = ([] : GoString)) := by decide
  rw [nodejsBerryMatches, if_neg (not_not.2 rfl), hv, newConstraint_berry]
  simp only [check_single, Constraint.check, constraintGreaterThanEqual, h0, and_false,
    if_false, ge_iff_le]

theorem nodejsBerryMatches_true (manager version : GoString)
    (h : (nodejsBerryMatches manager version).1 = true) :
    manager = "yarn".toList ∧ ∃ ver, NewVersion version = Except.ok ver ∧
      0 ≤ ver.Compare ⟨2, 0, 0, "0".toList, [], "2.0.0-0".toList⟩ := by
  by_cases hm : manager = "yarn".toList
  · refine ⟨hm, ?_⟩
    subst hm
    cases hv : NewVersion version with
    | error e =>
      rw [nodejsBerryMatches, if_neg (not_not.2 rfl), hv] at h
      exact absurd h (by simp)
    | ok ver =>
      rw [nodejsBerryMatches_yarn version ver hv] at h
      exact ⟨ver, rfl, by simpa using h⟩
  · rw [nodejsBerryMatches, if_pos hm] at h
    exact absurd h (by simp)

theorem nodejsNpmMatches_true (manager version : GoString)
    (h : (nodejsNpmMatches manager version).1 = true) : manager = "npm".toList := by
  simpa [nodejsNpmMatches] using h

theorem filter_five_le_one {α : Type} (f : α → Bool) (x1 x2 x3 x4 x5 : α)
    (h12 : ¬ (f x1 = true ∧ f x2 = true)) (h13 : ¬ (f x1 = true ∧ f x3 = true))
    (h14 : ¬ (f x1 = true ∧ f x4 = true)) (h15 : ¬ (f x1 = true ∧ f x5 = true))
    (h23 : ¬ (f x2 = true ∧ f x3 = true)) (h24 : ¬ (f x2 = true ∧ f x4 = true))
    (h25 : ¬ (f x2 = true ∧ f x5 = true)) (h34 : ¬ (f x3 = true ∧ f x4 = true))
    (h35 : ¬ (f x3 = true ∧ f x5 = true)) (h45 : ¬ (f x4 = true ∧ f x5 = true)) :
    ([x1, x2, x3, x4, x5].filter f).length ≤ 1 := by
  cases e1 : f x1 <;> cases e2 : f x2 <;> cases e3 : f x3 <;> cases e4 : f x4 <;>
    cases e5 : f x5 <;> simp_all [List.filter]

theorem slug_ne : "yarn".toList ≠ "npm".toList ∧ "yarn".toList ≠ "pnpm".toList ∧
    "npm".toList ≠ "pnpm".toList := by decide

/-- C4: for every manager string and every version string, at most one descriptor
of the registry has a `Matches` predicate that returns true; at the boundary
`7.0.0` `nodejs-pnpm` matches and `nodejs-pnpm6` does not; and `nodejs-berry`
never matches a manager other than `yarn`. -/
theorem matches_exclusive (a : Absent) (manager version : GoString) :
    ((packageManagers a).filter (fun d => (d.Matches manager version).1)).length ≤ 1 ∧
    nodejsPnpm.Matches "pnpm".toList "7.0.0".toList = (true, none) ∧
    nodejsPnpm6.Matches "pnpm".toList "7.0.0".toList = (false, none) ∧
    ((nodejsBerry.Matches manager version).1 = true → manager = "yarn".toList) := by
  refine ⟨?_, rfl, rfl, fun h => (nodejsBerryMatches_true manager version h).1⟩
  obtain ⟨s1, s2, s3⟩ := slug_ne
  apply filter_five_le_one
  · rintro ⟨hy, hb⟩
    obtain ⟨_, v1, e1, p1, c1⟩ := nodejsYarnMatches_true manager version hy
    obtain ⟨_, v2, e2, c2⟩ := nodejsBerryMatches_true manager version hb
    rw [e1] at e2
    simp only [Except.ok.injEq] at e2
    subst e2
    obtain ⟨_, n2, n3, _⟩ := NewVersion_inv version v1 e1
    have hlt := (compare_release_lt_iff v1 ⟨2, 0, 0, [], [], "2.0.0".toList⟩ p1 rfl rfl rfl
      n2 n3).1 c1
    rw [compare_major_lt v1 ⟨2, 0, 0, "0".toList, [], "2.0.0-0".toList⟩ hlt] at c2
    exact absurd c2 (by decide)
  · rintro ⟨hy, hn⟩
    exact s1 ((nodejsYarnMatches_true manager version hy).1.symm.trans
      (nodejsNpmMatches_true manager version hn))
  · rintro ⟨hy, hp⟩
    exact s2 ((nodejsYarnMatches_true manager version hy).1.symm.trans
      (nodejsPnpmMatches_true manager version hp).1)
  · rintro ⟨hy, hp⟩
    exact s2 ((nodejsYarnMatches_true manager version hy).1.symm.trans
      (nodejsPnpm6Matches_true manager version hp).1)
  · rintro ⟨hb, hn⟩
    exact s1 ((nodejsBerryMatches_true manager version hb).1.symm.trans
      (nodejsNpmMatches_true manager version hn))
  · rintro ⟨hb, hp⟩
    exact s2 ((nodejsBerryMatches_true manager version hb).1.symm.trans
      (nodejsPnpmMatches_true manager version hp).1)
  · rintro ⟨hb, hp⟩
    exact s2 ((nodejsBerryMatches_true manager version hb).1.symm.trans
      (nodejsPnpm6Matches_true manager version hp).1)
  · rintro ⟨hn, hp⟩
    exact s3 ((nodejsNpmMatches_true manager version hn).symm.trans
      (nodejsPnpmMatches_true manager version hp).1)
  · rintro ⟨hn, hp⟩
    exact s3 ((nodejsNpmMatches_true manager version hn).symm.trans
      (nodejsPnpm6Matches_true manager version hp).1)
  · rintro ⟨h7, h6⟩
    obtain ⟨_, v1, e1, _, c1⟩ := nodejsPnpmMatches_true manager version h7
    obtain ⟨_, v2, e2, _, c2⟩ := nodejsPnpm6Matches_true manager version h6
    rw [e1] at e2
    simp only [Except.ok.injEq] at e2
    subst e2
    omega

theorem parse_plain (m A B C : GoString) (hm : m ∈ managerNames)
    (hA : isNumeral A = true) (hB : isNumeral B = true) (hC : isNumeral C = true) :
    ParsePackageManagerString (declaration m A B C) = some (m, versionText A B C, none) := by
  have h := parse_declaration m A B C [] hm hA hB hC
  simpa [trailingMatch, labelOf] using h

theorem nodejsPnpmMatches_pnpm (version : GoString) (ver : Version)
    (hv : NewVersion version = Except.ok ver) (hp : ver.pre = []) :
    nodejsPnpmMatches "pnpm".toList version
      = (decide (0 ≤ ver.Compare ⟨7, 0, 0, [], [], "7.0.0".toList⟩), none) := by
  rw [nodejsPnpmMatches, if_neg (not_not.2 rfl), hv, newConstraint_pnpm]
  simp only [check_single, Constraint.check, constraintGreaterThanEqual, hp, ne_eq,
    not_true_eq_false, false_and, if_false, ge_iff_le]

theorem nodejsPnpm6Matches_pnpm (version : GoString) (ver : Version)
    (hv : NewVersion version = Except.ok ver) (hp : ver.pre = []) :
    nodejsPnpm6Matches "pnpm".toList version
      = (decide (ver.Compare ⟨7, 0, 0, [], [], "7.0.0".toList⟩ < 0), none) := by
  rw [nodejsPnpm6Matches, if_neg (not_not.2 rfl), hv, newConstraint_pnpm6]
  simp [check_single, Constraint.check, constraintLessThan, hp]

theorem firstMatching_skip (manager version : GoString) (pm : PackageManager)
    (rest : List PackageManager) (e : Option GoError)
    (h : pm.Matches manager version = (false, e)) :
    firstMatching manager version (pm :: rest) = firstMatching manager version rest := by
  simp [firstMatching, h]

theorem firstMatching_hit (manager version : GoString) (pm : PackageManager)
    (rest : List PackageManager) (h : pm.Matches manager version = (true, none)) :
    firstMatching manager version (pm :: rest) = some pm := by
  simp [firstMatching, h]

theorem firstMatching_pnpm (a : Absent) (version : GoString) (ver : Version)
    (hv : NewVersion version = Except.ok ver) (hp : ver.pre = []) :
    firstMatching "pnpm".toList version (packageManagers a)
      = if 0 ≤ ver.Compare ⟨7, 0, 0, [], [], "7.0.0".toList⟩ then some nodejsPnpm
        else some nodejsPnpm6 := by
  have hy : (nodejsYarn a).Matches "pnpm".toList version = (false, none) := by
    show nodejsYarnMatches "pnpm".toList version = (false, none)
    rw [nodejsYarnMatches, if_pos (by decide)]
  have hb : nodejsBerry.Matches "pnpm".toList version = (false, none) := by
    show nodejsBerryMatches "pnpm".toList version = (false, none)
    rw [nodejsBerryMatches, if_pos (by decide)]
  have hn : (nodejsNpm a).Matches "pnpm".toList version = (false, none) := rfl
  have h7 : nodejsPnpm.Matches "pnpm".toList version = _ :=
    nodejsPnpmMatches_pnpm version ver hv hp
  have h6 : nodejsPnpm6.Matches "pnpm".toList version = _ :=
    nodejsPnpm6Matches_pnpm version ver hv hp
  rw [packageManagers, firstMatching_skip _ _ _ _ _ hy, firstMatching_skip _ _ _ _ _ hb,
    firstMatching_skip _ _ _ _ _ hn]
  by_cases hc : 0 ≤ ver.Compare ⟨7, 0, 0, [], [], "7.0.0".toList⟩
  · rw [if_pos hc]
    apply firstMatching_hit
    rw [h7, decide_eq_true hc]
  · have hlt : ver.Compare ⟨7, 0, 0, [], [], "7.0.0".toList⟩ < 0 := by omega
    rw [if_neg hc, firstMatching_skip _ _ _ _ none (by rw [h7, decide_eq_false hc])]
    apply firstMatching_hit
    rw [h6, decide_eq_true hlt]

/-- Counterexample to C5 as stated: `99999999999999999999` is a decimal numeral
with value at least 7, and `GetPackageManagerFromString` on
`pnpm@99999999999999999999.0.0` returns no descriptor, whatever the descriptors
defined in other files are. -/
theorem pnpm_split_counterexample :
    (isNumeral "99999999999999999999".toList = true ∧
      7 ≤ decimalValue "99999999999999999999".toList) ∧
    ¬ ∃ (a : Absent) (d : PackageManager),
      GetPackageManagerFromString a (declaration "pnpm".toList "99999999999999999999".toList
        "0".toList "0".toList) = some (some d, none) := by
  refine ⟨by decide, ?_⟩
  rintro ⟨a, d, h⟩
  have e : GetPackageManagerFromString a (declaration "pnpm".toList
      "99999999999999999999".toList "0".toList "0".toList)
      = some (none, some ("we didn't find a matching package manager for '"
          ++ "pnpm@99999999999999999999.0.0" ++ "'")) := rfl
  rw [e] at h
  simp at h

/-- C5, amended: the two pnpm ranges split at major version 7 for the numerals
that fit in an `int64`: for all decimal numerals `A`, `B`, `C` with values below
`2^63`, `GetPackageManagerFromString` on `pnpm@A.B.C` succeeds and returns the
descriptor `nodejs-pnpm` when `A >= 7` and the descriptor `nodejs-pnpm6` when
`A < 7`. -/
theorem pnpm_split (a : Absent) (A B C : GoString) (hA : isNumeral A = true)
    (hB : isNumeral B = true) (hC : isNumeral C = true) (rA : decimalValue A < 2 ^ 63)
    (rB : decimalValue B < 2 ^ 63) (rC : decimalValue C < 2 ^ 63) :
    GetPackageManagerFromString a (declaration "pnpm".toList A B C)
      = some (some (if 7 ≤ decimalValue A then nodejsPnpm else nodejsPnpm6), none) ∧
    nodejsPnpm.Name = "nodejs-pnpm".toList ∧ nodejsPnpm6.Name = "nodejs-pnpm6".toList := by
  refine ⟨?_, rfl, rfl⟩
  have hne : declaration "pnpm".toList A B C ≠ [] := by simp [declaration]
  have hparse := parse_plain "pnpm".toList A B C (by decide) hA hB hC
  have hv := NewVersion_versionText A B C hA hB hC rA rB rC
  have hf := firstMatching_pnpm a (versionText A B C) _ hv rfl
  have hcmp := compare_release_lt_iff
    ⟨decimalValue A, decimalValue B, decimalValue C, [], [], versionText A B C⟩
    ⟨7, 0, 0, [], [], "7.0.0".toList⟩ rfl rfl rfl rfl (Int.ofNat_nonneg _) (Int.ofNat_nonneg _)
  rw [GetPackageManagerFromString, if_neg hne, hparse]
  simp only [hf]
  by_cases h7 : 7 ≤ decimalValue A
  · have hnot : ¬ ((decimalValue A : Int) < 7) := by omega
    have h0 : 0 ≤ Version.Compare
        ⟨decimalValue A, decimalValue B, decimalValue C, [], [], versionText A B C⟩
        ⟨7, 0, 0, [], [], "7.0.0".toList⟩ := by
      by_contra hc
      exact hnot (hcmp.1 (by omega))
    rw [if_pos h0, if_pos h7]
  · have hlt : (decimalValue A : Int) < 7 := by omega
    have h0 := hcmp.2 hlt
    have h1 : ¬ 0 ≤ Version.Compare
        ⟨decimalValue A, decimalValue B, decimalValue C, [], [], versionText A B C⟩
        ⟨7, 0, 0, [], [], "7.0.0".toList⟩ := by omega
    rw [if_neg h1, if_neg h7]

/-- Witness of the amended C5 at `pnpm@7.8.9` and `pnpm@1.2.3`. -/
theorem pnpm_split_witness :
    (isNumeral "7".toList = true ∧ isNumeral "8".toList = true ∧ isNumeral "9".toList = true ∧
      decimalValue "7".toList < 2 ^ 63 ∧ decimalValue "8".toList < 2 ^ 63 ∧
      decimalValue "9".toList < 2 ^ 63) ∧
    (∀ a : Absent, GetPackageManagerFromString a "pnpm@7.8.9".toList
      = some (some nodejsPnpm, none)) ∧
    (∀ a : Absent, GetPackageManagerFromString a "pnpm@1.2.3".toList
      = some (some nodejsPnpm6, none)) :=
  ⟨by decide,
    fun a => (pnpm_split a "7".toList "8".toList "9".toList (by decide) (by decide) (by decide)
      (by decide) (by decide) (by decide)).1,
    fun a => (pnpm_split a "1".toList "2".toList "3".toList (by decide) (by decide) (by decide)
      (by decide) (by decide) (by decide)).1⟩

/-! ## The berry range (C6) -/

theorem comparePrePart_nil_right (s : GoString) :
    comparePrePart s [] = if s = [] then 0 else 1 := by
  by_cases h : s = []
  · simp [comparePrePart, h]
  · simp [comparePrePart, h]

theorem comparePrePartsLeft_nonneg : ∀ l : List GoString, 0 ≤ comparePrePartsLeft l := by
  intro l
  induction l with
  | nil => simp [comparePrePartsLeft]
  | cons s ss ih =>
    rw [comparePrePartsLeft, comparePrePart_nil_right]
    by_cases h : s = []
    · simpa [h] using ih
    · simp [h]

theorem comparePreParts_nil_right_nonneg (l : List GoString) : 0 ≤ comparePreParts l [] := by
  cases l with
  | nil => simp [comparePreParts, comparePrePartsRight]
  | cons s ss =>
    rw [comparePreParts]
    exact comparePrePartsLeft_nonneg _

theorem comparePrePart_zero (p : GoString) (hne : p ≠ []) (hlow : lowIdentifier p = false) :
    0 ≤ comparePrePart p "0".toList := by
  have h0 : strconvParseUint "0".toList = Except.ok 0 := rfl
  have hz : "0".toList ≠ ([] : GoString) := by decide
  by_cases hp : p = "0".toList
  · rw [comparePrePart, if_pos hp]
  · rw [comparePrePart, if_neg hp, if_neg hne, if_neg hz, h0]
    have hb : (p != "0".toList) = true := by simpa using hp
    cases hs : strconvParseUint p with
    | error e => simp
    | ok si =>
      simp only [lowIdentifier, hb, hs, Bool.true_and, decide_eq_false_iff_not] at hlow
      have hpos : si > 0 := Nat.pos_of_ne_zero hlow
      simp [hpos]

theorem identList_first_ne_nil (pre : GoString) (h : isIdentList pre = true) :
    firstIdentifier pre ≠ [] := by
  obtain ⟨r, hr⟩ := stringsSplit_eq_cons '.' pre
  simp only [isIdentList, hr, List.all_cons, Bool.and_eq_true] at h
  intro e
  rw [firstIdentifier] at e
  rw [e] at h
  simp at h

theorem comparePrerelease_zero (pre : GoString) (hid : isIdentList pre = true)
    (hlow : lowIdentifier (firstIdentifier pre) = false) :
    0 ≤ comparePrerelease pre "0".toList := by
  obtain ⟨r, hr⟩ := stringsSplit_eq_cons '.' pre
  have hz : stringsSplit '.' "0".toList = ["0".toList] := rfl
  have h1 := comparePrePart_zero (firstIdentifier pre) (identList_first_ne_nil pre hid) hlow
  rw [comparePrerelease, hr, hz, comparePreParts]
  split
  · exact h1
  · exact comparePreParts_nil_right_nonneg r

theorem lowIdentifier_facts (p : GoString) (h : lowIdentifier p = true) :
    p ≠ [] ∧ p ≠ "0".toList ∧ strconvParseUint p = Except.ok 0 := by
  unfold lowIdentifier at h
  rw [Bool.and_eq_true] at h
  obtain ⟨h1, h2⟩ := h
  have hne0 : p ≠ "0".toList := by simpa using h1
  cases hs : strconvParseUint p with
  | error e => rw [hs] at h2; cases h2
  | ok n =>
    rw [hs] at h2
    have hn : n = 0 := by simpa using h2
    subst hn
    refine ⟨?_, hne0, rfl⟩
    intro e
    subst e
    cases hs

theorem comparePrePart_low (p : GoString) (h : lowIdentifier p = true) :
    comparePrePart p "0".toList = -1 := by
  obtain ⟨hne, hne0, hs⟩ := lowIdentifier_facts p h
  have h0 : strconvParseUint "0".toList = Except.ok 0 := rfl
  have hz : "0".toList ≠ ([] : GoString) := by decide
  rw [comparePrePart, if_neg hne0, if_neg hne, if_neg hz, h0, hs]
  simp

theorem comparePrerelease_low (pre : GoString)
    (hlow : lowIdentifier (firstIdentifier pre) = true) :
    comparePrerelease pre "0".toList = -1 := by
  obtain ⟨r, hr⟩ := stringsSplit_eq_cons '.' pre
  have hz : stringsSplit '.' "0".toList = ["0".toList] := rfl
  have h1 : comparePrePart (pre.takeWhile (fun c => c != '.')) "0".toList = -1 :=
    comparePrePart_low _ hlow
  rw [comparePrerelease, hr, hz, comparePreParts, h1]
  simp

theorem compare_low (ver : Version) (hM : ver.major = 2) (hm : ver.minor = 0)
    (hp : ver.patch = 0) (hlow : lowIdentifier (firstIdentifier ver.pre) = true) :
    ver.Compare ⟨2, 0, 0, "0".toList, [], "2.0.0-0".toList⟩ = -1 := by
  have hpre : ver.pre ≠ [] := by
    intro e
    rw [e] at hlow
    revert hlow
    decide
  have hz : ¬ ("0".toList = ([] : GoString)) := by decide
  unfold Version.Compare compareSegment
  simp only [hM, hm, hp, lt_self_iff_false, if_false, gt_iff_lt, ne_eq, not_true_eq_false,
    hpre, hz, false_and, and_false]
  exact comparePrerelease_low ver.pre hlow

/-- Counterexample to C6 as stated: the version `99999999999999999999.0.0` is
above `2.0.0` and is refused with an error, and the pre-release `2.0.0-00` of
`2.0.0` is parsed and refused without one. -/
theorem berry_matches_counterexample :
    (∃ err, nodejsBerry.Matches "yarn".toList "99999999999999999999.0.0".toList
      = (false, some err)) ∧
    (∃ ver, NewVersion "2.0.0-00".toList = Except.ok ver ∧ ver.major = 2 ∧ ver.minor = 0 ∧
      ver.patch = 0 ∧ ver.pre = "00".toList) ∧
    nodejsBerry.Matches "yarn".toList "2.0.0-00".toList = (false, none) :=
  ⟨⟨_, rfl⟩, ⟨_, rfl, rfl, rfl, rfl, rfl⟩, rfl⟩

/-- C6, amended: for every version text `v` that `semver.NewVersion` accepts (its
numeric parts fit in an `int64`), `nodejsBerry.Matches("yarn", v)` returns true
with a nil error when `v` is `2.0.0` or above, pre-releases included (such as
`2.0.0-rc.1`, `3.0.0-beta.2` and `2.0.0--5`), except for a pre-release of `2.0.0`
itself whose first identifier is read as the number zero without being the text
`0` (two or more zeros, such as `00`), for which it returns false with a nil
error; it returns false with a nil error when `v` is below `2.0.0` (such as
`1.22.19`); and `GetPackageManagerFromString` on `yarn@2.3.4` returns the
descriptor `nodejs-berry`. -/
theorem berry_matches (v : GoString) (ver : Version) (hv : NewVersion v = Except.ok ver) :
    (2 ≤ ver.major →
      (ver.major = 2 → ver.minor = 0 → ver.patch = 0 →
        lowIdentifier (firstIdentifier ver.pre) = false) →
      nodejsBerry.Matches "yarn".toList v = (true, none)) ∧
    (ver.major = 2 → ver.minor = 0 → ver.patch = 0 →
      lowIdentifier (firstIdentifier ver.pre) = true →
      nodejsBerry.Matches "yarn".toList v = (false, none)) ∧
    (ver.major < 2 → nodejsBerry.Matches "yarn".toList v = (false, none)) ∧
    nodejsBerry.Matches "yarn".toList "2.0.0-rc.1".toList = (true, none) ∧
    nodejsBerry.Matches "yarn".toList "3.0.0-beta.2".toList = (true, none) ∧
    nodejsBerry.Matches "yarn".toList "2.0.0--5".toList = (true, none) ∧
    nodejsBerry.Matches "yarn".toList "2.0.0--0".toList = (true, none) ∧
    nodejsBerry.Matches "yarn".toList "2.0.0-0".toList = (true, none) ∧
    nodejsBerry.Matches "yarn".toList "1.22.19".toList = (false, none) ∧
    (∀ a : Absent, GetPackageManagerFromString a "yarn@2.3.4".toList
      = some (some nodejsBerry, none)) ∧
    nodejsBerry.Name = "nodejs-berry".toList := by
  have hm : nodejsBerry.Matches "yarn".toList v
      = (decide (0 ≤ ver.Compare ⟨2, 0, 0, "0".toList, [], "2.0.0-0".toList⟩), none) :=
    nodejsBerryMatches_yarn v ver hv
  obtain ⟨_, n2, n3, hpre⟩ := NewVersion_inv v ver hv
  refine ⟨?_, ?_, ?_, rfl, rfl, rfl, rfl, rfl, rfl, fun _ => rfl, rfl⟩
  · intro h2 hlow
    rw [hm]
    have hc : 0 ≤ ver.Compare ⟨2, 0, 0, "0".toList, [], "2.0.0-0".toList⟩ := by
      rcases lt_or_eq_of_le h2 with hgt | heq
      · rw [compare_major_gt ver _ hgt]
        decide
      · apply compare_nonneg_of_major_eq ver _ heq.symm rfl rfl n2 n3
        intro hmin hpat
        have hz : ¬ ("0".toList = ([] : GoString)) := by decide
        by_cases hp : ver.pre = []
        · simp [hp]
        · have hid : isIdentList ver.pre = true := hpre.resolve_left hp
          have := comparePrerelease_zero ver.pre hid (hlow heq.symm hmin hpat)
          simp only [hp, hz, false_and, and_false, if_false]
          exact this
    rw [decide_eq_true hc]
  · intro hM hmin hpat hlow
    rw [hm, compare_low ver hM hmin hpat hlow]
    rfl
  · intro hlt
    rw [hm, compare_major_lt ver _ hlt]
    rfl

/-- Witness of the amended C6 at `2.0.0-rc.1` and at `1.22.19`. -/
theorem berry_matches_witness :
    nodejsBerry.Matches "yarn".toList "2.0.0-rc.1".toList = (true, none) ∧
    nodejsBerry.Matches "yarn".toList "1.22.19".toList = (false, none) :=
  ⟨(berry_matches "2.0.0-rc.1".toList ⟨2, 0, 0, "rc.1".toList, [], "2.0.0-rc.1".toList⟩ rfl).1
      (by decide) (fun _ _ _ => by decide),
    (berry_matches "1.22.19".toList ⟨1, 22, 19, [], [], "1.22.19".toList⟩ rfl).2.2.1 (by decide)⟩

/-! ## The detection chain (C7 to C10) -/

theorem firstMatching_some (manager version : GoString) (d : PackageManager) :
    ∀ l : List PackageManager, firstMatching manager version l = some d →
      ∃ earlier later, l = earlier ++ d :: later ∧ d.Matches manager version = (true, none) ∧
        ∀ p ∈ earlier, (p.Matches manager version).1 = false ∨
          (p.Matches manager version).2 ≠ none := by
  intro l
  induction l with
  | nil => intro h; simp [firstMatching] at h
  | cons pm rest ih =>
    intro h
    rcases hm : pm.Matches manager version with ⟨b, err⟩
    by_cases hok : b = true ∧ err = none
    · obtain ⟨hb, he⟩ := hok
      subst hb he
      rw [firstMatching_hit manager version pm rest hm] at h
      simp only [Option.some.injEq] at h
      subst h
      exact ⟨[], rest, rfl, hm, by simp⟩
    · have hskip : firstMatching manager version (pm :: rest)
          = firstMatching manager version rest := by
        cases b with
        | false => exact firstMatching_skip manager version pm rest err hm
        | true =>
          cases err with
          | none => exact absurd ⟨rfl, rfl⟩ hok
          | some e => simp [firstMatching, hm]
      rw [hskip] at h
      obtain ⟨earlier, later, e, hd, hall⟩ := ih h
      refine ⟨pm :: earlier, later, by simp [e], hd, ?_⟩
      intro p hp
      rcases List.mem_cons.1 hp with rfl | hp
      · rw [hm]
        cases b with
        | false => exact Or.inl rfl
        | true =>
          right
          intro he
          exact hok ⟨rfl, he⟩
      · exact hall p hp

theorem firstMatching_none (manager version : GoString) :
    ∀ l : List PackageManager, firstMatching manager version l = none →
      ∀ p ∈ l, p.Matches manager version ≠ (true, none) := by
  intro l
  induction l with
  | nil => intro _ p hp; simp at hp
  | cons pm rest ih =>
    intro h p hp
    by_cases hm : pm.Matches manager version = (true, none)
    · rw [firstMatching_hit manager version pm rest hm] at h
      simp at h
    · have hskip : firstMatching manager version (pm :: rest)
          = firstMatching manager version rest := by
        rcases hm2 : pm.Matches manager version with ⟨b, err⟩
        cases b with
        | false => exact firstMatching_skip manager version pm rest err hm2
        | true =>
          cases err with
          | none => exact absurd hm2 hm
          | some e => simp [firstMatching, hm2]
      rw [hskip] at h
      rcases List.mem_cons.1 hp with rfl | hp
      · exact hm
      · exact ih h p hp

/-- `ParsePackageManagerString` never panics: it returns the error triple or a
pair with a nil error. -/
theorem parse_total (s : GoString) :
    ParsePackageManagerString s = some ([], [], some (parseError s)) ∨
      ∃ manager version, ParsePackageManagerString s = some (manager, version, none) := by
  by_cases h : hasDeclaration s
  · obtain ⟨m, v, _, hp⟩ := parse_of_hasDeclaration s h
    exact Or.inr ⟨m, v, hp⟩
  · exact Or.inl (parse_of_not_hasDeclaration s h)

/-- C7: when `GetPackageManagerFromString` returns a descriptor, its error is nil
and the descriptor is the first one of the registry, in the order `nodejsYarn`,
`nodejsBerry`, `nodejsNpm`, `nodejsPnpm`, `nodejsPnpm6`, whose `Matches` returns
true with a nil error on the manager and version parsed from the text: every
descriptor before it returned false or an error. -/
theorem from_string_first_match (a : Absent) (s : GoString) (d : PackageManager)
    (e : Option GoError) (h : GetPackageManagerFromString a s = some (some d, e)) :
    e = none ∧
    packageManagers a = [nodejsYarn a, nodejsBerry, nodejsNpm a, nodejsPnpm, nodejsPnpm6] ∧
    ∃ manager version, ParsePackageManagerString s = some (manager, version, none) ∧
      ∃ earlier later, packageManagers a = earlier ++ d :: later ∧
        d.Matches manager version = (true, none) ∧
        ∀ p ∈ earlier, (p.Matches manager version).1 = false ∨
          (p.Matches manager version).2 ≠ none := by
  unfold GetPackageManagerFromString at h
  by_cases hs : s = []
  · rw [if_pos hs] at h
    simp at h
  · rw [if_neg hs] at h
    rcases parse_total s with hp | ⟨manager, version, hp⟩
    · rw [hp] at h
      simp at h
    · rw [hp] at h
      simp only at h
      cases hf : firstMatching manager version (packageManagers a) with
      | none =>
        rw [hf] at h
        simp at h
      | some pm =>
        rw [hf] at h
        simp only [Option.some.injEq, Prod.mk.injEq] at h
        obtain ⟨hd, he⟩ := h
        subst hd
        exact ⟨he.symm, rfl, manager, version, hp, firstMatching_some manager version pm _ hf⟩

/-- Witness of C7 at `yarn@2.3.4`, which returns `nodejs-berry`. -/
theorem from_string_first_match_witness :
    (∀ a : Absent, GetPackageManagerFromString a "yarn@2.3.4".toList
      = some (some nodejsBerry, none)) ∧
    (∀ a : Absent, ∃ manager version,
      ParsePackageManagerString "yarn@2.3.4".toList = some (manager, version, none) ∧
      ∃ earlier later, packageManagers a = earlier ++ nodejsBerry :: later ∧
        nodejsBerry.Matches manager version = (true, none) ∧
        ∀ p ∈ earlier, (p.Matches manager version).1 = false ∨
          (p.Matches manager version).2 ≠ none) :=
  ⟨fun _ => rfl,
    fun a => (from_string_first_match a "yarn@2.3.4".toList nodejsBerry none rfl).2.2⟩

theorem from_string_cases (a : Absent) (s : GoString) :
    (explicitFails a s ∧ ∃ err, GetPackageManagerFromString a s = some (none, some err)) ∨
    (¬ explicitFails a s ∧ ∃ d, GetPackageManagerFromString a s = some (some d, none)) := by
  unfold GetPackageManagerFromString
  by_cases hs : s = []
  · rw [if_pos hs]
    exact Or.inl ⟨Or.inl hs, _, rfl⟩
  · rw [if_neg hs]
    rcases parse_total s with hp | ⟨manager, version, hp⟩
    · rw [hp]
      exact Or.inl ⟨Or.inr (Or.inl ⟨[], [], _, hp⟩), _, rfl⟩
    · rw [hp]
      simp only
      cases hf : firstMatching manager version (packageManagers a) with
      | none =>
        exact Or.inl ⟨Or.inr (Or.inr ⟨manager, version, hp,
          firstMatching_none manager version _ hf⟩), _, rfl⟩
      | some pm =>
        refine Or.inr ⟨?_, pm, rfl⟩
        obtain ⟨earlier, later, hl, hd, _⟩ := firstMatching_some manager version pm _ hf
        rintro (h1 | ⟨m1, v1, e1, h2⟩ | ⟨m1, v1, h3, hall⟩)
        · exact hs h1
        · rw [hp] at h2
          simp at h2
        · rw [hp] at h3
          simp only [Option.some.injEq, Prod.mk.injEq, and_true] at h3
          obtain ⟨rfl, rfl⟩ := h3
          exact hall pm (by rw [hl]; simp) hd

/-- C8: `GetPackageManagerFromString` returns a nil descriptor with an error exactly
when the text is empty, or `ParsePackageManagerString` fails on it, or no
descriptor has a `Matches` predicate returning true with a nil error on the parsed
pair; in every other case it returns a descriptor and a nil error. It never
panics. -/
theorem from_string_error_iff (a : Absent) (s : GoString) :
    (explicitFails a s ↔ ∃ err, GetPackageManagerFromString a s = some (none, some err)) ∧
    (¬ explicitFails a s ↔ ∃ d, GetPackageManagerFromString a s = some (some d, none)) := by
  rcases from_string_cases a s with ⟨hf, err, he⟩ | ⟨hf, d, hd⟩
  · refine ⟨⟨fun _ => ⟨err, he⟩, fun _ => hf⟩, ⟨fun h => absurd hf h, ?_⟩⟩
    rintro ⟨d, hd⟩
    rw [he] at hd
    simp at hd
  · refine ⟨⟨fun h => absurd h hf, ?_⟩, ⟨fun _ => ⟨d, hd⟩, fun _ => hf⟩⟩
    rintro ⟨err, he⟩
    rw [hd] at he
    simp at he

/-- C9: `GetPackageManager` tries the explicit strategy first. Whenever
`GetPackageManagerFromString` on the manifest's declaration yields a descriptor,
`GetPackageManager` returns that descriptor with a nil error, for every world and
every project directory; whenever it yields none, `GetPackageManager` returns
exactly the result of `detectPackageManager` on the project directory, and the
error of the explicit strategy is dropped. One of the two cases always holds. -/
theorem get_package_manager_strategy (a : Absent) (w : World) (projectDirectory : GoString)
    (pkg : PackageJSON) :
    (∀ d e, GetPackageManagerFromString a pkg.PackageManager = some (some d, e) →
      GetPackageManager a w projectDirectory pkg = some (some d, none)) ∧
    (∀ e, GetPackageManagerFromString a pkg.PackageManager = some (none, e) →
      GetPackageManager a w projectDirectory pkg
        = some (detectPackageManager a w projectDirectory)) ∧
    ((∃ d, GetPackageManagerFromString a pkg.PackageManager = some (some d, none)) ∨
      (∃ err, GetPackageManagerFromString a pkg.PackageManager = some (none, some err))) := by
  refine ⟨?_, ?_, ?_⟩
  · intro d e h
    simp [GetPackageManager, h]
  · intro e h
    simp [GetPackageManager, h]
  · rcases from_string_cases a pkg.PackageManager with ⟨_, err, he⟩ | ⟨_, d, hd⟩
    · exact Or.inr ⟨err, he⟩
    · exact Or.inl ⟨d, hd⟩

theorem detectLoop_some (w : World) (projectDirectory : GoString) (d : PackageManager) :
    ∀ l : List PackageManager, detectLoop w projectDirectory l = (some d, none) →
      ∃ earlier later, l = earlier ++ d :: later ∧
        d.detect w projectDirectory d.toPackageManagerData = (true, none) ∧
        ∀ p ∈ earlier, p.detect w projectDirectory p.toPackageManagerData = (false, none) := by
  intro l
  induction l with
  | nil => intro h; simp [detectLoop] at h
  | cons pm rest ih =>
    intro h
    rcases hm : pm.detect w projectDirectory pm.toPackageManagerData with ⟨b, err⟩
    cases err with
    | some e => simp [detectLoop, hm] at h
    | none =>
      cases b with
      | true =>
        simp only [detectLoop, hm, if_true, Prod.mk.injEq, Option.some.injEq, and_true] at h
        subst h
        exact ⟨[], rest, rfl, hm, by simp⟩
      | false =>
        simp only [detectLoop, hm, Bool.false_eq_true, if_false] at h
        obtain ⟨earlier, later, e, hd, hall⟩ := ih h
        refine ⟨pm :: earlier, later, by simp [e], hd, ?_⟩
        intro p hp
        rcases List.mem_cons.1 hp with rfl | hp
        · exact hm
        · exact hall p hp

theorem detectLoop_of_first (w : World) (projectDirectory : GoString) (d : PackageManager)
    (later : List PackageManager)
    (hd : d.detect w projectDirectory d.toPackageManagerData = (true, none)) :
    ∀ earlier : List PackageManager,
      (∀ p ∈ earlier, p.detect w projectDirectory p.toPackageManagerData = (false, none)) →
      detectLoop w projectDirectory (earlier ++ d :: later) = (some d, none) := by
  intro earlier
  induction earlier with
  | nil => intro _; simp [detectLoop, hd]
  | cons pm rest ih =>
    intro hall
    have h1 := hall pm (List.mem_cons_self _ _)
    have h2 := ih (fun p hp => hall p (List.mem_cons_of_mem _ hp))
    simp [detectLoop, h1, h2]

/-- C10: `detectPackageManager` returns the descriptor `d` with a nil error if and
only if `d` stands in the registry, its `detect` predicate returns true with a nil
error, and the `detect` predicate of every descriptor before it in registry order
returns false with a nil error: the first predicate returning true wins. -/
theorem detect_first_true (a : Absent) (w : World) (projectDirectory : GoString)
    (d : PackageManager) :
    detectPackageManager a w projectDirectory = (some d, none) ↔
      ∃ earlier later, packageManagers a = earlier ++ d :: later ∧
        d.detect w projectDirectory d.toPackageManagerData = (true, none) ∧
        ∀ p ∈ earlier, p.detect w projectDirectory p.toPackageManagerData = (false, none) := by
  constructor
  · intro h
    exact detectLoop_some w projectDirectory d _ h
  · rintro ⟨earlier, later, e, hd, hall⟩
    rw [detectPackageManager, e]
    exact detectLoop_of_first w projectDirectory d later hd earlier hall

/-! ## Errors and fallthrough of the probing strategy (C11 to C14) -/

theorem detectLoop_eq_values (w : World) (projectDirectory : GoString) :
    ∀ l : List PackageManager,
      detectLoop w projectDirectory l = (detectReturn w projectDirectory l).values := by
  intro l
  induction l with
  | nil => rfl
  | cons pm rest ih =>
    rcases hm : pm.detect w projectDirectory pm.toPackageManagerData with ⟨b, err⟩
    cases err with
    | some e => simp [detectLoop, detectReturn, hm, DetectReturn.values]
    | none =>
      cases b with
      | true => simp [detectLoop, detectReturn, hm, DetectReturn.values]
      | false => simpa [detectLoop, detectReturn, hm] using ih

theorem detectLoop_skip (w : World) (projectDirectory : GoString) (rest : List PackageManager) :
    ∀ earlier : List PackageManager,
      (∀ p ∈ earlier, p.detect w projectDirectory p.toPackageManagerData = (false, none)) →
      detectLoop w projectDirectory (earlier ++ rest) = detectLoop w projectDirectory rest ∧
      detectReturn w projectDirectory (earlier ++ rest)
        = detectReturn w projectDirectory rest := by
  intro earlier
  induction earlier with
  | nil => intro _; exact ⟨rfl, rfl⟩
  | cons pm more ih =>
    intro hall
    have h1 := hall pm (List.mem_cons_self _ _)
    have h2 := ih (fun p hp => hall p (List.mem_cons_of_mem _ hp))
    simp [detectLoop, detectReturn, h1, h2]

/-- C11: if the `detect` predicate of a descriptor `d` of the registry returns an
error `e`, and the predicate of every descriptor before `d` returned false with a
nil error, then `detectPackageManager` returns a nil descriptor and the error `e`;
the same holds with any other descriptors after `d`, whatever their predicates
return: the chain does not fall through. -/
theorem detect_error_aborts (a : Absent) (w : World) (projectDirectory : GoString)
    (earlier later : List PackageManager) (d : PackageManager) (b : Bool) (e : GoError)
    (hreg : packageManagers a = earlier ++ d :: later)
    (hd : d.detect w projectDirectory d.toPackageManagerData = (b, some e))
    (hall : ∀ p ∈ earlier,
      p.detect w projectDirectory p.toPackageManagerData = (false, none)) :
    detectPackageManager a w projectDirectory = (none, some e) ∧
    ∀ others : List PackageManager,
      detectLoop w projectDirectory (earlier ++ d :: others) = (none, some e) := by
  have key : ∀ others : List PackageManager,
      detectLoop w projectDirectory (earlier ++ d :: others) = (none, some e) := by
    intro others
    rw [(detectLoop_skip w projectDirectory (d :: others) earlier hall).1]
    simp [detectLoop, hd]
  exact ⟨by rw [detectPackageManager, hreg]; exact key later, key⟩

/-- Witness of C11: `yarn` cannot be run, so the predicate of `nodejs-berry` fails
after that of `nodejs-yarn` answered false, and the chain stops although the
predicate of `nodejs-pnpm` answers true. -/
theorem detect_error_aborts_witness :
    nodejsPnpm.detect yarnMissingWorld "root".toList nodejsPnpm.toPackageManagerData
      = (true, none) ∧
    detectPackageManager quietAbsent yarnMissingWorld "root".toList
      = (none, some ("could not detect yarn version: "
          ++ "exec: yarn: executable file not found in $PATH")) :=
  ⟨rfl, (detect_error_aborts quietAbsent yarnMissingWorld "root".toList
    [nodejsYarn quietAbsent] [nodejsNpm quietAbsent, nodejsPnpm, nodejsPnpm6] nodejsBerry false
    ("could not detect yarn version: " ++ "exec: yarn: executable file not found in $PATH")
    rfl rfl (by
      intro p hp
      rw [List.mem_singleton.1 hp]
      rfl)).1⟩

theorem detectReturn_notDetected (w : World) (projectDirectory : GoString) :
    ∀ l : List PackageManager,
      detectReturn w projectDirectory l = DetectReturn.notDetected ↔
        ∀ p ∈ l, p.detect w projectDirectory p.toPackageManagerData = (false, none) := by
  intro l
  induction l with
  | nil => simp [detectReturn]
  | cons pm rest ih =>
    rcases hm : pm.detect w projectDirectory pm.toPackageManagerData with ⟨b, err⟩
    cases err with
    | some e =>
      simp only [detectReturn, hm, List.mem_cons, forall_eq_or_imp]
      constructor
      · intro h
        cases h
      · rintro ⟨h, _⟩
        simp at h
    | none =>
      cases b with
      | true =>
        simp only [detectReturn, hm, if_true, List.mem_cons, forall_eq_or_imp]
        constructor
        · intro h
          cases h
        · rintro ⟨h, _⟩
          simp at h
      | false =>
        simp only [detectReturn, hm, Bool.false_eq_true, if_false, List.mem_cons,
          forall_eq_or_imp, true_and]
        exact ih

/-- C12: `detectPackageManager` ends at its own `did not detect` error, the
`return` statement after the loop, if and only if the `detect` predicate of every
descriptor of the registry returns false with a nil error; it then returns a nil
descriptor with that error. When some predicate returned true or an error, the
function ends at another `return` statement, and what it returns is the
descriptor found or the error of a predicate. -/
theorem detect_not_detected_iff (a : Absent) (w : World) (projectDirectory : GoString) :
    (detectReturn w projectDirectory (packageManagers a) = DetectReturn.notDetected ↔
      ∀ p ∈ packageManagers a,
        p.detect w projectDirectory p.toPackageManagerData = (false, none)) ∧
    detectPackageManager a w projectDirectory
      = (detectReturn w projectDirectory (packageManagers a)).values ∧
    DetectReturn.notDetected.values = (none, some notDetectedError) ∧
    (∀ p ∈ packageManagers a, ∀ b err,
      p.detect w projectDirectory p.toPackageManagerData = (b, some err) ∨
        p.detect w projectDirectory p.toPackageManagerData = (true, none) →
      detectReturn w projectDirectory (packageManagers a) ≠ DetectReturn.notDetected) := by
  refine ⟨detectReturn_notDetected w projectDirectory _, detectLoop_eq_values w projectDirectory _,
    rfl, ?_⟩
  intro p hp b err hcase hnd
  have hall := (detectReturn_notDetected w projectDirectory _).1 hnd p hp
  rcases hcase with h | h
  · rw [hall] at h
    simp at h
  · rw [hall] at h
    simp at h

theorem isNMLinker_cases (w : World) (cwd : GoString)
    (h : ∀ bytes yarnRC, w.readFile (w.filepathJoin cwd ".yarnrc.yml".toList) = Except.ok bytes →
      w.unmarshalYarnRC bytes = Except.ok yarnRC → yarnRC.NodeLinker ≠ "node-modules".toList) :
    (∃ err, isNMLinker w cwd = (false, some err)) ∨ isNMLinker w cwd = (false, none) := by
  cases hr : w.readFile (w.filepathJoin cwd ".yarnrc.yml".toList) with
  | error e =>
    left
    refine ⟨".yarnrc.yml: " ++ e, ?_⟩
    rw [isNMLinker, hr]
  | ok bytes =>
    cases hu : w.unmarshalYarnRC bytes with
    | error e =>
      left
      refine ⟨".yarnrc.yml: %!w(<nil>)", ?_⟩
      rw [isNMLinker, hr]
      simp only [hu]
    | ok yarnRC =>
      right
      have hne := h bytes yarnRC hr hu
      rw [isNMLinker, hr]
      simp only [hu, decide_eq_false hne]

/-- What the `detect` predicate of `nodejs-berry` does when the captured output of
`yarn --version`, as it stands, is accepted by `nodejsBerry.Matches`: with
`package.json` and `yarn.lock` in the project directory and a `.yarnrc.yml` that
is not read, does not decode or declares another linker than `node-modules`, the
predicate returns false with an error, and `detectPackageManager` returns that
error once the predicate of `nodejs-yarn` answered false. -/
theorem berryDetect_of_accepted_output (w : World) (projectDirectory out : GoString)
    (hspec : FileExists w (w.filepathJoin projectDirectory "package.json".toList) = true)
    (hlock : FileExists w (w.filepathJoin projectDirectory "yarn.lock".toList) = true)
    (hout : w.yarnVersion projectDirectory = Except.ok out)
    (hrange : (nodejsBerry.Matches "yarn".toList out).1 = true)
    (hlinker : ∀ bytes yarnRC,
      w.readFile (w.filepathJoin projectDirectory ".yarnrc.yml".toList) = Except.ok bytes →
      w.unmarshalYarnRC bytes = Except.ok yarnRC →
      yarnRC.NodeLinker ≠ "node-modules".toList) :
    ∃ err, nodejsBerry.detect w projectDirectory nodejsBerry.toPackageManagerData
        = (false, some err) ∧
      ∀ a : Absent,
        (nodejsYarn a).detect w projectDirectory (nodejsYarn a).toPackageManagerData
          = (false, none) →
        detectPackageManager a w projectDirectory = (none, some err) := by
  have hd : ∃ err, nodejsBerry.detect w projectDirectory nodejsBerry.toPackageManagerData
      = (false, some err) := by
    show ∃ err, nodejsBerryDetect w projectDirectory nodejsBerry.toPackageManagerData
      = (false, some err)
    have hspec1 : FileExists w (w.filepathJoin projectDirectory
        nodejsBerry.toPackageManagerData.Specfile) = true := hspec
    have hlock1 : FileExists w (w.filepathJoin projectDirectory
        nodejsBerry.toPackageManagerData.Lockfile) = true := hlock
    have hrange1 : (nodejsBerry.toPackageManagerData.Matches
        nodejsBerry.toPackageManagerData.Slug out).1 = true := hrange
    unfold nodejsBerryDetect
    simp only [hspec1, hlock1, hout, hrange1, Bool.not_true, Bool.or_self, Bool.false_eq_true,
      if_false]
    rcases isNMLinker_cases w projectDirectory hlinker with ⟨e, he⟩ | he
    · rw [he]
      exact ⟨_, rfl⟩
    · rw [he]
      exact ⟨_, rfl⟩
  obtain ⟨err, herr⟩ := hd
  refine ⟨err, herr, ?_⟩
  intro a hy
  rw [detectPackageManager, packageManagers]
  simp [detectLoop, hy, herr]

theorem detectLoop_berry_false (a : Absent) (w : World) (projectDirectory : GoString)
    (hyarn : (nodejsYarn a).detect w projectDirectory (nodejsYarn a).toPackageManagerData
      = (false, none))
    (hberry : nodejsBerry.detect w projectDirectory nodejsBerry.toPackageManagerData
      = (false, none))
    (hnpm : (nodejsNpm a).detect w projectDirectory (nodejsNpm a).toPackageManagerData
      = (false, none))
    (hpnpm : nodejsPnpm.detect w projectDirectory nodejsPnpm.toPackageManagerData
      = (true, none)) :
    detectPackageManager a w projectDirectory = (some nodejsPnpm, none) := by
  rw [detectPackageManager, packageManagers]
  simp [detectLoop, hyarn, hberry, hnpm, hpnpm]

/-- C13, at the failing input `berryLineFeedWorld`: `package.json` and `yarn.lock`
exist, `yarn --version` prints `3.2.1` and a line feed, and `.yarnrc.yml` declares
the linker `pnp`. The version `3.2.1` is in the range of berry, but `detect` hands
the output with its line feed to `Matches`, which refuses it with an error that
`detect` drops: the predicate returns false with a nil error, and
`detectPackageManager` falls through to `nodejs-pnpm` whenever the predicates of
`nodejs-yarn` and `nodejs-npm` answer false, as they do with `quietAbsent`. On
`berryPnpWorld`, which differs by the missing line feed only, and on
`berryUnreadableWorld`, detection aborts with the error of the linker. -/
theorem berry_detect_falls_through :
    nodejsBerry.Matches "yarn".toList "3.2.1".toList = (true, none) ∧
    (∃ err, nodejsBerry.Matches "yarn".toList "3.2.1\n".toList = (false, some err)) ∧
    berryLineFeedWorld.yarnVersion "root".toList = Except.ok "3.2.1\n".toList ∧
    FileExists berryLineFeedWorld
      (berryLineFeedWorld.filepathJoin "root".toList "package.json".toList) = true ∧
    FileExists berryLineFeedWorld
      (berryLineFeedWorld.filepathJoin "root".toList "yarn.lock".toList) = true ∧
    isNMLinker berryLineFeedWorld "root".toList = (false, none) ∧
    nodejsBerry.detect berryLineFeedWorld "root".toList nodejsBerry.toPackageManagerData
      = (false, none) ∧
    (∀ a : Absent,
      (nodejsYarn a).detect berryLineFeedWorld "root".toList (nodejsYarn a).toPackageManagerData
        = (false, none) →
      (nodejsNpm a).detect berryLineFeedWorld "root".toList (nodejsNpm a).toPackageManagerData
        = (false, none) →
      detectPackageManager a berryLineFeedWorld "root".toList = (some nodejsPnpm, none)) ∧
    detectPackageManager quietAbsent berryLineFeedWorld "root".toList
      = (some nodejsPnpm, none) ∧
    nodejsBerry.detect berryPnpWorld "root".toList nodejsBerry.toPackageManagerData
      = (false, some "only yarn nm-linker is supported") ∧
    detectPackageManager quietAbsent berryPnpWorld "root".toList
      = (none, some "only yarn nm-linker is supported") ∧
    detectPackageManager quietAbsent berryUnreadableWorld "root".toList
      = (none, some ("could not check if yarn is using nm-linker: "
          ++ (".yarnrc.yml: " ++ "no such file or directory"))) :=
  ⟨rfl, ⟨_, rfl⟩, rfl, rfl, rfl, rfl, rfl,
    fun a hyarn hnpm => detectLoop_berry_false a berryLineFeedWorld "root".toList hyarn rfl hnpm rfl,
    rfl, rfl, rfl, rfl⟩

/-- C14: the `detect` predicate of `nodejs-berry` returns false with a nil error
(1) when `package.json` or `yarn.lock` is absent from the project directory, and
this in every world with the same file system entries, whatever the `yarn`
command and the reading of `.yarnrc.yml` would give there; (2) when both files
exist, `yarn --version` succeeds and its output is not accepted by
`nodejsBerry.Matches`: such are a version below `2.0.0` (`1.22.19`) and an output
that does not parse as a version (`not found`, or `3.2.1` followed by a line
feed). -/
theorem berry_detect_clean (w : World) (projectDirectory : GoString) :
    ((FileExists w (w.filepathJoin projectDirectory "package.json".toList) = false ∨
        FileExists w (w.filepathJoin projectDirectory "yarn.lock".toList) = false) →
      ∀ w2 : World, w2.filepathJoin = w.filepathJoin → w2.lstat = w.lstat →
        nodejsBerry.detect w2 projectDirectory nodejsBerry.toPackageManagerData
          = (false, none)) ∧
    (∀ out, FileExists w (w.filepathJoin projectDirectory "package.json".toList) = true →
      FileExists w (w.filepathJoin projectDirectory "yarn.lock".toList) = true →
      w.yarnVersion projectDirectory = Except.ok out →
      (nodejsBerry.Matches "yarn".toList out).1 = false →
      nodejsBerry.detect w projectDirectory nodejsBerry.toPackageManagerData = (false, none)) ∧
    (nodejsBerry.Matches "yarn".toList "1.22.19".toList).1 = false ∧
    (nodejsBerry.Matches "yarn".toList "not found".toList).1 = false ∧
    (nodejsBerry.Matches "yarn".toList "3.2.1\n".toList).1 = false ∧
    nodejsBerry.detect classicYarnWorld "root".toList nodejsBerry.toPackageManagerData
      = (false, none) ∧
    nodejsBerry.detect emptyWorld "root".toList nodejsBerry.toPackageManagerData
      = (false, none) := by
  refine ⟨?_, ?_, rfl, rfl, rfl, rfl, rfl⟩
  · intro habsent w2 hj hl
    show nodejsBerryDetect w2 projectDirectory nodejsBerry.toPackageManagerData = (false, none)
    have e1 : FileExists w2 (w2.filepathJoin projectDirectory
        nodejsBerry.toPackageManagerData.Specfile)
        = FileExists w (w.filepathJoin projectDirectory "package.json".toList) := by
      unfold FileExists
      rw [hj, hl]
      rfl
    have e2 : FileExists w2 (w2.filepathJoin projectDirectory
        nodejsBerry.toPackageManagerData.Lockfile)
        = FileExists w (w.filepathJoin projectDirectory "yarn.lock".toList) := by
      unfold FileExists
      rw [hj, hl]
      rfl
    unfold nodejsBerryDetect
    simp only [e1, e2]
    rcases habsent with h | h
    · rw [h]
      simp
    · rw [h]
      simp
  · intro out hspec hlock hout hno
    show nodejsBerryDetect w projectDirectory nodejsBerry.toPackageManagerData = (false, none)
    have hspec1 : FileExists w (w.filepathJoin projectDirectory
        nodejsBerry.toPackageManagerData.Specfile) = true := hspec
    have hlock1 : FileExists w (w.filepathJoin projectDirectory
        nodejsBerry.toPackageManagerData.Lockfile) = true := hlock
    have hno1 : (nodejsBerry.toPackageManagerData.Matches
        nodejsBerry.toPackageManagerData.Slug out).1 = false := hno
    unfold nodejsBerryDetect
    simp [hspec1, hlock1, hout, hno1]

/-! ## Workspaces (C15 to C19) -/

/-- C15, evaluated at a failing input: in `nodeModulesWorld`, `GetWorkspaceIgnores`
of `nodejs-pnpm` gives the two default ignore patterns, the pattern
`**/node_modules/**` matches the path `packages/a/node_modules/dep/package.json`,
and `GetWorkspaces` returns that path all the same: the loop calls
`doublestar.Match(path, glob)`, with the path in the place of the pattern. -/
theorem get_workspaces_keeps_ignored :
    GetWorkspaceIgnores nodeModulesWorld nodejsPnpm "root".toList
      = (["**/node_modules/**".toList, "**/bower_components/**".toList], none) ∧
    nodeModulesWorld.doublestarMatch "**/node_modules/**".toList
      "packages/a/node_modules/dep/package.json".toList = Except.ok true ∧
    GetWorkspaces nodeModulesWorld nodejsPnpm "root".toList true
      = some (["packages/a/package.json".toList,
          "packages/a/node_modules/dep/package.json".toList], none) ∧
    GetWorkspaces nodeModulesWorld nodejsPnpm "root".toList false
      = some (["root/packages/a/package.json".toList,
          "root/packages/a/node_modules/dep/package.json".toList], none) :=
  ⟨rfl, rfl, rfl, rfl⟩

/-- C16: for every world, descriptor and root, the result of `GetWorkspaces` with
`relativePath = false` is its result with `relativePath = true` in which every
path is replaced by `filepath.Join(rootpath, path)`: same error, and on success
the same paths in the same order, and so the same length. -/
theorem get_workspaces_absolute (w : World) (pm : PackageManager) (rootpath : GoString) :
    GetWorkspaces w pm rootpath false
      = (GetWorkspaces w pm rootpath true).map
          (fun r => (r.1.map (fun path => w.filepathJoin rootpath path), r.2)) ∧
    (∀ res err, GetWorkspaces w pm rootpath true = some (res, err) →
      ∃ res2, GetWorkspaces w pm rootpath false = some (res2, err) ∧
        res2 = res.map (fun path => w.filepathJoin rootpath path) ∧
        res2.length = res.length) := by
  have key : GetWorkspaces w pm rootpath false
      = (GetWorkspaces w pm rootpath true).map
          (fun r => (r.1.map (fun path => w.filepathJoin rootpath path), r.2)) := by
    unfold GetWorkspaces
    rcases pm.getWorkspaceGlobs w rootpath with ⟨globs, _ | e1⟩
    · rcases pm.getWorkspaceIgnores w pm.toPackageManagerData rootpath with ⟨ignores, _ | e2⟩
      · simp only
        cases collectMatches w rootpath
            (globs.map (fun space => w.filepathJoin space "package.json".toList)) with
        | error e3 => simp
        | ok collected =>
          simp only
          cases ignoreLoop w ignores collected with
          | none => simp
          | some r =>
            cases r with
            | error e4 => simp
            | ok res => simp
      · simp
    · simp
  refine ⟨key, ?_⟩
  intro res err h
  rw [key, h]
  exact ⟨_, rfl, rfl, by simp⟩

/-- C17, evaluated at a failing input: in `bracketWorld` the declaration has the
one inclusion glob `packages/*`, searched as `packages/*/package.json`; its only
match is `packages/[a]/package.json`, which none of the three ignore patterns
matches; and `GetWorkspaces` returns the empty list instead of that match,
because the loop calls `doublestar.Match(path, glob)`, with the path in the
place of the pattern. -/
theorem get_workspaces_drops_unignored :
    nodejsPnpm.getWorkspaceGlobs bracketWorld "root".toList = (["packages/*".toList], none) ∧
    bracketWorld.filepathJoin "packages/*".toList "package.json".toList
      = "packages/*/package.json".toList ∧
    collectMatches bracketWorld "root".toList ["packages/*/package.json".toList]
      = Except.ok ["packages/[a]/package.json".toList] ∧
    GetWorkspaceIgnores bracketWorld nodejsPnpm "root".toList
      = (["**/node_modules/**".toList, "**/bower_components/**".toList,
          "packages/a/package.json".toList], none) ∧
    bracketWorld.doublestarMatch "**/node_modules/**".toList
      "packages/[a]/package.json".toList = Except.ok false ∧
    bracketWorld.doublestarMatch "**/bower_components/**".toList
      "packages/[a]/package.json".toList = Except.ok false ∧
    bracketWorld.doublestarMatch "packages/a/package.json".toList
      "packages/[a]/package.json".toList = Except.ok false ∧
    GetWorkspaces bracketWorld nodejsPnpm "root".toList true = some ([], none) :=
  ⟨rfl, rfl, rfl, rfl, rfl, rfl, rfl, rfl⟩

theorem foldl_append_filter (p : GoString → Bool) :
    ∀ (l acc : List GoString),
      l.foldl (fun acc g => if p g = true then acc ++ [g] else acc) acc = acc ++ l.filter p := by
  intro l
  induction l with
  | nil => intro acc; simp
  | cons g rest ih =>
    intro acc
    by_cases hg : p g = true
    · simp [List.foldl, hg, ih, List.filter]
    · simp [List.foldl, hg, ih, List.filter]

theorem foldl_append_filterMap (f : GoString → Option GoString) (p : GoString → Bool)
    (d : GoString → GoString) (hsome : ∀ g, p g = true → f g = some (d g))
    (hnone : ∀ g, ¬ p g = true → f g = none) :
    ∀ (l acc : List GoString),
      l.foldl (fun acc g => if p g = true then acc ++ [d g] else acc) acc
        = acc ++ l.filterMap f := by
  intro l
  induction l with
  | nil => intro acc; simp
  | cons g rest ih =>
    intro acc
    by_cases hg : p g = true
    · simp [List.foldl, hg, ih, List.filterMap_cons, hsome g hg]
    · simp [List.foldl, hg, ih, List.filterMap_cons, hnone g hg]

theorem getPnpmWorkspaceGlobs_eq (w : World) (rootpath : GoString) (packages : List GoString)
    (h : readPnpmWorkspacePackages w (w.filepathJoin rootpath "pnpm-workspace.yaml".toList)
      = (packages, none)) (hne : packages ≠ []) :
    getPnpmWorkspaceGlobs w rootpath
      = (packages.filter (fun g => !stringsHasPrefix g "!".toList), none) := by
  have hlen : ¬ packages.length = 0 := fun e => hne (List.length_eq_zero.1 e)
  rw [getPnpmWorkspaceGlobs, h]
  simp only [hlen, if_false]
  rw [foldl_append_filter (fun g => !stringsHasPrefix g "!".toList) packages []]
  simp

/-- Counterexample to C18 as stated: in `onlyIgnoredWorld` the declaration of
`pnpm-workspace.yaml` is the one entry `!packages/skip`, and `getWorkspaceGlobs`
of `nodejs-pnpm` and of `nodejs-pnpm6` succeeds with an empty list of inclusion
globs. -/
theorem workspace_globs_counterexample :
    readPnpmWorkspacePackages onlyIgnoredWorld
      (onlyIgnoredWorld.filepathJoin "root".toList "pnpm-workspace.yaml".toList)
      = (["!packages/skip".toList], none) ∧
    nodejsPnpm.getWorkspaceGlobs onlyIgnoredWorld "root".toList = ([], none) ∧
    nodejsPnpm6.getWorkspaceGlobs onlyIgnoredWorld "root".toList = ([], none) :=
  ⟨rfl, rfl, rfl⟩

/-- C18, amended: for the berry descriptor and for the pnpm and pnpm6 descriptors,
`getWorkspaceGlobs` returns an error when the declaration (the `workspaces` of
`package.json`, the `packages` of `pnpm-workspace.yaml`) is empty, and
`GetWorkspaces` returns the error of `getWorkspaceGlobs` with a nil result. When
`getWorkspaceGlobs` succeeds, for berry the globs returned are the declaration
and are not empty; for pnpm and pnpm6 the declaration is not empty and the globs
returned are its entries that do not start with `!`, in their order (none, when
every entry is an ignore entry). -/
theorem workspace_globs_required (w : World) (rootpath : GoString) :
    (∀ pkg, w.readPackageJSON (w.filepathJoin rootpath "package.json".toList) = Except.ok pkg →
      pkg.Workspaces = [] →
      ∃ err, nodejsBerry.getWorkspaceGlobs w rootpath = ([], some err)) ∧
    (∀ globs, nodejsBerry.getWorkspaceGlobs w rootpath = (globs, none) →
      globs ≠ [] ∧ ∃ pkg, w.readPackageJSON (w.filepathJoin rootpath "package.json".toList)
        = Except.ok pkg ∧ pkg.Workspaces = globs) ∧
    (readPnpmWorkspacePackages w (w.filepathJoin rootpath "pnpm-workspace.yaml".toList)
        = ([], none) →
      ∃ err, nodejsPnpm.getWorkspaceGlobs w rootpath = ([], some err)) ∧
    (∀ globs, nodejsPnpm.getWorkspaceGlobs w rootpath = (globs, none) →
      ∃ packages, packages ≠ [] ∧
        readPnpmWorkspacePackages w (w.filepathJoin rootpath "pnpm-workspace.yaml".toList)
          = (packages, none) ∧
        globs = packages.filter (fun g => !stringsHasPrefix g "!".toList)) ∧
    nodejsPnpm6.getWorkspaceGlobs = nodejsPnpm.getWorkspaceGlobs ∧
    (∀ (pm : PackageManager) (relativePath : Bool) globs err,
      pm.getWorkspaceGlobs w rootpath = (globs, some err) →
      GetWorkspaces w pm rootpath relativePath = some ([], some err)) := by
  refine ⟨?_, ?_, ?_, ?_, rfl, ?_⟩
  · intro pkg hr hw
    show ∃ err, nodejsBerryGetWorkspaceGlobs w rootpath = ([], some err)
    rw [nodejsBerryGetWorkspaceGlobs, hr]
    simp only [hw, List.length_nil, if_true]
    exact ⟨_, rfl⟩
  · intro globs h
    change nodejsBerryGetWorkspaceGlobs w rootpath = (globs, none) at h
    unfold nodejsBerryGetWorkspaceGlobs at h
    cases hr : w.readPackageJSON (w.filepathJoin rootpath "package.json".toList) with
    | error e =>
      rw [hr] at h
      simp at h
    | ok pkg =>
      rw [hr] at h
      simp only at h
      by_cases hl : pkg.Workspaces.length = 0
      · rw [if_pos hl] at h
        simp at h
      · rw [if_neg hl] at h
        simp only [Prod.mk.injEq, and_true] at h
        subst h
        exact ⟨fun e => hl (by rw [e]; rfl), pkg, rfl, rfl⟩
  · intro h
    show ∃ err, getPnpmWorkspaceGlobs w rootpath = ([], some err)
    rw [getPnpmWorkspaceGlobs, h]
    exact ⟨_, rfl⟩
  · intro globs h
    change getPnpmWorkspaceGlobs w rootpath = (globs, none) at h
    rcases hr : readPnpmWorkspacePackages w
        (w.filepathJoin rootpath "pnpm-workspace.yaml".toList) with ⟨packages, _ | e⟩
    · by_cases hne : packages = []
      · subst hne
        rw [getPnpmWorkspaceGlobs, hr] at h
        simp at h
      · rw [getPnpmWorkspaceGlobs_eq w rootpath packages hr hne] at h
        simp only [Prod.mk.injEq, and_true] at h
        exact ⟨packages, hne, rfl, h.symm⟩
    · rw [getPnpmWorkspaceGlobs, hr] at h
      simp at h
  · intro pm relativePath globs err h
    rw [GetWorkspaces, h]

theorem hasPrefix_bang (g : GoString) :
    (stringsHasPrefix g "!".toList = true → ignoreEntry g = some (g.drop 1)) ∧
    (¬ stringsHasPrefix g "!".toList = true → ignoreEntry g = none) := by
  have e : "!".toList = ['!'] := rfl
  cases g with
  | nil => simp [stringsHasPrefix, ignoreEntry, e, List.isPrefixOf]
  | cons c rest =>
    by_cases hc : c = '!'
    · simp [stringsHasPrefix, ignoreEntry, e, List.isPrefixOf, hc]
    · have hc2 : ¬ '!' = c := fun h => hc h.symm
      simp [stringsHasPrefix, ignoreEntry, e, List.isPrefixOf, hc, hc2]

theorem getPnpmWorkspaceIgnores_eq (w : World) (pm : PackageManagerData) (rootpath : GoString)
    (packages : List GoString)
    (h : readPnpmWorkspacePackages w (w.filepathJoin rootpath "pnpm-workspace.yaml".toList)
      = (packages, none)) :
    getPnpmWorkspaceIgnores w pm rootpath
      = ("**/node_modules/**".toList :: "**/bower_components/**".toList ::
          packages.filterMap ignoreEntry, none) := by
  rw [getPnpmWorkspaceIgnores, h]
  simp only
  rw [foldl_append_filterMap ignoreEntry (fun g => stringsHasPrefix g "!".toList)
    (fun g => g.drop 1) (fun g => (hasPrefix_bang g).1) (fun g => (hasPrefix_bang g).2)]
  rfl

/-- C19: for `nodejs-pnpm` and `nodejs-pnpm6`, when `pnpm-workspace.yaml` is read
and decoded, `GetWorkspaceIgnores` returns the two defaults `**/node_modules/**`
and `**/bower_components/**` followed by every entry of the `packages` list that
starts with `!`, without that one leading `!`, in declaration order (a declaration
with `!packages/skip` yields the defaults and `packages/skip`); for `nodejs-berry`
it returns `**/node_modules`, `**/.git`, `**/.yarn` in every world and for every
root. -/
theorem workspace_ignores (w : World) (rootpath : GoString) :
    (∀ bytes packages,
      w.readFile (w.filepathJoin rootpath "pnpm-workspace.yaml".toList) = Except.ok bytes →
      w.unmarshalPnpmWorkspaces bytes = Except.ok packages →
      GetWorkspaceIgnores w nodejsPnpm rootpath
        = ("**/node_modules/**".toList :: "**/bower_components/**".toList ::
            packages.filterMap ignoreEntry, none) ∧
      GetWorkspaceIgnores w nodejsPnpm6 rootpath
        = ("**/node_modules/**".toList :: "**/bower_components/**".toList ::
            packages.filterMap ignoreEntry, none)) ∧
    ignoreEntry "!packages/skip".toList = some "packages/skip".toList ∧
    ignoreEntry "!!packages/skip".toList = some "!packages/skip".toList ∧
    ignoreEntry "packages/*".toList = none ∧
    GetWorkspaceIgnores skipWorld nodejsPnpm "root".toList
      = (["**/node_modules/**".toList, "**/bower_components/**".toList,
          "packages/skip".toList], none) ∧
    GetWorkspaceIgnores w nodejsBerry rootpath
      = (["**/node_modules".toList, "**/.git".toList, "**/.yarn".toList], none) := by
  refine ⟨?_, rfl, rfl, rfl, rfl, rfl⟩
  intro bytes packages hr hu
  have h : readPnpmWorkspacePackages w (w.filepathJoin rootpath "pnpm-workspace.yaml".toList)
      = (packages, none) := by
    rw [readPnpmWorkspacePackages, hr]
    simp only [hu]
  exact ⟨getPnpmWorkspaceIgnores_eq w nodejsPnpm.toPackageManagerData rootpath packages h,
    getPnpmWorkspaceIgnores_eq w nodejsPnpm6.toPackageManagerData rootpath packages h⟩

/-! ## Pruning of patches (C20) -/

theorem foldl_mapDelete :
    ∀ (keys : List GoString) (m : List (GoString × GoValue)),
      keys.foldl mapDelete m = m.filter (fun entry => !keys.contains entry.1) := by
  intro keys
  induction keys with
  | nil => intro m; simp
  | cons k ks ih =>
    intro m
    rw [List.foldl_cons, ih, mapDelete, List.filter_filter]
    apply List.filter_congr
    intro entry _
    by_cases h1 : entry.1 = k
    · simp [h1]
    · by_cases h2 : entry.1 ∈ ks
      · simp [h1, h2]
      · simp [h1, h2]

theorem berryKeysToDelete_strings (patches : List GoString) :
    ∀ entries : List (GoString × GoString),
      berryKeysToDelete patches (entries.map stringEntry)
        = Except.ok ((entries.filter (fun e => !berryRetains patches e.2)).map Prod.fst) := by
  intro entries
  induction entries with
  | nil => rfl
  | cons e rest ih =>
    obtain ⟨key, patch⟩ := e
    simp only [List.map_cons, stringEntry, berryKeysToDelete]
    rw [ih]
    simp only
    by_cases hk : berryRetains patches patch = true
    · have hc : (!(patches.any (fun wantedPatch => stringsHasSuffix patch wantedPatch))
          && stringsHasSuffix patch ".patch".toList) = false := by
        unfold berryRetains at hk
        revert hk
        cases patches.any (fun wantedPatch => stringsHasSuffix patch wantedPatch) <;>
          cases stringsHasSuffix patch ".patch".toList <;> simp
      rw [hc]
      simp [List.filter, hk]
    · have hk2 : berryRetains patches patch = false := by simpa using hk
      have hc : (!(patches.any (fun wantedPatch => stringsHasSuffix patch wantedPatch))
          && stringsHasSuffix patch ".patch".toList) = true := by
        unfold berryRetains at hk2
        revert hk2
        cases patches.any (fun wantedPatch => stringsHasSuffix patch wantedPatch) <;>
          cases stringsHasSuffix patch ".patch".toList <;> simp
      rw [hc]
      simp [List.filter, hk2]

theorem contains_keys_of_nodup (entries : List (GoString × GoString))
    (q : GoString × GoString → Bool) (hkeys : (entries.map Prod.fst).Nodup)
    (e : GoString × GoString) (he : e ∈ entries) :
    ((entries.filter q).map Prod.fst).contains e.1 = q e := by
  have hinj := List.inj_on_of_nodup_map hkeys
  by_cases hq : q e = true
  · rw [hq]
    show List.elem e.1 ((entries.filter q).map Prod.fst) = true
    exact List.elem_eq_true_of_mem (List.mem_map.2 ⟨e, List.mem_filter.2 ⟨he, hq⟩, rfl⟩)
  · have hq2 : q e = false := by simpa using hq
    rw [hq2]
    cases hc : ((entries.filter q).map Prod.fst).contains e.1 with
    | false => rfl
    | true =>
      have hmem : e.1 ∈ (entries.filter q).map Prod.fst := List.mem_of_elem_eq_true hc
      obtain ⟨e2, h2, h3⟩ := List.mem_map.1 hmem
      have h4 := List.mem_filter.1 h2
      have h5 : e2 = e := hinj h4.1 he h3
      rw [h5] at h4
      exact absurd h4.2 hq

/-- C20: for the berry descriptor, on a manifest whose `resolutions` is a map with
distinct keys and only string values, `PrunePatchedPackages` returns a nil error
and leaves in `resolutions` exactly the entries, key and value unchanged, whose
reference ends with one of the retained identifiers or does not end with
`.patch`; an entry is removed if and only if its reference ends with `.patch` and
with none of the retained identifiers. The rest of the manifest is unchanged. -/
theorem berry_prune (pkgJSON : PackageJSON) (entries : List (GoString × GoString))
    (patches : List GoString)
    (hres : pkgJSON.Resolutions = GoValue.object (entries.map stringEntry))
    (hkeys : (entries.map Prod.fst).Nodup) :
    PrunePatchedPackages nodejsBerry pkgJSON patches
      = ({ pkgJSON with
            Resolutions := GoValue.object
              ((entries.filter (fun e => berryRetains patches e.2)).map stringEntry) }, none) ∧
    (∀ e ∈ entries, e ∉ entries.filter (fun e => berryRetains patches e.2) ↔
      stringsHasSuffix e.2 ".patch".toList = true ∧
        ∀ wantedPatch ∈ patches, stringsHasSuffix e.2 wantedPatch = false) := by
  constructor
  · show nodejsBerryPrunePatches pkgJSON patches = _
    rw [nodejsBerryPrunePatches, hres]
    simp only [berryKeysToDelete_strings, foldl_mapDelete]
    have hfilter : List.filter (fun entry : GoString × GoValue =>
          !((entries.filter (fun e => !berryRetains patches e.2)).map Prod.fst).contains entry.1)
          (entries.map stringEntry)
        = (entries.filter (fun e => berryRetains patches e.2)).map stringEntry := by
      rw [List.filter_map]
      congr 1
      apply List.filter_congr
      intro e he
      simp only [Function.comp, stringEntry]
      rw [contains_keys_of_nodup entries (fun e => !berryRetains patches e.2) hkeys e he]
      simp
    rw [hfilter]
  · intro e he
    simp only [List.mem_filter, he, true_and, berryRetains, Bool.or_eq_true, List.any_eq_true,
      Bool.not_eq_true', not_or, not_exists, not_and, Bool.not_eq_false]
    constructor
    · rintro ⟨h1, h2⟩
      exact ⟨h2, fun wantedPatch hw => by simpa using h1 wantedPatch hw⟩
    · rintro ⟨h1, h2⟩
      exact ⟨fun wantedPatch hw => by simp [h2 wantedPatch hw], h1⟩

/-- Witness of C20: pruning `patchedManifest` with the lodash patch retained keeps
the lodash patch and the plain version and removes the patch of `is-odd`. -/
theorem berry_prune_witness :
    PrunePatchedPackages nodejsBerry patchedManifest [".yarn/patches/lodash.patch".toList]
      = ({ patchedManifest with
            Resolutions := GoValue.object
              [("lodash@4.17.21".toList,
                  GoValue.str "patch:lodash#.yarn/patches/lodash.patch".toList),
               ("left-pad".toList, GoValue.str "1.3.0".toList)] }, none) :=
  (berry_prune patchedManifest
    [("lodash@4.17.21".toList, "patch:lodash#.yarn/patches/lodash.patch".toList),
     ("left-pad".toList, "1.3.0".toList),
     ("is-odd@3.0.1".toList, "patch:is-odd#.yarn/patches/is-odd.patch".toList)]
    [".yarn/patches/lodash.patch".toList] rfl (by decide)).1

/-! ## Pruning of patches for pnpm, and the shapes that fail (C21 to C25) -/

theorem pnpmKeysToDelete_strings (patches : List GoString) :
    ∀ entries : List (GoString × GoString),
      pnpmKeysToDelete patches (entries.map stringEntry)
        = Except.ok ((entries.filter (fun e => !pnpmRetains patches e.2)).map Prod.fst) := by
  intro entries
  induction entries with
  | nil => rfl
  | cons e rest ih =>
    obtain ⟨key, patch⟩ := e
    simp only [List.map_cons, stringEntry, pnpmKeysToDelete]
    rw [ih]
    simp only
    by_cases hk : pnpmRetains patches patch = true
    · have hc : (!(patches.any (fun wantedPatch => decide (wantedPatch = patch)))) = false := by
        unfold pnpmRetains at hk
        rw [hk]; rfl
      rw [hc]
      simp [List.filter, hk]
    · have hk2 : pnpmRetains patches patch = false := by simpa using hk
      have hc : (!(patches.any (fun wantedPatch => decide (wantedPatch = patch)))) = true := by
        unfold pnpmRetains at hk2
        rw [hk2]; rfl
      rw [hc]
      simp [List.filter, hk2]

theorem filter_keys_of_nodup (entries : List (GoString × GoString))
    (q : GoString × GoString → Bool) (hkeys : (entries.map Prod.fst).Nodup) :
    List.filter (fun entry : GoString × GoValue =>
        !((entries.filter (fun e => !q e)).map Prod.fst).contains entry.1)
        (entries.map stringEntry)
      = (entries.filter q).map stringEntry := by
  rw [List.filter_map]
  congr 1
  apply List.filter_congr
  intro e he
  simp only [Function.comp, stringEntry]
  rw [contains_keys_of_nodup entries (fun e => !q e) hkeys e he]
  simp

theorem pnpmPrunePatches_strings (pkgJSON : PackageJSON)
    (pnpmConfig : List (GoString × GoValue)) (entries : List (GoString × GoString))
    (patches : List GoString) (hpnpm : pkgJSON.Pnpm = GoValue.object pnpmConfig)
    (hpatched : mapLookup pnpmConfig "patchedDependencies".toList
      = GoValue.object (entries.map stringEntry))
    (hkeys : (entries.map Prod.fst).Nodup) :
    pnpmPrunePatches pkgJSON patches
      = ({ pkgJSON with
            Pnpm := GoValue.object (withPatchedDependencies pnpmConfig
              ((entries.filter (fun e => pnpmRetains patches e.2)).map stringEntry)) }, none) := by
  rw [pnpmPrunePatches, hpnpm]
  simp only [hpatched, pnpmKeysToDelete_strings, foldl_mapDelete]
  rw [filter_keys_of_nodup entries (fun e => pnpmRetains patches e.2) hkeys]
  rfl

theorem mapLookup_cons_eq (entry : GoString × GoValue) (rest : List (GoString × GoValue))
    (key : GoString) (h : entry.1 = key) : mapLookup (entry :: rest) key = entry.2 := by
  have hb : (entry.1 == key) = true := by simpa using h
  unfold mapLookup
  rw [List.find?_cons, hb]

theorem mapLookup_cons_ne (entry : GoString × GoValue) (rest : List (GoString × GoValue))
    (key : GoString) (h : entry.1 ≠ key) : mapLookup (entry :: rest) key = mapLookup rest key := by
  have hb : (entry.1 == key) = false := by simpa using h
  unfold mapLookup
  rw [List.find?_cons, hb]

theorem withPatchedDependencies_cons (entry : GoString × GoValue)
    (rest patched : List (GoString × GoValue)) :
    withPatchedDependencies (entry :: rest) patched
      = (if entry.1 = "patchedDependencies".toList then (entry.1, GoValue.object patched)
          else entry) :: withPatchedDependencies rest patched := rfl

theorem mapLookup_withPatched (pnpmConfig patched0 patched : List (GoString × GoValue))
    (h : mapLookup pnpmConfig "patchedDependencies".toList = GoValue.object patched0) :
    mapLookup (withPatchedDependencies pnpmConfig patched) "patchedDependencies".toList
      = GoValue.object patched := by
  induction pnpmConfig with
  | nil => exact absurd h (by simp [mapLookup])
  | cons entry rest ih =>
    rw [withPatchedDependencies_cons]
    by_cases hk : entry.1 = "patchedDependencies".toList
    · rw [if_pos hk]
      exact mapLookup_cons_eq (entry.1, GoValue.object patched) _ _ hk
    · rw [if_neg hk, mapLookup_cons_ne _ _ _ hk]
      rw [mapLookup_cons_ne _ _ _ hk] at h
      exact ih h

theorem mapLookup_withPatched_other (pnpmConfig patched : List (GoString × GoValue))
    (key : GoString) (hkey : key ≠ "patchedDependencies".toList) :
    mapLookup (withPatchedDependencies pnpmConfig patched) key = mapLookup pnpmConfig key := by
  induction pnpmConfig with
  | nil => rfl
  | cons entry rest ih =>
    rw [withPatchedDependencies_cons]
    by_cases hk : entry.1 = "patchedDependencies".toList
    · have hne : entry.1 ≠ key := fun h => hkey (h ▸ hk)
      rw [if_pos hk, mapLookup_cons_ne (entry.1, GoValue.object patched) _ _ hne,
        mapLookup_cons_ne entry _ _ hne, ih]
    · rw [if_neg hk]
      by_cases hk2 : entry.1 = key
      · rw [mapLookup_cons_eq _ _ _ hk2, mapLookup_cons_eq _ _ _ hk2]
      · rw [mapLookup_cons_ne _ _ _ hk2, mapLookup_cons_ne _ _ _ hk2, ih]

/-- C21: on a manifest whose `pnpm` is a map and whose `patchedDependencies` is a
map with distinct keys and only string values, `pnpmPrunePatches` returns a nil
error and leaves under `patchedDependencies` exactly the entries, key and value
unchanged and in their order, whose reference is equal to one of the retained
patches; the other keys of `pnpm` and the rest of the manifest are unchanged. -/
theorem pnpm_prune (pkgJSON : PackageJSON) (pnpmConfig : List (GoString × GoValue))
    (entries : List (GoString × GoString)) (patches : List GoString)
    (hpnpm : pkgJSON.Pnpm = GoValue.object pnpmConfig)
    (hpatched : mapLookup pnpmConfig "patchedDependencies".toList
      = GoValue.object (entries.map stringEntry))
    (hkeys : (entries.map Prod.fst).Nodup) :
    pnpmPrunePatches pkgJSON patches
      = ({ pkgJSON with
            Pnpm := GoValue.object (withPatchedDependencies pnpmConfig
              ((entries.filter (fun e => pnpmRetains patches e.2)).map stringEntry)) }, none) ∧
    mapLookup (withPatchedDependencies pnpmConfig
        ((entries.filter (fun e => pnpmRetains patches e.2)).map stringEntry))
        "patchedDependencies".toList
      = GoValue.object ((entries.filter (fun e => pnpmRetains patches e.2)).map stringEntry) ∧
    (∀ key, key ≠ "patchedDependencies".toList →
      mapLookup (withPatchedDependencies pnpmConfig
        ((entries.filter (fun e => pnpmRetains patches e.2)).map stringEntry)) key
        = mapLookup pnpmConfig key) ∧
    (∀ e ∈ entries, e ∈ entries.filter (fun e => pnpmRetains patches e.2) ↔ e.2 ∈ patches) :=
  ⟨pnpmPrunePatches_strings pkgJSON pnpmConfig entries patches hpnpm hpatched hkeys,
    mapLookup_withPatched pnpmConfig _ _ hpatched,
    fun key hkey => mapLookup_withPatched_other pnpmConfig _ key hkey,
    fun e he => by
      simp only [List.mem_filter, he, true_and, pnpmRetains, List.any_eq_true, decide_eq_true_eq]
      constructor
      · rintro ⟨x, hx, rfl⟩; exact hx
      · intro h; exact ⟨e.2, h, rfl⟩⟩

/-- Witness of C21, the two cases of `pnpm_test.go`: pruning the manifest of the
tests against its one patch leaves the mapping unchanged, and pruning it against
no patch leaves the empty mapping. -/
theorem pnpm_prune_witness :
    pnpmPrunePatches pnpmPatchesManifest ["patches/is-odd@3.0.1.patch".toList]
      = (pnpmPatchesManifest, none) ∧
    pnpmPrunePatches pnpmPatchesManifest []
      = ({ pnpmPatchesManifest with
            Pnpm := GoValue.object [("patchedDependencies".toList, GoValue.object [])] }, none) :=
  ⟨(pnpm_prune pnpmPatchesManifest
      [("patchedDependencies".toList, GoValue.object
        [("is-odd@3.0.1".toList, GoValue.str "patches/is-odd@3.0.1.patch".toList)])]
      [("is-odd@3.0.1".toList, "patches/is-odd@3.0.1.patch".toList)]
      ["patches/is-odd@3.0.1.patch".toList] rfl rfl (by decide)).1,
    (pnpm_prune pnpmPatchesManifest
      [("patchedDependencies".toList, GoValue.object
        [("is-odd@3.0.1".toList, GoValue.str "patches/is-odd@3.0.1.patch".toList)])]
      [("is-odd@3.0.1".toList, "patches/is-odd@3.0.1.patch".toList)]
      [] rfl rfl (by decide)).1⟩

/-- C22, at an input on which it fails: the reference `patches/is-odd@3.0.1.diff`
does not end with `.patch`, and pruning the pnpm manifest that holds it against
no patch removes the entry. -/
theorem prune_patch_suffix_counterexample :
    stringsHasSuffix "patches/is-odd@3.0.1.diff".toList ".patch".toList = false ∧
    PrunePatchedPackages nodejsPnpm pnpmDiffManifest []
      = ({ pnpmDiffManifest with
            Pnpm := GoValue.object [("patchedDependencies".toList, GoValue.object [])] }, none) :=
  ⟨by decide, rfl⟩

theorem berryRetains_nil (patch : GoString) :
    berryRetains [] patch = !stringsHasSuffix patch ".patch".toList := by
  simp [berryRetains]

theorem berryPrunePatches_strings (pkgJSON : PackageJSON) (entries : List (GoString × GoString))
    (patches : List GoString)
    (hres : pkgJSON.Resolutions = GoValue.object (entries.map stringEntry))
    (hkeys : (entries.map Prod.fst).Nodup) :
    nodejsBerryPrunePatches pkgJSON patches
      = ({ pkgJSON with
            Resolutions := GoValue.object
              ((entries.filter (fun e => berryRetains patches e.2)).map stringEntry) }, none) := by
  rw [nodejsBerryPrunePatches, hres]
  simp only [berryKeysToDelete_strings, foldl_mapDelete]
  rw [filter_keys_of_nodup entries (fun e => berryRetains patches e.2) hkeys]

/-- C22, amended. For entries with distinct keys and string values:
* berry: pruning against the empty retained set leaves exactly the entries whose
  reference does not end with `.patch`; for every retained set an entry whose
  reference does not end with `.patch` is kept;
* pnpm: pruning against the empty retained set leaves the empty mapping, whatever
  the references end with; for every retained set an entry is kept if and only if
  its reference is equal to one of the retained patches. -/
theorem prune_patch_suffix (entries : List (GoString × GoString)) (patches : List GoString)
    (hkeys : (entries.map Prod.fst).Nodup) :
    (∀ pkgJSON : PackageJSON, pkgJSON.Resolutions = GoValue.object (entries.map stringEntry) →
      PrunePatchedPackages nodejsBerry pkgJSON []
        = ({ pkgJSON with
              Resolutions := GoValue.object
                ((entries.filter (fun e => !stringsHasSuffix e.2 ".patch".toList)).map
                  stringEntry) }, none) ∧
      PrunePatchedPackages nodejsBerry pkgJSON patches
        = ({ pkgJSON with
              Resolutions := GoValue.object
                ((entries.filter (fun e => berryRetains patches e.2)).map stringEntry) }, none) ∧
      ∀ e ∈ entries, stringsHasSuffix e.2 ".patch".toList = false →
        e ∈ entries.filter (fun e => berryRetains patches e.2)) ∧
    (∀ (pkgJSON : PackageJSON) (pnpmConfig : List (GoString × GoValue)),
      pkgJSON.Pnpm = GoValue.object pnpmConfig →
      mapLookup pnpmConfig "patchedDependencies".toList
        = GoValue.object (entries.map stringEntry) →
      PrunePatchedPackages nodejsPnpm pkgJSON []
        = ({ pkgJSON with Pnpm := GoValue.object (withPatchedDependencies pnpmConfig []) },
            none) ∧
      PrunePatchedPackages nodejsPnpm pkgJSON patches
        = ({ pkgJSON with
              Pnpm := GoValue.object (withPatchedDependencies pnpmConfig
                ((entries.filter (fun e => pnpmRetains patches e.2)).map stringEntry)) }, none) ∧
      ∀ e ∈ entries, e ∈ entries.filter (fun e => pnpmRetains patches e.2) ↔ e.2 ∈ patches) := by
  refine ⟨fun pkgJSON hres => ⟨?_, ?_, ?_⟩, fun pkgJSON pnpmConfig hpnpm hpatched => ⟨?_, ?_, ?_⟩⟩
  · show nodejsBerryPrunePatches pkgJSON [] = _
    rw [berryPrunePatches_strings pkgJSON entries [] hres hkeys]
    simp only [berryRetains_nil]
  · exact berryPrunePatches_strings pkgJSON entries patches hres hkeys
  · intro e he hs
    exact List.mem_filter.2 ⟨he, by
      show berryRetains patches e.2 = true
      unfold berryRetains
      rw [hs]
      simp⟩
  · show pnpmPrunePatches pkgJSON [] = _
    rw [pnpmPrunePatches_strings pkgJSON pnpmConfig entries [] hpnpm hpatched hkeys]
    simp [pnpmRetains]
  · exact pnpmPrunePatches_strings pkgJSON pnpmConfig entries patches hpnpm hpatched hkeys
  · intro e he
    simp only [List.mem_filter, he, true_and, pnpmRetains, List.any_eq_true, decide_eq_true_eq]
    constructor
    · rintro ⟨x, hx, rfl⟩; exact hx
    · intro h; exact ⟨e.2, h, rfl⟩

/-- Witness of C22: pruning `patchedManifest` with berry against no patch removes
the two patches and keeps the plain version. -/
theorem prune_patch_suffix_witness :
    PrunePatchedPackages nodejsBerry patchedManifest []
      = ({ patchedManifest with
            Resolutions := GoValue.object [("left-pad".toList, GoValue.str "1.3.0".toList)] },
          none) :=
  ((prune_patch_suffix
    [("lodash@4.17.21".toList, "patch:lodash#.yarn/patches/lodash.patch".toList),
     ("left-pad".toList, "1.3.0".toList),
     ("is-odd@3.0.1".toList, "patch:is-odd#.yarn/patches/is-odd.patch".toList)]
    [] (by decide)).1 patchedManifest rfl).1

theorem stringValued_cons (e : GoString × GoValue) (rest : List (GoString × GoValue)) :
    stringValued (e :: rest) ↔ (∃ s, e.2 = GoValue.str s) ∧ stringValued rest := by
  simp [stringValued]

theorem stringValued_filter (p : GoString × GoValue → Bool) (m : List (GoString × GoValue))
    (h : stringValued m) : stringValued (m.filter p) :=
  fun e he => h e (List.mem_filter.1 he).1

theorem berryKeysToDelete_of_stringValued (patches : List GoString) :
    ∀ m : List (GoString × GoValue), stringValued m →
      berryKeysToDelete patches m
        = Except.ok ((m.filter (berryDeletes patches)).map Prod.fst) := by
  intro m
  induction m with
  | nil => intro _; rfl
  | cons e rest ih =>
    intro h
    obtain ⟨⟨s, hs⟩, hrest⟩ := (stringValued_cons e rest).1 h
    obtain ⟨key, value⟩ := e
    simp only at hs
    subst hs
    simp only [berryKeysToDelete, ih hrest, List.filter_cons, berryDeletes]
    split <;> rfl

theorem berryKeysToDelete_stringValued (patches : List GoString) :
    ∀ (m : List (GoString × GoValue)) (keys : List GoString),
      berryKeysToDelete patches m = Except.ok keys → stringValued m := by
  intro m
  induction m with
  | nil => intro _ _ e he; cases he
  | cons e rest ih =>
    intro keys h
    obtain ⟨key, value⟩ := e
    cases value with
    | str s =>
      simp only [berryKeysToDelete] at h
      cases hr : berryKeysToDelete patches rest with
      | error err => rw [hr] at h; simp at h
      | ok keys2 => exact (stringValued_cons _ _).2 ⟨⟨s, rfl⟩, ih keys2 hr⟩
    | null => simp [berryKeysToDelete] at h
    | other r => simp [berryKeysToDelete] at h
    | array vs => simp [berryKeysToDelete] at h
    | object es => simp [berryKeysToDelete] at h

theorem pnpmKeysToDelete_of_stringValued (patches : List GoString) :
    ∀ m : List (GoString × GoValue), stringValued m →
      pnpmKeysToDelete patches m
        = Except.ok ((m.filter (pnpmDeletes patches)).map Prod.fst) := by
  intro m
  induction m with
  | nil => intro _; rfl
  | cons e rest ih =>
    intro h
    obtain ⟨⟨s, hs⟩, hrest⟩ := (stringValued_cons e rest).1 h
    obtain ⟨key, value⟩ := e
    simp only at hs
    subst hs
    simp only [pnpmKeysToDelete, ih hrest, List.filter_cons, pnpmDeletes]
    split <;> rfl

theorem pnpmKeysToDelete_stringValued (patches : List GoString) :
    ∀ (m : List (GoString × GoValue)) (keys : List GoString),
      pnpmKeysToDelete patches m = Except.ok keys → stringValued m := by
  intro m
  induction m with
  | nil => intro _ _ e he; cases he
  | cons e rest ih =>
    intro keys h
    obtain ⟨key, value⟩ := e
    cases value with
    | str s =>
      simp only [pnpmKeysToDelete] at h
      cases hr : pnpmKeysToDelete patches rest with
      | error err => rw [hr] at h; simp at h
      | ok keys2 => exact (stringValued_cons _ _).2 ⟨⟨s, rfl⟩, ih keys2 hr⟩
    | null => simp [pnpmKeysToDelete] at h
    | other r => simp [pnpmKeysToDelete] at h
    | array vs => simp [pnpmKeysToDelete] at h
    | object es => simp [pnpmKeysToDelete] at h

/-- Once the keys of the entries that `del` selects are deleted from a map, `del`
selects no entry of what is left. -/
theorem filter_deleted_eq_nil (del : GoString × GoValue → Bool) (m : List (GoString × GoValue)) :
    ((((m.filter del).map Prod.fst).foldl mapDelete m).filter del) = [] := by
  rw [foldl_mapDelete, List.filter_filter]
  apply List.filter_eq_nil_iff.2
  intro e he
  by_cases hd : del e = true
  · have hmem : e.1 ∈ (m.filter del).map Prod.fst :=
      List.mem_map.2 ⟨e, List.mem_filter.2 ⟨he, hd⟩, rfl⟩
    have hc : ((m.filter del).map Prod.fst).contains e.1 = true := List.elem_eq_true_of_mem hmem
    rw [hc]
    simp
  · simp [hd]

theorem stringValued_deleted (keys : List GoString) (m : List (GoString × GoValue))
    (h : stringValued m) : stringValued (keys.foldl mapDelete m) := by
  rw [foldl_mapDelete]
  exact stringValued_filter _ m h

theorem berryPrunePatches_idempotent (pkgJSON : PackageJSON) (patches : List GoString)
    (h : (nodejsBerryPrunePatches pkgJSON patches).2 = none) :
    nodejsBerryPrunePatches (nodejsBerryPrunePatches pkgJSON patches).1 patches
      = ((nodejsBerryPrunePatches pkgJSON patches).1, none) := by
  cases hres : pkgJSON.Resolutions with
  | object m =>
    cases hk : berryKeysToDelete patches m with
    | error err => simp [nodejsBerryPrunePatches, hres, hk] at h
    | ok keys =>
      have hs := berryKeysToDelete_stringValued patches m keys hk
      have hkeys : keys = (m.filter (berryDeletes patches)).map Prod.fst := by
        have := berryKeysToDelete_of_stringValued patches m hs
        rw [hk] at this
        exact Except.ok.inj this
      have hfirst : nodejsBerryPrunePatches pkgJSON patches
          = ({ pkgJSON with Resolutions := GoValue.object (keys.foldl mapDelete m) }, none) := by
        simp only [nodejsBerryPrunePatches, hres, hk]
      rw [hfirst]
      have hsecond : berryKeysToDelete patches (keys.foldl mapDelete m) = Except.ok [] := by
        rw [berryKeysToDelete_of_stringValued patches _ (stringValued_deleted keys m hs), hkeys,
          filter_deleted_eq_nil]
        rfl
      simp only [nodejsBerryPrunePatches, hsecond, List.foldl_nil]
  | null => simp [nodejsBerryPrunePatches, hres] at h
  | str s => simp [nodejsBerryPrunePatches, hres] at h
  | other r => simp [nodejsBerryPrunePatches, hres] at h
  | array vs => simp [nodejsBerryPrunePatches, hres] at h

theorem withPatchedDependencies_idem (pnpmConfig patched : List (GoString × GoValue)) :
    withPatchedDependencies (withPatchedDependencies pnpmConfig patched) patched
      = withPatchedDependencies pnpmConfig patched := by
  induction pnpmConfig with
  | nil => rfl
  | cons entry rest ih =>
    rw [withPatchedDependencies_cons, withPatchedDependencies_cons, ih]
    by_cases hk : entry.1 = "patchedDependencies".toList
    · rw [if_pos hk, if_pos hk]
    · rw [if_neg hk, if_neg hk]

theorem pnpmPrunePatches_ok (pkgJSON : PackageJSON)
    (pnpmConfig patchedDependencies : List (GoString × GoValue))
    (patches keys : List GoString) (hpnpm : pkgJSON.Pnpm = GoValue.object pnpmConfig)
    (hpatched : mapLookup pnpmConfig "patchedDependencies".toList
      = GoValue.object patchedDependencies)
    (hk : pnpmKeysToDelete patches patchedDependencies = Except.ok keys) :
    pnpmPrunePatches pkgJSON patches
      = ({ pkgJSON with
            Pnpm := GoValue.object (withPatchedDependencies pnpmConfig
              (keys.foldl mapDelete patchedDependencies)) }, none) := by
  rw [pnpmPrunePatches, hpnpm]
  simp only [hpatched, hk]
  rfl

theorem pnpmPrunePatches_error (pkgJSON : PackageJSON)
    (pnpmConfig patchedDependencies : List (GoString × GoValue))
    (patches : List GoString) (err : GoError) (hpnpm : pkgJSON.Pnpm = GoValue.object pnpmConfig)
    (hpatched : mapLookup pnpmConfig "patchedDependencies".toList
      = GoValue.object patchedDependencies)
    (hk : pnpmKeysToDelete patches patchedDependencies = Except.error err) :
    pnpmPrunePatches pkgJSON patches = (pkgJSON, some err) := by
  rw [pnpmPrunePatches, hpnpm]
  simp only [hpatched, hk]

theorem pnpmPrunePatches_no_patched (pkgJSON : PackageJSON)
    (pnpmConfig : List (GoString × GoValue)) (patches : List GoString)
    (hpnpm : pkgJSON.Pnpm = GoValue.object pnpmConfig)
    (hpatched : ∀ m, mapLookup pnpmConfig "patchedDependencies".toList ≠ GoValue.object m) :
    pnpmPrunePatches pkgJSON patches
      = (pkgJSON, some "invalid structure for patchedDependencies field in package.json") := by
  rw [pnpmPrunePatches, hpnpm]
  cases hv : mapLookup pnpmConfig "patchedDependencies".toList with
  | object m => exact absurd hv (hpatched m)
  | null => simp only [hv]
  | str s => simp only [hv]
  | other r => simp only [hv]
  | array vs => simp only [hv]

theorem pnpmPrunePatches_no_pnpm (pkgJSON : PackageJSON) (patches : List GoString)
    (hpnpm : ∀ m, pkgJSON.Pnpm ≠ GoValue.object m) :
    pnpmPrunePatches pkgJSON patches
      = (pkgJSON, some "invalid structure for pnpm field in package.json") := by
  rw [pnpmPrunePatches]
  cases hv : pkgJSON.Pnpm with
  | object m => exact absurd hv (hpnpm m)
  | null => rfl
  | str s => rfl
  | other r => rfl
  | array vs => rfl

theorem pnpmPrunePatches_idempotent (pkgJSON : PackageJSON) (patches : List GoString)
    (h : (pnpmPrunePatches pkgJSON patches).2 = none) :
    pnpmPrunePatches (pnpmPrunePatches pkgJSON patches).1 patches
      = ((pnpmPrunePatches pkgJSON patches).1, none) := by
  by_cases hpnpm : ∃ pnpmConfig, pkgJSON.Pnpm = GoValue.object pnpmConfig
  · obtain ⟨pnpmConfig, hpnpm⟩ := hpnpm
    by_cases hpatched : ∃ m, mapLookup pnpmConfig "patchedDependencies".toList
        = GoValue.object m
    · obtain ⟨m, hpatched⟩ := hpatched
      cases hk : pnpmKeysToDelete patches m with
      | error err =>
        rw [pnpmPrunePatches_error pkgJSON pnpmConfig m patches err hpnpm hpatched hk] at h
        cases h
      | ok keys =>
        have hs := pnpmKeysToDelete_stringValued patches m keys hk
        have hkeys : keys = (m.filter (pnpmDeletes patches)).map Prod.fst := by
          have := pnpmKeysToDelete_of_stringValued patches m hs
          rw [hk] at this
          exact Except.ok.inj this
        rw [pnpmPrunePatches_ok pkgJSON pnpmConfig m patches keys hpnpm hpatched hk]
        have hsecond : pnpmKeysToDelete patches (keys.foldl mapDelete m) = Except.ok [] := by
          rw [pnpmKeysToDelete_of_stringValued patches _ (stringValued_deleted keys m hs), hkeys,
            filter_deleted_eq_nil]
          rfl
        rw [pnpmPrunePatches_ok _ (withPatchedDependencies pnpmConfig (keys.foldl mapDelete m))
          (keys.foldl mapDelete m) patches [] rfl
          (mapLookup_withPatched pnpmConfig m _ hpatched) hsecond]
        simp only [List.foldl_nil, withPatchedDependencies_idem]
    · rw [pnpmPrunePatches_no_patched pkgJSON pnpmConfig patches hpnpm
        (fun m hm => hpatched ⟨m, hm⟩)] at h
      cases h
  · rw [pnpmPrunePatches_no_pnpm pkgJSON patches (fun m hm => hpnpm ⟨m, hm⟩)] at h
    cases h

/-- C23: `PrunePatchedPackages` is idempotent for every descriptor of the registry,
the two descriptors that are defined in other files having no patch-pruning
routine: when a first pruning of a manifest returns a nil error, pruning the
manifest it leaves against the same retained patches returns a nil error and
leaves that manifest as it is. -/
theorem prune_idempotent (a : Absent) (pm : PackageManager) (pkgJSON : PackageJSON)
    (patches : List GoString) (hyarn : a.yarn.prunePatches = none)
    (hnpm : a.npm.prunePatches = none) (hpm : pm ∈ packageManagers a)
    (hfirst : (PrunePatchedPackages pm pkgJSON patches).2 = none) :
    PrunePatchedPackages pm (PrunePatchedPackages pm pkgJSON patches).1 patches
      = ((PrunePatchedPackages pm pkgJSON patches).1, none) := by
  simp only [packageManagers, List.mem_cons, List.mem_singleton, List.not_mem_nil, or_false]
    at hpm
  have hnone : ∀ p : PackageManager, p.prunePatches = none →
      PrunePatchedPackages p (PrunePatchedPackages p pkgJSON patches).1 patches
        = ((PrunePatchedPackages p pkgJSON patches).1, none) := by
    intro p hp
    simp only [PrunePatchedPackages, hp]
  rcases hpm with h | h | h | h | h
  all_goals subst h
  all_goals first
    | exact hnone _ hyarn
    | exact hnone _ hnpm
    | exact hnone _ rfl
    | exact berryPrunePatches_idempotent pkgJSON patches hfirst
    | exact pnpmPrunePatches_idempotent pkgJSON patches hfirst

/-- Witness of C23: pruning `patchedManifest` with berry, the lodash patch retained,
succeeds, and a second pruning leaves the pruned manifest as it is. -/
theorem prune_idempotent_witness :
    (PrunePatchedPackages nodejsBerry patchedManifest [".yarn/patches/lodash.patch".toList]).2
      = none ∧
    PrunePatchedPackages nodejsBerry
        (PrunePatchedPackages nodejsBerry patchedManifest
          [".yarn/patches/lodash.patch".toList]).1
        [".yarn/patches/lodash.patch".toList]
      = ((PrunePatchedPackages nodejsBerry patchedManifest
          [".yarn/patches/lodash.patch".toList]).1, none) :=
  ⟨rfl, prune_idempotent quietAbsent nodejsBerry patchedManifest
    [".yarn/patches/lodash.patch".toList] rfl rfl
    (List.mem_cons_of_mem _ (List.mem_cons_self _ _)) rfl⟩

theorem berryKeysToDelete_error (patches : List GoString) (m : List (GoString × GoValue))
    (h : ¬ stringValued m) : ∃ err, berryKeysToDelete patches m = Except.error err := by
  cases hk : berryKeysToDelete patches m with
  | error err => exact ⟨err, rfl⟩
  | ok keys => exact absurd (berryKeysToDelete_stringValued patches m keys hk) h

theorem pnpmKeysToDelete_error (patches : List GoString) (m : List (GoString × GoValue))
    (h : ¬ stringValued m) : ∃ err, pnpmKeysToDelete patches m = Except.error err := by
  cases hk : pnpmKeysToDelete patches m with
  | error err => exact ⟨err, rfl⟩
  | ok keys => exact absurd (pnpmKeysToDelete_stringValued patches m keys hk) h

theorem berryPrunePatches_no_resolutions (pkgJSON : PackageJSON) (patches : List GoString)
    (hres : ∀ m, pkgJSON.Resolutions ≠ GoValue.object m) :
    nodejsBerryPrunePatches pkgJSON patches
      = (pkgJSON, some "invalid structure for resolutions field in package.json") := by
  rw [nodejsBerryPrunePatches]
  cases hv : pkgJSON.Resolutions with
  | object m => exact absurd hv (hres m)
  | null => rfl
  | str s => rfl
  | other r => rfl
  | array vs => rfl

theorem berryPrunePatches_error (pkgJSON : PackageJSON) (m : List (GoString × GoValue))
    (patches : List GoString) (err : GoError) (hres : pkgJSON.Resolutions = GoValue.object m)
    (hk : berryKeysToDelete patches m = Except.error err) :
    nodejsBerryPrunePatches pkgJSON patches = (pkgJSON, some err) := by
  rw [nodejsBerryPrunePatches, hres]
  simp only [hk]

/-- C24: patch pruning returns an error and leaves the manifest as it was
* for berry, when `resolutions` is not a map (the nil interface of an absent field
  included), and when it is a map one of whose values is not a string;
* for pnpm, when `pnpm` is not a map, when `pnpm.patchedDependencies` is not a map
  (the nil interface of an absent key included), and when it is a map one of whose
  values is not a string.
The manifest `malformedManifest` is evaluated with both descriptors. -/
theorem prune_malformed (pkgJSON : PackageJSON) (patches : List GoString) :
    ((∀ m, pkgJSON.Resolutions ≠ GoValue.object m) →
      PrunePatchedPackages nodejsBerry pkgJSON patches
        = (pkgJSON, some "invalid structure for resolutions field in package.json")) ∧
    (pkgJSON.Resolutions = GoValue.null →
      PrunePatchedPackages nodejsBerry pkgJSON patches
        = (pkgJSON, some "invalid structure for resolutions field in package.json")) ∧
    (∀ m, pkgJSON.Resolutions = GoValue.object m → ¬ stringValued m →
      ∃ err, PrunePatchedPackages nodejsBerry pkgJSON patches = (pkgJSON, some err)) ∧
    ((∀ pnpmConfig, pkgJSON.Pnpm ≠ GoValue.object pnpmConfig) →
      PrunePatchedPackages nodejsPnpm pkgJSON patches
        = (pkgJSON, some "invalid structure for pnpm field in package.json")) ∧
    (∀ pnpmConfig, pkgJSON.Pnpm = GoValue.object pnpmConfig →
      (∀ m, mapLookup pnpmConfig "patchedDependencies".toList ≠ GoValue.object m) →
      PrunePatchedPackages nodejsPnpm pkgJSON patches
        = (pkgJSON, some "invalid structure for patchedDependencies field in package.json")) ∧
    (∀ pnpmConfig m, pkgJSON.Pnpm = GoValue.object pnpmConfig →
      mapLookup pnpmConfig "patchedDependencies".toList = GoValue.object m →
      ¬ stringValued m →
      ∃ err, PrunePatchedPackages nodejsPnpm pkgJSON patches = (pkgJSON, some err)) ∧
    PrunePatchedPackages nodejsBerry malformedManifest patches
      = (malformedManifest,
          some "expected value of left-pad in package.json to be a string, got 1") ∧
    PrunePatchedPackages nodejsPnpm malformedManifest patches
      = (malformedManifest,
          some "invalid structure for patchedDependencies field in package.json") := by
  refine ⟨berryPrunePatches_no_resolutions pkgJSON patches, ?_, ?_,
    pnpmPrunePatches_no_pnpm pkgJSON patches, ?_, ?_, rfl, rfl⟩
  · intro hnull
    exact berryPrunePatches_no_resolutions pkgJSON patches (fun m hm => by rw [hnull] at hm; cases hm)
  · intro m hres hs
    obtain ⟨err, herr⟩ := berryKeysToDelete_error patches m hs
    exact ⟨err, berryPrunePatches_error pkgJSON m patches err hres herr⟩
  · intro pnpmConfig hpnpm hpatched
    exact pnpmPrunePatches_no_patched pkgJSON pnpmConfig patches hpnpm hpatched
  · intro pnpmConfig m hpnpm hpatched hs
    obtain ⟨err, herr⟩ := pnpmKeysToDelete_error patches m hs
    exact ⟨err, pnpmPrunePatches_error pkgJSON pnpmConfig m patches err hpnpm hpatched herr⟩

/-- C25: the descriptor `nodejsPnpm6` has no patch-pruning routine, and
`PrunePatchedPackages` of it, as of every descriptor without one, returns a nil
error and the manifest as it was, for every manifest and every list of retained
patches; `malformedManifest` is one of them. -/
theorem pnpm6_prune_noop (pkgJSON : PackageJSON) (patches : List GoString) :
    (nodejsPnpm6.prunePatches.isNone = true) ∧
    PrunePatchedPackages nodejsPnpm6 pkgJSON patches = (pkgJSON, none) ∧
    PrunePatchedPackages nodejsPnpm6 malformedManifest patches = (malformedManifest, none) ∧
    (∀ pm : PackageManager, pm.prunePatches.isNone = true →
      PrunePatchedPackages pm pkgJSON patches = (pkgJSON, none)) := by
  refine ⟨rfl, rfl, rfl, ?_⟩
  intro pm hpm
  cases hp : pm.prunePatches with
  | none => simp only [PrunePatchedPackages, hp]
  | some f => rw [hp] at hpm; cases hpm

/-! ## Eligibility for pruning (C26) -/

theorem isNMLinker_true (w : World) (cwd : GoString) (h : declaresNMLinker w cwd) :
    isNMLinker w cwd = (true, none) := by
  obtain ⟨bytes, yarnRC, hr, hu, hl⟩ := h
  rw [isNMLinker, hr]
  simp only [hu, decide_eq_true hl]

theorem berryCanPrune_cases (w : World) (cwd : GoString) :
    (declaresNMLinker w cwd ∧ nodejsBerryCanPrune w cwd = (true, none)) ∨
    (¬ declaresNMLinker w cwd ∧ ∃ err, nodejsBerryCanPrune w cwd = (false, some err)) := by
  by_cases h : declaresNMLinker w cwd
  · left
    refine ⟨h, ?_⟩
    rw [nodejsBerryCanPrune, isNMLinker_true w cwd h]
    rfl
  · right
    refine ⟨h, ?_⟩
    have hcases := isNMLinker_cases w cwd (fun bytes yarnRC hr hu hl => h ⟨bytes, yarnRC, hr, hu, hl⟩)
    rcases hcases with ⟨err, he⟩ | he
    · exact ⟨_, by rw [nodejsBerryCanPrune, he]⟩
    · exact ⟨_, by rw [nodejsBerryCanPrune, he]; rfl⟩

/-- C26: `CanPrune` of the berry descriptor returns `(true, nil)` if and only if
`.yarnrc.yml` in the given directory can be read, decodes and declares the linker
`node-modules`; in every other case it returns false with a non-nil error, and it
never returns `(false, nil)`. For pnpm and pnpm6 it returns `(true, nil)` for every
directory, and for a descriptor whose `canPrune` is nil it returns `(false, nil)`.
On `berryNMWorld` berry can prune, on `berryPnpWorld` and on `emptyWorld` it
cannot. -/
theorem can_prune (w : World) (cwd : GoString) :
    (CanPrune w nodejsBerry cwd = (true, none) ↔ declaresNMLinker w cwd) ∧
    (¬ declaresNMLinker w cwd → ∃ err, CanPrune w nodejsBerry cwd = (false, some err)) ∧
    CanPrune w nodejsBerry cwd ≠ (false, none) ∧
    CanPrune w nodejsPnpm cwd = (true, none) ∧
    CanPrune w nodejsPnpm6 cwd = (true, none) ∧
    (∀ pm : PackageManager, pm.canPrune.isNone = true → CanPrune w pm cwd = (false, none)) ∧
    CanPrune berryNMWorld nodejsBerry cwd = (true, none) ∧
    CanPrune berryPnpWorld nodejsBerry cwd
      = (false, some "only yarn v2/v3 with `nodeLinker: node-modules` is supported at this time") ∧
    CanPrune emptyWorld nodejsBerry cwd
      = (false, some ("could not determine if yarn is using `nodeLinker: node-modules`: "
          ++ ".yarnrc.yml: no such file or directory")) := by
  have hb : CanPrune w nodejsBerry cwd = nodejsBerryCanPrune w cwd := rfl
  refine ⟨?_, ?_, ?_, rfl, rfl, ?_, rfl, rfl, rfl⟩
  · rw [hb]
    rcases berryCanPrune_cases w cwd with ⟨h1, h2⟩ | ⟨h1, err, h2⟩
    · exact ⟨fun _ => h1, fun _ => h2⟩
    · constructor
      · intro h
        rw [h2] at h
        cases h
      · intro h
        exact absurd h h1
  · intro h
    rw [hb]
    rcases berryCanPrune_cases w cwd with ⟨h1, _⟩ | ⟨_, err, h2⟩
    · exact absurd h1 h
    · exact ⟨err, h2⟩
  · rw [hb]
    rcases berryCanPrune_cases w cwd with ⟨_, h2⟩ | ⟨_, err, h2⟩
    · rw [h2]; intro h; cases h
    · rw [h2]; intro h; cases h
  · intro pm hpm
    cases hp : pm.canPrune with
    | none => simp only [CanPrune, hp]
    | some f => rw [hp] at hpm; cases hpm

/-! ## The upward walk (C27) -/

theorem ancestor_succ (w : World) (n : Nat) (dir : GoString) :
    ancestor w (n + 1) dir = w.filepathDir (ancestor w n dir) := by
  induction n generalizing dir with
  | zero => rfl
  | succ k ih =>
    show ancestor w (k + 1) (w.filepathDir dir) = _
    rw [ih]
    rfl

theorem ancestor_of_root (w : World) (dir : GoString) (h : w.filepathDir dir = dir) :
    ∀ n, ancestor w n dir = dir := by
  intro n
  induction n with
  | zero => rfl
  | succ k ih =>
    show ancestor w k (w.filepathDir dir) = dir
    rw [h, ih]

theorem FindupFrom_found (w : World) (fuel : Nat) (name dir : GoString)
    (h : hasFile w name dir = (true, none)) :
    FindupFrom w (fuel + 1) name dir = some (w.filepathJoin dir name, none) := by
  rw [FindupFrom, h]
  rfl

theorem FindupFrom_error (w : World) (fuel : Nat) (name dir : GoString) (found : Bool)
    (err : GoError) (h : hasFile w name dir = (found, some err)) :
    FindupFrom w (fuel + 1) name dir = some ([], some err) := by
  rw [FindupFrom, h]

theorem FindupFrom_root (w : World) (fuel : Nat) (name dir : GoString)
    (h : hasFile w name dir = (false, none)) (hroot : w.filepathDir dir = dir) :
    FindupFrom w (fuel + 1) name dir = some ([], none) := by
  rw [FindupFrom, h]
  simp only [Bool.false_eq_true, if_false, hroot, if_true]

theorem FindupFrom_step (w : World) (fuel : Nat) (name dir : GoString)
    (h : hasFile w name dir = (false, none)) (hroot : w.filepathDir dir ≠ dir) :
    FindupFrom w (fuel + 1) name dir = FindupFrom w fuel name (w.filepathDir dir) := by
  rw [FindupFrom, h]
  simp only [Bool.false_eq_true, if_false, hroot]

/-- The walk from `dir` over `n` directories without the entry reaches the `n`-th
ancestor, or has already returned the empty path at a root. -/
theorem FindupFrom_climb (w : World) (name : GoString) :
    ∀ (n fuel : Nat) (dir : GoString),
      (∀ k < n, hasFile w name (ancestor w k dir) = (false, none)) →
      FindupFrom w (n + fuel) name dir = FindupFrom w fuel name (ancestor w n dir) ∨
      (FindupFrom w (n + fuel) name dir = some ([], none) ∧
        w.filepathDir (ancestor w n dir) = ancestor w n dir ∧
        hasFile w name (ancestor w n dir) = (false, none)) := by
  intro n
  induction n with
  | zero =>
    intro fuel dir _
    left
    rw [Nat.zero_add]
    rfl
  | succ k ih =>
    intro fuel dir hbelow
    have h0 : hasFile w name dir = (false, none) := hbelow 0 (Nat.succ_pos k)
    have hrest : ∀ j < k, hasFile w name (ancestor w j (w.filepathDir dir)) = (false, none) :=
      fun j hj => hbelow (j + 1) (Nat.succ_lt_succ hj)
    have hfuel : k + 1 + fuel = (k + fuel) + 1 := by omega
    rw [hfuel]
    by_cases hroot : w.filepathDir dir = dir
    · right
      refine ⟨FindupFrom_root w _ name dir h0 hroot, ?_, ?_⟩
      · rw [ancestor_of_root w dir hroot (k + 1), hroot]
      · rw [ancestor_of_root w dir hroot (k + 1)]
        exact h0
    · rw [FindupFrom_step w _ name dir h0 hroot]
      exact ih fuel (w.filepathDir dir) hrest

theorem FindupFrom_returns (w : World) (name : GoString) :
    ∀ (m : Nat) (dir : GoString), w.filepathDir (ancestor w m dir) = ancestor w m dir →
      ∃ result, ∀ fuel, m < fuel → FindupFrom w fuel name dir = some result := by
  have himmediate : ∀ (m : Nat) (dir : GoString),
      hasFile w name dir ≠ (false, none) ∨ w.filepathDir dir = dir →
      ∃ result, ∀ fuel, m < fuel → FindupFrom w fuel name dir = some result := by
    intro m dir h
    cases hf : hasFile w name dir with
    | mk found e =>
      cases e with
      | some err =>
        refine ⟨([], some err), fun fuel hfuel => ?_⟩
        obtain ⟨f, rfl⟩ : ∃ f, fuel = f + 1 := ⟨fuel - 1, by omega⟩
        exact FindupFrom_error w f name dir found err hf
      | none =>
        cases found with
        | true =>
          refine ⟨(w.filepathJoin dir name, none), fun fuel hfuel => ?_⟩
          obtain ⟨f, rfl⟩ : ∃ f, fuel = f + 1 := ⟨fuel - 1, by omega⟩
          exact FindupFrom_found w f name dir hf
        | false =>
          rcases h with h | h
          · exact absurd hf h
          · refine ⟨([], none), fun fuel hfuel => ?_⟩
            obtain ⟨f, rfl⟩ : ∃ f, fuel = f + 1 := ⟨fuel - 1, by omega⟩
            exact FindupFrom_root w f name dir hf h
  intro m
  induction m with
  | zero =>
    intro dir hroot
    exact himmediate 0 dir (Or.inr hroot)
  | succ k ih =>
    intro dir hroot
    by_cases h : hasFile w name dir ≠ (false, none) ∨ w.filepathDir dir = dir
    · exact himmediate (k + 1) dir h
    · have h0 : hasFile w name dir = (false, none) := by
        by_contra hne
        exact h (Or.inl hne)
      have hnr : w.filepathDir dir ≠ dir := fun hr => h (Or.inr hr)
      obtain ⟨result, hres⟩ := ih (w.filepathDir dir) hroot
      refine ⟨result, fun fuel hfuel => ?_⟩
      obtain ⟨f, rfl⟩ : ∃ f, fuel = f + 1 := ⟨fuel - 1, by omega⟩
      rw [FindupFrom_step w f name dir h0 hnr]
      exact hres f (by omega)

/-- C27: let the first `n` directories of the walk from `dir` (`dir` itself and
its ancestors below the `n`-th) be readable and without an entry `name`. Then,
with any number of iterations above `n`,
* if the `n`-th ancestor has the entry, `FindupFrom` returns `filepath.Join` of
  that directory and `name` with a nil error;
* if the `n`-th ancestor cannot be read, it returns the empty path and that error;
* if the `n`-th ancestor is readable without the entry and equal to its own
  parent, it returns the empty path and a nil error.
And whenever some ancestor of `dir` is equal to its own parent, the loop returns:
there is a result that every large enough number of iterations yields. -/
theorem findup_from (w : World) (name dir : GoString) (n : Nat)
    (hbelow : ∀ k < n, hasFile w name (ancestor w k dir) = (false, none)) :
    (hasFile w name (ancestor w n dir) = (true, none) →
      ∀ fuel, n < fuel →
        FindupFrom w fuel name dir = some (w.filepathJoin (ancestor w n dir) name, none)) ∧
    (∀ found err, hasFile w name (ancestor w n dir) = (found, some err) →
      ∀ fuel, n < fuel → FindupFrom w fuel name dir = some ([], some err)) ∧
    (hasFile w name (ancestor w n dir) = (false, none) →
      w.filepathDir (ancestor w n dir) = ancestor w n dir →
      ∀ fuel, n < fuel → FindupFrom w fuel name dir = some ([], none)) ∧
    (∀ m, w.filepathDir (ancestor w m dir) = ancestor w m dir →
      ∃ result, ∀ fuel, m < fuel → FindupFrom w fuel name dir = some result) := by
  have hsplit : ∀ fuel, n < fuel → ∃ f, fuel = n + (f + 1) :=
    fun fuel hfuel => ⟨fuel - n - 1, by omega⟩
  refine ⟨?_, ?_, ?_, fun m hm => FindupFrom_returns w name m dir hm⟩
  · intro hfound fuel hfuel
    obtain ⟨f, rfl⟩ := hsplit fuel hfuel
    rcases FindupFrom_climb w name n (f + 1) dir hbelow with h | ⟨_, _, h⟩
    · rw [h]
      exact FindupFrom_found w f name _ hfound
    · rw [hfound] at h
      cases h
  · intro found err herr fuel hfuel
    obtain ⟨f, rfl⟩ := hsplit fuel hfuel
    rcases FindupFrom_climb w name n (f + 1) dir hbelow with h | ⟨_, _, h⟩
    · rw [h]
      exact FindupFrom_error w f name _ found err herr
    · rw [herr] at h
      cases h
  · intro hnot hroot fuel hfuel
    obtain ⟨f, rfl⟩ := hsplit fuel hfuel
    rcases FindupFrom_climb w name n (f + 1) dir hbelow with h | ⟨h, _, _⟩
    · rw [h]
      exact FindupFrom_root w f name _ hnot hroot
    · exact h

/-- Witness of C27: on `markerWorld` the walk from `/repo/app/src` passes two
directories without `turbo.json` and returns `/repo/turbo.json`. -/
theorem findup_from_witness :
    FindupFrom markerWorld 3 "turbo.json".toList "/repo/app/src".toList
      = some ("/repo/turbo.json".toList, none) :=
  (findup_from markerWorld "turbo.json".toList "/repo/app/src".toList 2
    (fun k hk => match k, hk with
      | 0, _ => rfl
      | 1, _ => rfl)).1 rfl 3 (by decide)

/-! ## The inference of the root (C28, C29) -/

theorem InferRoot_table :
    ∀ t ∈ inferRootTests,
      InferRoot (testWorld t.fs) 8 (underRoot t.executionDirectory)
        = some (underRoot t.rootPath, t.packageMode) := by
  decide

theorem nearestDirWith_found (w : World) (fuel : Nat) (name dir : GoString)
    (h : hasFile w name dir = (true, none)) :
    nearestDirWith w (fuel + 1) name dir = some (some dir) := by
  rw [nearestDirWith, h]
  rfl

theorem nearestDirWith_error (w : World) (fuel : Nat) (name dir : GoString) (found : Bool)
    (err : GoError) (h : hasFile w name dir = (found, some err)) :
    nearestDirWith w (fuel + 1) name dir = some none := by
  rw [nearestDirWith, h]

theorem nearestDirWith_root (w : World) (fuel : Nat) (name dir : GoString)
    (h : hasFile w name dir = (false, none)) (hroot : w.filepathDir dir = dir) :
    nearestDirWith w (fuel + 1) name dir = some none := by
  rw [nearestDirWith, h]
  simp only [Bool.false_eq_true, if_false, hroot, if_true]

theorem nearestDirWith_step (w : World) (fuel : Nat) (name dir : GoString)
    (h : hasFile w name dir = (false, none)) (hroot : w.filepathDir dir ≠ dir) :
    nearestDirWith w (fuel + 1) name dir = nearestDirWith w fuel name (w.filepathDir dir) := by
  rw [nearestDirWith, h]
  simp only [Bool.false_eq_true, if_false, hroot]

theorem nearestDirWith_climb (w : World) (name : GoString) :
    ∀ (n fuel : Nat) (dir : GoString),
      (∀ k < n, hasFile w name (ancestor w k dir) = (false, none)) →
      nearestDirWith w (n + fuel) name dir = nearestDirWith w fuel name (ancestor w n dir) ∨
      (nearestDirWith w (n + fuel) name dir = some none ∧
        w.filepathDir (ancestor w n dir) = ancestor w n dir ∧
        hasFile w name (ancestor w n dir) = (false, none)) := by
  intro n
  induction n with
  | zero =>
    intro fuel dir _
    left
    rw [Nat.zero_add]
    rfl
  | succ k ih =>
    intro fuel dir hbelow
    have h0 : hasFile w name dir = (false, none) := hbelow 0 (Nat.succ_pos k)
    have hrest : ∀ j < k, hasFile w name (ancestor w j (w.filepathDir dir)) = (false, none) :=
      fun j hj => hbelow (j + 1) (Nat.succ_lt_succ hj)
    have hfuel : k + 1 + fuel = (k + fuel) + 1 := by omega
    rw [hfuel]
    by_cases hroot : w.filepathDir dir = dir
    · right
      refine ⟨nearestDirWith_root w _ name dir h0 hroot, ?_, ?_⟩
      · rw [ancestor_of_root w dir hroot (k + 1), hroot]
      · rw [ancestor_of_root w dir hroot (k + 1)]
        exact h0
    · rw [nearestDirWith_step w _ name dir h0 hroot]
      exact ih fuel (w.filepathDir dir) hrest

/-- The upward walk finds the `n`-th ancestor when it is the first directory with
the entry. -/
theorem nearestDirWith_ancestor (w : World) (name dir : GoString) (n fuel : Nat)
    (hbelow : ∀ k < n, hasFile w name (ancestor w k dir) = (false, none))
    (hfound : hasFile w name (ancestor w n dir) = (true, none)) (hfuel : n < fuel) :
    nearestDirWith w fuel name dir = some (some (ancestor w n dir)) := by
  obtain ⟨f, rfl⟩ : ∃ f, fuel = n + (f + 1) := ⟨fuel - n - 1, by omega⟩
  rcases nearestDirWith_climb w name n (f + 1) dir hbelow with h | ⟨_, _, h⟩
  · rw [h]
    exact nearestDirWith_found w f name _ hfound
  · rw [hfound] at h
    cases h

theorem modeAtMarker_cases (w : World) (dir : GoString) :
    (manifestWorkspaces w dir ≠ [] → modeAtMarker w dir = PackageType.Multi) ∧
    (manifestWorkspaces w dir = [] → manifestPackages w dir ≠ [] →
      modeAtMarker w dir = PackageType.Single) ∧
    (manifestWorkspaces w dir = [] → manifestPackages w dir = [] →
      workspaceFilePackages w dir ≠ [] → modeAtMarker w dir = PackageType.Multi) ∧
    (manifestWorkspaces w dir = [] → manifestPackages w dir = [] →
      workspaceFilePackages w dir = [] → modeAtMarker w dir = PackageType.Single) := by
  unfold modeAtMarker
  refine ⟨?_, ?_, ?_, ?_⟩
  · intro h1
    simp [List.isEmpty_iff, h1]
  · intro h1 h2
    simp [List.isEmpty_iff, h1, h2]
  · intro h1 h2 h3
    simp [List.isEmpty_iff, h1, h2, h3]
  · intro h1 h2 h3
    simp [List.isEmpty_iff, h1, h2, h3]

/-- C28: let the marker file `turbo.json` be in the `n`-th ancestor of the starting
directory (the starting directory itself for `n = 0`) and in no directory of the
walk below it, and let that directory have a manifest. Then, with more than `n`
directories allowed to the walk, `InferRoot` returns that directory as the root,
and the mode is `Multi` when the field `workspaces` is present, whatever the field
`packages`; `Single` when only the field `packages` is present; `Multi` when
neither is present and `pnpm-workspace.yaml` declares packages; `Single` when
neither is present and it declares none. -/
theorem infer_root_marker (w : World) (fuel n : Nat) (start : GoString)
    (hbelow : ∀ k < n, hasFile w "turbo.json".toList (ancestor w k start) = (false, none))
    (hmarker : hasFile w "turbo.json".toList (ancestor w n start) = (true, none))
    (hmanifest : hasManifest w (ancestor w n start) = true) (hfuel : n < fuel) :
    InferRoot w fuel start = some (ancestor w n start, modeAtMarker w (ancestor w n start)) ∧
    (manifestWorkspaces w (ancestor w n start) ≠ [] →
      InferRoot w fuel start = some (ancestor w n start, PackageType.Multi)) ∧
    (manifestWorkspaces w (ancestor w n start) = [] →
      manifestPackages w (ancestor w n start) ≠ [] →
      InferRoot w fuel start = some (ancestor w n start, PackageType.Single)) ∧
    (manifestWorkspaces w (ancestor w n start) = [] →
      manifestPackages w (ancestor w n start) = [] →
      workspaceFilePackages w (ancestor w n start) ≠ [] →
      InferRoot w fuel start = some (ancestor w n start, PackageType.Multi)) ∧
    (manifestWorkspaces w (ancestor w n start) = [] →
      manifestPackages w (ancestor w n start) = [] →
      workspaceFilePackages w (ancestor w n start) = [] →
      InferRoot w fuel start = some (ancestor w n start, PackageType.Single)) := by
  have hroot : InferRoot w fuel start
      = some (ancestor w n start, modeAtMarker w (ancestor w n start)) := by
    rw [InferRoot, nearestDirWith_ancestor w _ start n fuel hbelow hmarker hfuel]
    simp only [hmanifest, if_true]
  obtain ⟨h1, h2, h3, h4⟩ := modeAtMarker_cases w (ancestor w n start)
  refine ⟨hroot, ?_, ?_, ?_, ?_⟩
  · intro a
    rw [hroot, h1 a]
  · intro a b
    rw [hroot, h2 a b]
  · intro a b c
    rw [hroot, h3 a b c]
  · intro a b c
    rw [hroot, h4 a b c]

/-- Witness of C28: on `bothFieldsWorld` the walk from `/t/app` finds the marker
file in `/t`, whose manifest has both fields, and the result is `/t` and `Multi`. -/
theorem infer_root_marker_witness :
    InferRoot bothFieldsWorld 4 "/t/app".toList = some ("/t".toList, PackageType.Multi) :=
  (infer_root_marker bothFieldsWorld 4 1 "/t/app".toList
    (fun k hk => match k, hk with
      | 0, _ => rfl)
    rfl rfl (by decide)).2.1 (by decide)

/-- C29, at an input on which it fails. On `nestedRootWorld` there is no marker
file, every directory from `/repo/app` to the root has a manifest, no manifest of
an ancestor declares workspaces, and the one pattern that the manifest of
`/repo/app` declares does not match the path of `/repo/app` relative to itself;
the mode is `Multi`. -/
theorem infer_root_no_marker_counterexample :
    nearestDirWith nestedRootWorld 4 "turbo.json".toList "/repo/app".toList = some none ∧
    hasManifest nestedRootWorld "/repo/app".toList = true ∧
    hasManifest nestedRootWorld "/repo".toList = true ∧
    hasManifest nestedRootWorld "/".toList = true ∧
    declaredGlobs nestedRootWorld "/repo".toList = [] ∧
    declaredGlobs nestedRootWorld "/".toList = [] ∧
    declaredGlobs nestedRootWorld "/repo/app".toList = ["exists".toList] ∧
    isMember nestedRootWorld ["exists".toList] "/repo/app".toList "/repo/app".toList = false ∧
    InferRoot nestedRootWorld 4 "/repo/app".toList
      = some ("/repo/app".toList, PackageType.Multi) := by
  decide

theorem declaresNothing_of_root (w : World) (dir : GoString) (n : Nat)
    (hroot : w.filepathDir dir = dir) (h : declaresNothing w dir) :
    declaresNothing w (ancestor w n dir) := by
  rw [ancestor_of_root w dir hroot n]
  exact h

theorem modeFromAncestors_stop (w : World) (start dir : GoString) (fuel : Nat)
    (h : ¬ declaresNothing w dir) :
    modeFromAncestors w start (fuel + 1) dir
      = some (if isMember w (declaredGlobs w dir) dir start then PackageType.Multi
          else PackageType.Single) := by
  have hb : (hasManifest w dir && !(declaredGlobs w dir).isEmpty) = true := by
    simpa [declaresNothing] using h
  rw [modeFromAncestors, if_pos hb]

theorem modeFromAncestors_root (w : World) (start dir : GoString) (fuel : Nat)
    (h : declaresNothing w dir) (hroot : w.filepathDir dir = dir) :
    modeFromAncestors w start (fuel + 1) dir = some PackageType.Single := by
  have hb : ¬ (hasManifest w dir && !(declaredGlobs w dir).isEmpty) = true := by
    rw [h]; simp
  rw [modeFromAncestors, if_neg hb, if_pos hroot]

theorem modeFromAncestors_step (w : World) (start dir : GoString) (fuel : Nat)
    (h : declaresNothing w dir) (hroot : w.filepathDir dir ≠ dir) :
    modeFromAncestors w start (fuel + 1) dir
      = modeFromAncestors w start fuel (w.filepathDir dir) := by
  have hb : ¬ (hasManifest w dir && !(declaredGlobs w dir).isEmpty) = true := by
    rw [h]; simp
  rw [modeFromAncestors, if_neg hb, if_neg hroot]

theorem modeFromAncestors_climb (w : World) (start : GoString) :
    ∀ (n fuel : Nat) (dir : GoString),
      (∀ k < n, declaresNothing w (ancestor w k dir)) →
      modeFromAncestors w start (n + fuel) dir
          = modeFromAncestors w start fuel (ancestor w n dir) ∨
      (modeFromAncestors w start (n + fuel) dir = some PackageType.Single ∧
        w.filepathDir (ancestor w n dir) = ancestor w n dir ∧
        declaresNothing w (ancestor w n dir)) := by
  intro n
  induction n with
  | zero =>
    intro fuel dir _
    left
    rw [Nat.zero_add]
    rfl
  | succ k ih =>
    intro fuel dir hbelow
    have h0 : declaresNothing w dir := hbelow 0 (Nat.succ_pos k)
    have hrest : ∀ j < k, declaresNothing w (ancestor w j (w.filepathDir dir)) :=
      fun j hj => hbelow (j + 1) (Nat.succ_lt_succ hj)
    have hfuel : k + 1 + fuel = (k + fuel) + 1 := by omega
    rw [hfuel]
    by_cases hroot : w.filepathDir dir = dir
    · right
      refine ⟨modeFromAncestors_root w start dir _ h0 hroot, ?_, ?_⟩
      · rw [ancestor_of_root w dir hroot (k + 1), hroot]
      · exact declaresNothing_of_root w dir (k + 1) hroot h0
    · rw [modeFromAncestors_step w start dir _ h0 hroot]
      exact ih fuel (w.filepathDir dir) hrest

theorem hasFile_of_hasManifest (w : World) (dir : GoString) (h : hasManifest w dir = true) :
    hasFile w "package.json".toList dir = (true, none) := by
  unfold hasManifest at h
  cases hf : hasFile w "package.json".toList dir with
  | mk found e =>
    rw [hf] at h
    cases e with
    | some err => cases h
    | none =>
      have hfound : found = true := h
      rw [hfound]

/-- Without a marker file, the inference from a starting directory that has a
manifest: what `InferRoot` computes. -/
theorem InferRoot_of_manifest (w : World) (fuel : Nat) (start : GoString)
    (hmarker : nearestDirWith w (fuel + 1) "turbo.json".toList start = some none)
    (hstart : hasManifest w start = true) :
    InferRoot w (fuel + 1) start
      = if !(declaredGlobs w start).isEmpty then some (start, PackageType.Multi)
        else if w.filepathDir start = start then some (start, PackageType.Single)
        else
          match modeFromAncestors w start (fuel + 1) (w.filepathDir start) with
          | none => none
          | some mode => some (start, mode) := by
  rw [InferRoot, hmarker]
  simp only [modeWithoutMarker,
    nearestDirWith_found w fuel _ start (hasFile_of_hasManifest w start hstart)]
  cases (!(declaredGlobs w start).isEmpty) with
  | true => rfl
  | false =>
    by_cases h2 : w.filepathDir start = start
    · simp [h2]
    · simp only [Bool.false_eq_true, if_false, h2]

theorem declaresNothing_of_nil (w : World) (dir : GoString) (h : declaredGlobs w dir = []) :
    declaresNothing w dir := by
  unfold declaresNothing
  rw [h]
  simp

theorem not_declaresNothing (w : World) (dir : GoString) (hm : hasManifest w dir = true)
    (hg : declaredGlobs w dir ≠ []) : ¬ declaresNothing w dir := by
  unfold declaresNothing
  rw [hm]
  simp [List.isEmpty_iff, hg]

/-- C29, amended. When the walk for the marker file ends without one:
* whatever `InferRoot` returns has the starting directory as its root;
* when the starting directory has a manifest that declares workspaces, the
  result is the starting directory and `Multi`;
* when the starting directory has a manifest that declares none, and the `n`-th
  ancestor is the nearest directory above it with a manifest that declares
  workspaces, the mode is `Multi` if one of these patterns matches the path of
  the starting directory relative to that ancestor, and `Single` if none does;
* when the starting directory has a manifest that declares none and no directory
  above it, up to the root, has a manifest that declares workspaces, the mode is
  `Single`. -/
theorem infer_root_no_marker (w : World) (fuel : Nat) (start : GoString)
    (hmarker : nearestDirWith w fuel "turbo.json".toList start = some none) :
    (∀ result, InferRoot w fuel start = some result → result.1 = start) ∧
    (hasManifest w start = true → declaredGlobs w start ≠ [] →
      InferRoot w fuel start = some (start, PackageType.Multi)) ∧
    (∀ n, 1 ≤ n → n < fuel → hasManifest w start = true → declaredGlobs w start = [] →
      (∀ k, 1 ≤ k → k < n → declaresNothing w (ancestor w k start)) →
      hasManifest w (ancestor w n start) = true → declaredGlobs w (ancestor w n start) ≠ [] →
      InferRoot w fuel start
        = some (start,
            if isMember w (declaredGlobs w (ancestor w n start)) (ancestor w n start) start
            then PackageType.Multi else PackageType.Single)) ∧
    (∀ n, n < fuel → hasManifest w start = true → declaredGlobs w start = [] →
      (∀ k, 1 ≤ k → k ≤ n → declaresNothing w (ancestor w k start)) →
      w.filepathDir (ancestor w n start) = ancestor w n start →
      InferRoot w fuel start = some (start, PackageType.Single)) := by
  refine ⟨?_, ?_, ?_, ?_⟩
  · intro result hres
    rw [InferRoot, hmarker] at hres
    cases hm : modeWithoutMarker w fuel start with
    | none => simp only [hm] at hres; cases hres
    | some mode =>
      simp only [hm] at hres
      rw [← Option.some.inj hres]
  · intro hstart hglobs
    cases fuel with
    | zero => cases hmarker
    | succ f =>
      rw [InferRoot_of_manifest w f start hmarker hstart]
      simp [List.isEmpty_iff, hglobs]
  · intro n hn hfuel hstart hglobs hbetween hman hdecl
    cases fuel with
    | zero => cases hmarker
    | succ f =>
      have hstop := not_declaresNothing w _ hman hdecl
      have hq0 := declaresNothing_of_nil w start hglobs
      have hnr : w.filepathDir start ≠ start := by
        intro hroot
        exact hstop (declaresNothing_of_root w start n hroot hq0)
      rw [InferRoot_of_manifest w f start hmarker hstart]
      simp only [hglobs, List.isEmpty_nil, Bool.not_true, Bool.false_eq_true, if_false, hnr]
      obtain ⟨m, rfl⟩ : ∃ m, n = m + 1 := ⟨n - 1, by omega⟩
      obtain ⟨g, hg⟩ : ∃ g, f + 1 = m + (g + 1) := ⟨f - m, by omega⟩
      rw [hg]
      have hlevels : ∀ j < m, declaresNothing w (ancestor w j (w.filepathDir start)) :=
        fun j hj => hbetween (j + 1) (by omega) (by omega)
      rcases modeFromAncestors_climb w start m (g + 1) (w.filepathDir start) hlevels
        with h | ⟨_, _, h⟩
      · rw [h]
        have hs : modeFromAncestors w start (g + 1) (ancestor w m (w.filepathDir start))
            = some (if isMember w (declaredGlobs w (ancestor w (m + 1) start))
                (ancestor w (m + 1) start) start then PackageType.Multi
              else PackageType.Single) :=
          modeFromAncestors_stop w start _ g hstop
        rw [hs]
      · exact absurd h hstop
  · intro n hfuel hstart hglobs hlevels hroot
    cases fuel with
    | zero => cases hmarker
    | succ f =>
      rw [InferRoot_of_manifest w f start hmarker hstart]
      simp only [hglobs, List.isEmpty_nil, Bool.not_true, Bool.false_eq_true, if_false]
      by_cases hnr : w.filepathDir start = start
      · simp only [hnr, if_true]
      · simp only [hnr, if_false]
        cases n with
        | zero => exact absurd hroot hnr
        | succ m =>
          obtain ⟨g, hg⟩ : ∃ g, f + 1 = m + (g + 1) := ⟨f - m, by omega⟩
          rw [hg]
          have hbelow : ∀ j < m, declaresNothing w (ancestor w j (w.filepathDir start)) :=
            fun j hj => hlevels (j + 1) (by omega) (by omega)
          have htop : declaresNothing w (ancestor w m (w.filepathDir start)) :=
            hlevels (m + 1) (by omega) (le_refl _)
          rcases modeFromAncestors_climb w start m (g + 1) (w.filepathDir start) hbelow
            with h | ⟨h, _, _⟩
          · rw [h]
            have hs : modeFromAncestors w start (g + 1) (ancestor w m (w.filepathDir start))
                = some PackageType.Single :=
              modeFromAncestors_root w start _ g htop hroot
            rw [hs]
          · rw [h]

/-- Witness of C29: on `memberWorld` there is no marker file, the manifests of
`/t/one/two/three`, `/t/one/two` and `/t/one` declare nothing, and the pattern
`one/two/three` of the manifest of `/t` matches the starting directory: the
result is the starting directory and `Multi`. -/
theorem infer_root_no_marker_witness :
    InferRoot memberWorld 8 "/t/one/two/three".toList
      = some ("/t/one/two/three".toList, PackageType.Multi) :=
  (infer_root_no_marker memberWorld 8 "/t/one/two/three".toList rfl).2.2.1 3
    (by decide) (by decide) rfl rfl
    (fun k h1 h2 => match k, h1, h2 with
      | 1, _, _ => rfl
      | 2, _, _ => rfl)
    rfl (by decide)

/-! ## The ignore loop (C30) -/

/-- C30, at the failing input `duplicatesWorld`: the two patterns collect the
manifest of `packages/a` twice, the two default ignore patterns remove nothing,
and in the loop of the third ignore pattern the first iteration removes an
element, after which the second iteration, at index 1 of a slice of length 1,
evaluates `res[2:]`: `GetWorkspaces` panics. With the same files and one of the two
patterns alone the call returns. -/
theorem get_workspaces_panics :
    collectMatches duplicatesWorld "root".toList
        ["packages/*/package.json".toList, "packages/a/package.json".toList]
      = Except.ok ["packages/a/package.json".toList, "packages/a/package.json".toList] ∧
    GetWorkspaceIgnores duplicatesWorld nodejsPnpm "root".toList
      = (["**/node_modules/**".toList, "**/bower_components/**".toList,
          "packages/a/package.json".toList], none) ∧
    ignorePass duplicatesWorld "packages/a/package.json".toList 2 0
        ["packages/a/package.json".toList, "packages/a/package.json".toList] 2 = none ∧
    GetWorkspaces duplicatesWorld nodejsPnpm "root".toList true = none ∧
    GetWorkspaces duplicatesWorld nodejsPnpm "root".toList false = none ∧
    ignoreLoop duplicatesWorld
        ["**/node_modules/**".toList, "**/bower_components/**".toList,
          "packages/a/package.json".toList]
        ["packages/a/package.json".toList]
      = some (Except.ok []) :=
  ⟨rfl, rfl, rfl, rfl, rfl, rfl⟩

/-! ## What the parse keeps of the match (C31) -/

theorem dropWhile_nil_or_head (p : Char → Bool) :
    ∀ l : GoString, l.dropWhile p = [] ∨ ∃ c t, l.dropWhile p = c :: t ∧ p c = false := by
  intro l
  induction l with
  | nil => exact Or.inl rfl
  | cons c t ih =>
    by_cases hc : p c = true
    · simpa [List.dropWhile, hc] using ih
    · have hf : p c = false := by simpa using hc
      exact Or.inr ⟨c, t, by simp [List.dropWhile, hf], hf⟩

/-- The parse of a text in which `FindString` finds a match that starts with a
declaration: the version is the match after the manager's `@`, up to the next `@`. -/
theorem parse_of_FindString (s m A B C X : GoString) (hm : m ∈ managerNames)
    (hF : Re.FindString packageManagerRegex s = declaration m A B C ++ X) :
    ParsePackageManagerString s
      = some (m, (versionText A B C ++ X).takeWhile (fun c => c != '@'), none) := by
  have hsplit : stringsSplit '@' (declaration m A B C ++ X)
      = m :: stringsSplit '@' (versionText A B C ++ X) := by
    have e : declaration m A B C ++ X = m ++ '@' :: (versionText A B C ++ X) := by
      simp [declaration]
    rw [e]
    exact stringsSplit_append_sep '@' m _ (at_not_mem_manager m hm)
  obtain ⟨r, hr⟩ := stringsSplit_eq_cons '@' (versionText A B C ++ X)
  have hlen : (declaration m A B C ++ X).length ≠ 0 := by simp [declaration]
  simp only [ParsePackageManagerString, hF, hsplit, hr]
  rw [if_neg hlen]
  simp

/-- C31, at the failing input `npm@1.2.3-alpha@beta`: the leftmost match of the
pattern is the whole text, and `ParsePackageManagerString` returns the manager
`npm` and the version `1.2.3-alpha`, so that manager, `@` and version put together
are not the match: `@beta` is lost. In general, whenever the function returns a
nil error the manager is one of `npm`, `pnpm`, `yarn`, the version holds no `@`,
and the match is manager, `@`, version and a tail that is empty or starts with
an `@`. -/
theorem parse_loses_tail :
    Re.FindString packageManagerRegex "npm@1.2.3-alpha@beta".toList
      = "npm@1.2.3-alpha@beta".toList ∧
    ParsePackageManagerString "npm@1.2.3-alpha@beta".toList
      = some ("npm".toList, "1.2.3-alpha".toList, none) ∧
    "npm".toList ++ '@' :: "1.2.3-alpha".toList
      ≠ Re.FindString packageManagerRegex "npm@1.2.3-alpha@beta".toList ∧
    (∀ s manager version, ParsePackageManagerString s = some (manager, version, none) →
      manager ∈ managerNames ∧ '@' ∉ version ∧
      ∃ tail, Re.FindString packageManagerRegex s = manager ++ '@' :: (version ++ tail) ∧
        (tail = [] ∨ ∃ rest, tail = '@' :: rest)) := by
  refine ⟨by decide, by decide, by decide, ?_⟩
  intro s manager version h
  by_cases hd : hasDeclaration s
  · obtain ⟨m, A, B, C, X, hm, _, _, _, hF⟩ := FindString_of_hasDeclaration s hd
    rw [parse_of_FindString s m A B C X hm hF] at h
    have h1 := Option.some.inj h
    have hmm : m = manager := congrArg Prod.fst h1
    have hv : (versionText A B C ++ X).takeWhile (fun c => c != '@') = version :=
      congrArg (fun t => t.2.1) h1
    subst hmm
    refine ⟨hm, ?_, (versionText A B C ++ X).dropWhile (fun c => c != '@'), ?_, ?_⟩
    · intro hmem
      rw [← hv] at hmem
      have := List.mem_takeWhile_imp hmem
      simp at this
    · rw [hF, ← hv, List.takeWhile_append_dropWhile]
      simp [declaration]
    · rcases dropWhile_nil_or_head (fun c => c != '@') (versionText A B C ++ X)
        with h0 | ⟨c, t, h0, hc⟩
      · exact Or.inl h0
      · have hc2 : c = '@' := by simpa using hc
        subst hc2
        exact Or.inr ⟨t, h0⟩
  · rw [parse_of_not_hasDeclaration s hd] at h
    have h1 := Option.some.inj h
    have h2 : (some (parseError s) : Option GoError) = none := congrArg (fun t => t.2.2) h1
    cases h2

/-! ## The declaration of pnpm, split in two (C32) -/

theorem bang_cons_drop (g : GoString) (h : stringsHasPrefix g "!".toList = true) :
    '!' :: g.drop 1 = g := by
  have e : "!".toList = ['!'] := rfl
  cases g with
  | nil => simp [stringsHasPrefix, e, List.isPrefixOf] at h
  | cons c rest =>
    have hc : c = '!' := by
      by_contra hne
      have hne2 : ¬ '!' = c := fun x => hne x.symm
      simp [stringsHasPrefix, e, List.isPrefixOf, hne2] at h
    simp [hc]

theorem hasPrefix_bang_cons (x : GoString) : stringsHasPrefix ('!' :: x) "!".toList = true := by
  have e : "!".toList = ['!'] := rfl
  simp [stringsHasPrefix, e, List.isPrefixOf]

theorem filterMap_ignoreEntry :
    ∀ packages : List GoString,
      packages.filterMap ignoreEntry
        = (packages.filter (fun g => stringsHasPrefix g "!".toList)).map (fun g => g.drop 1) := by
  intro packages
  induction packages with
  | nil => rfl
  | cons g rest ih =>
    by_cases hg : stringsHasPrefix g "!".toList = true
    · rw [List.filterMap_cons, (hasPrefix_bang g).1 hg, List.filter_cons, if_pos hg,
        List.map_cons, ih]
    · rw [List.filterMap_cons, (hasPrefix_bang g).2 hg, List.filter_cons, if_neg hg, ih]

theorem map_bang_ignored :
    ∀ packages : List GoString,
      ((packages.filter (fun g => stringsHasPrefix g "!".toList)).map (fun g => g.drop 1)).map
          (fun x => '!' :: x)
        = packages.filter (fun g => stringsHasPrefix g "!".toList) := by
  intro packages
  rw [List.map_map]
  conv_rhs => rw [← List.map_id (packages.filter (fun g => stringsHasPrefix g "!".toList))]
  apply List.map_congr_left
  intro g hg
  exact bang_cons_drop g (List.mem_filter.1 hg).2

/-- C32: when `pnpm-workspace.yaml` is read and its list `packages` is not empty,
`getPnpmWorkspaceGlobs` returns the entries that do not start with `!`, in their
order, and `getPnpmWorkspaceIgnores` returns the two defaults followed by the
entries that start with `!`, without that `!`, in their order. The lengths of the
two lists add up to the length of `packages` plus 2; the globs together with the
ignore entries after the defaults, their `!` put back, are the declared entries
up to order; and each declared entry is among the globs if and only if it does
not start with `!`, and is an ignore entry with a `!` before it if and only if it
starts with `!`. -/
theorem pnpm_partition (w : World) (pm : PackageManagerData) (rootpath : GoString)
    (packages : List GoString)
    (h : readPnpmWorkspacePackages w (w.filepathJoin rootpath "pnpm-workspace.yaml".toList)
      = (packages, none)) (hne : packages ≠ []) :
    getPnpmWorkspaceGlobs w rootpath
      = (packages.filter (fun g => !stringsHasPrefix g "!".toList), none) ∧
    getPnpmWorkspaceIgnores w pm rootpath
      = ("**/node_modules/**".toList :: "**/bower_components/**".toList ::
          (packages.filter (fun g => stringsHasPrefix g "!".toList)).map (fun g => g.drop 1),
          none) ∧
    (getPnpmWorkspaceGlobs w rootpath).1.length
        + (getPnpmWorkspaceIgnores w pm rootpath).1.length - 2 = packages.length ∧
    List.Perm
      ((getPnpmWorkspaceGlobs w rootpath).1
        ++ ((getPnpmWorkspaceIgnores w pm rootpath).1.drop 2).map (fun x => '!' :: x))
      packages ∧
    (∀ p ∈ packages,
      (p ∈ (getPnpmWorkspaceGlobs w rootpath).1 ↔ stringsHasPrefix p "!".toList = false) ∧
      ((∃ x ∈ (getPnpmWorkspaceIgnores w pm rootpath).1.drop 2, p = '!' :: x)
        ↔ stringsHasPrefix p "!".toList = true)) := by
  have hg := getPnpmWorkspaceGlobs_eq w rootpath packages h hne
  have hi : getPnpmWorkspaceIgnores w pm rootpath
      = ("**/node_modules/**".toList :: "**/bower_components/**".toList ::
          (packages.filter (fun g => stringsHasPrefix g "!".toList)).map (fun g => g.drop 1),
          none) := by
    rw [getPnpmWorkspaceIgnores_eq w pm rootpath packages h, filterMap_ignoreEntry]
  have hperm : List.Perm
      (packages.filter (fun g => !stringsHasPrefix g "!".toList)
        ++ packages.filter (fun g => stringsHasPrefix g "!".toList)) packages := by
    have h1 := List.filter_append_perm (fun g => stringsHasPrefix g "!".toList) packages
    exact (List.perm_append_comm).trans h1
  refine ⟨hg, hi, ?_, ?_, ?_⟩
  · rw [hg, hi]
    have hlen := hperm.length_eq
    simp only [List.length_append] at hlen
    simp only [List.length_cons, List.length_map]
    omega
  · rw [hg, hi]
    simp only [List.drop_succ_cons, List.drop_zero]
    rw [map_bang_ignored]
    exact hperm
  · intro p hp
    rw [hg, hi]
    simp only [List.drop_succ_cons, List.drop_zero]
    constructor
    · rw [List.mem_filter]
      constructor
      · intro hmem
        simpa using hmem.2
      · intro hb
        exact ⟨hp, by rw [hb]; rfl⟩
    · constructor
      · rintro ⟨x, _, rfl⟩
        exact hasPrefix_bang_cons x
      · intro hb
        exact ⟨p.drop 1, List.mem_map.2 ⟨p, List.mem_filter.2 ⟨hp, hb⟩, rfl⟩,
          (bang_cons_drop p hb).symm⟩

/-- Witness of C32: on `skipWorld`, whose declaration is `packages/*` and
`!packages/skip`, the globs are `packages/*` and the ignore patterns are the two
defaults and `packages/skip`. -/
theorem pnpm_partition_witness :
    getPnpmWorkspaceGlobs skipWorld "root".toList = (["packages/*".toList], none) ∧
    getPnpmWorkspaceIgnores skipWorld nodejsPnpm.toPackageManagerData "root".toList
      = (["**/node_modules/**".toList, "**/bower_components/**".toList,
          "packages/skip".toList], none) :=
  ⟨(pnpm_partition skipWorld nodejsPnpm.toPackageManagerData "root".toList
      ["packages/*".toList, "!packages/skip".toList] rfl (List.cons_ne_nil _ _)).1,
    (pnpm_partition skipWorld nodejsPnpm.toPackageManagerData "root".toList
      ["packages/*".toList, "!packages/skip".toList] rfl (List.cons_ne_nil _ _)).2.1⟩

end Packagemanager
